import Mathlib

/-!
Number sentence parser

A shallow embedding of `number_sentence_parser.c` and theorems about it.

Memory model.

The program parses a NUL-terminated `char` array in place: it overwrites
characters of the array with `'\0'` and recurses on pointers into it.  Every
access the program makes through a `char *p` has the form `p[i]` with `i ≥ 0`,
so a pointer is modelled by the list of the characters from the pointed-to
cell up to the end of the array it points into (`p + k` is `List.drop k`).  A
read or write past the end of the array is undefined behaviour in C; the model
reports it as `Result.outOfBounds`.  `exit(EXIT_FAILURE)` is
`Result.exitFailure`.  The recursion of `parse` is bounded by a fuel argument
(the depth of the call stack); `Result.outOfFuel` means the bound was hit.

`main` hands `parse` an array that holds exactly the characters of the
expression followed by the terminator: `cstring s`.

Trees.

`ASTNODE *` is the type `ASTNODE`, with `NULL` the null pointer.  The symbol
of a node is the string that `newAST` copies: the characters from the pointer
it is given up to the first `'\0'` (`newASTSymbol`).  For the node of the
middle operator the source calls `newAST(&op)` on the address of a single
`char`, so `strlen` and `strcpy` read on behind `op`, outside the object.
What stands there is not fixed by the program; `parseWithStack` takes it as an
argument (`stack`), the empty list being the case that nothing behind `op` may
be read.  `parse` is the run in which a `'\0'` stands right behind `op` in
every call, where the symbol is the one character `op`
(`parseWithStack_terminated`).  `evaluate` reads the first character of a
symbol only.

Numbers.

`double` and `strtod` belong to the C library; `evaluate` is embedded over an
arbitrary carrier with the four operations and `strtod` given (`Arith`).
`ratArith` is the instance with exact rational arithmetic and a decimal reader,
which agrees with `double` as long as every value is a small integer.
`doubleArith` adds the special values of IEEE-754, not-a-number and the two
infinities, to the exact finite values; rounding and the sign of zero are left
out of it.
-/

namespace NumberSentence

/-! ## Results of running a piece of the program -/

/-- Outcome of running a function of the program. -/
inductive Result (α : Type) where
  | ok (a : α)
  | outOfBounds
  | exitFailure
  | outOfFuel
  deriving DecidableEq, Repr

/-- The terminator `'\0'`. -/
def NUL : Char := Char.ofNat 0

/-- The array `main` builds for the expression `s`: its characters, then `'\0'`. -/
def cstring (s : List Char) : List Char := s ++ [NUL]

/-- Read `p[i]`. -/
def readAt (p : List Char) (i : Nat) : Result Char :=
  match p.get? i with
  | some c => .ok c
  | none => .outOfBounds

/-- Read `p[i]` for an `int` index. -/
def readInt (p : List Char) (i : Int) : Result Char :=
  if i < 0 then .outOfBounds else readAt p i.toNat

/-- Write `p[i] = c`. -/
def writeAt (p : List Char) (i : Nat) (c : Char) : Result (List Char) :=
  if i < p.length then .ok (p.set i c) else .outOfBounds

/-- Write `p[i] = c` for an `int` index. -/
def writeInt (p : List Char) (i : Int) (c : Char) : Result (List Char) :=
  if i < 0 then .outOfBounds else writeAt p i.toNat c

/-- Sequencing: run `x`, and if it returns, go on with `f`. -/
def Result.bind {α β : Type} (x : Result α) (f : α → Result β) : Result β :=
  match x with
  | .ok a => f a
  | .outOfBounds => .outOfBounds
  | .exitFailure => .exitFailure
  | .outOfFuel => .outOfFuel

/-- Library `strlen`: the number of characters before the first `'\0'`. -/
def strlen : List Char → Result Nat
  | [] => .outOfBounds
  | c :: cs =>
    if c = NUL then .ok 0
    else (strlen cs).bind fun n => .ok (n + 1)

/-! ## The tree -/

/-- A pointer to an `ASTNODE`: `NULL`, or a node with its symbol and children. -/
inductive ASTNODE where
  | NULL
  | node (symbol : List Char) (left right : ASTNODE)
  deriving DecidableEq, Repr

/-- Function `newAST`: a node with a copy of the symbol and two null children. -/
def newAST (symbol : List Char) : ASTNODE := .node symbol .NULL .NULL

/-- The string `newAST` stores for the pointer `symbol`: `strlen(symbol)` and
`strcpy(new->symbol, symbol)` read from the pointer up to the first `'\0'`. -/
def newASTSymbol (symbol : List Char) : Result (List Char) :=
  (strlen symbol).bind fun n => .ok (symbol.take n)

/-- A leaf of the specification: a node with no children. -/
def Leaf (c : List Char) : ASTNODE := newAST c

/-- A binary node of the specification: operator symbol and two children. -/
def BinaryOp (k : Char) (l r : ASTNODE) : ASTNODE := .node [k] l r

/-! ## Character classes -/

/-- Function `isNumeralSymbol`. -/
def isNumeralSymbol (symbol : Char) : Bool :=
  (decide ('0' ≤ symbol) && decide (symbol ≤ '9')) || symbol == '.'

/-- Function `isOperatorSymbol`. -/
def isOperatorSymbol (symbol : Char) : Bool :=
  if symbol = '+' then true
  else if symbol = '-' then true
  else if symbol = '*' then true
  else if symbol = '/' then true
  else false

/-- Function `isBracketSymbol`. -/
def isBracketSymbol (symbol : Char) : Int :=
  if symbol = '(' then 1
  else if symbol = ')' then -1
  else 0

/-- The `for` loop of `isNumeral` over the characters before the terminator. -/
def isNumeralLoop : List Char → Bool → Bool
  | [], _ => true
  | c :: cs, hasDecimal =>
    if isNumeralSymbol c then isNumeralLoop cs hasDecimal
    else if c = '.' then
      if !hasDecimal then isNumeralLoop cs true
      else false
    else false

/-- Function `isNumeral`.  The loop runs over the indices below
`strlen(expression)`; the string is not written to, so the length is the same
at every test of the loop. -/
def isNumeral (expression : List Char) : Result Bool :=
  (strlen expression).bind fun n => .ok (isNumeralLoop (expression.take n) false)

/-! ## removeOuterMostParen -/

/-- The `while` loop of `removeOuterMostParen`; `rest` is `expression + curr_index`.
Returns the final `curr_index`. -/
def parenLoop (last_chr_index : Int) : List Char → Int → Nat → Result Nat
  | [], bracket_count, curr_index =>
    if bracket_count ≠ 0 ∧ (curr_index : Int) ≤ last_chr_index then .outOfBounds
    else .ok curr_index
  | c :: cs, bracket_count, curr_index =>
    if bracket_count ≠ 0 ∧ (curr_index : Int) ≤ last_chr_index then
      parenLoop last_chr_index cs
        ((if bracket_count = -1 then 0 else bracket_count) + isBracketSymbol c)
        (curr_index + 1)
    else .ok curr_index

/-- Function `removeOuterMostParen`, with the depth of its recursion bounded by
the first argument.  Returns the offset of the returned pointer from
`expression` and the array from `expression` on, as the calls left it. -/
def removeOuterMostParenAux : Nat → List Char → Result (Nat × List Char)
  | 0, _ => .outOfFuel
  | fuel + 1, expression =>
    (strlen expression).bind fun n =>
    let last_chr_index : Int := (n : Int) - 1
    (readAt expression 0).bind fun first =>
    if first ≠ '(' then .ok (0, expression)
    else
      (readInt expression last_chr_index).bind fun lastc =>
      if lastc ≠ ')' then .ok (0, expression)
      else
        (parenLoop last_chr_index expression (-1) 0).bind fun curr_index =>
        if (curr_index : Int) > last_chr_index then
          (writeAt expression 0 NUL).bind fun e1 =>
          (writeInt e1 last_chr_index NUL).bind fun e2 =>
          (removeOuterMostParenAux fuel (e2.drop 1)).bind fun r =>
          .ok (r.1 + 1, e2.take 1 ++ r.2)
        else .ok (0, expression)

/-- Function `removeOuterMostParen`.  Every recursive call is on a string
shorter than the array, so the length of the array bounds the recursion. -/
def removeOuterMostParen (expression : List Char) : Result (Nat × List Char) :=
  removeOuterMostParenAux (expression.length + 1) expression

/-! ## extractFirstNumeral -/

/-- First loop of `extractFirstNumeral`: counts the characters of the numeral.
Returns `digitCount`. -/
def countLoop : List Char → Nat → Bool → Result Nat
  | [], _, _ => .outOfBounds
  | c :: cs, digitCount, hasDecimal =>
    if isNumeralSymbol c then countLoop cs (digitCount + 1) hasDecimal
    else if c = '.' then
      if !hasDecimal then countLoop cs digitCount true
      else .exitFailure
    else .ok digitCount

/-- Second loop of `extractFirstNumeral`: copies the numeral into
`numeral[digitCount + 1]` and overwrites it with `'\0'` in the expression.
Returns the characters stored in `numeral` before its terminator and the
expression array. -/
def copyLoop (digitCount : Nat) : List Char → Nat → Result (List Char × List Char)
  | [], _ => .outOfBounds
  | c :: cs, index =>
    if isNumeralSymbol c || c == '.' then
      if index < digitCount + 1 then
        (copyLoop digitCount cs (index + 1)).bind fun r => .ok (c :: r.1, NUL :: r.2)
      else .outOfBounds
    else if index < digitCount + 1 then .ok ([], c :: cs)
    else .outOfBounds

/-- Function `extractFirstNumeral`. -/
def extractFirstNumeral (expression : List Char) : Result (ASTNODE × List Char) :=
  (countLoop expression 0 false).bind fun digitCount =>
  (copyLoop digitCount expression 0).bind fun r =>
  .ok (newAST r.1, r.2)

/-! ## parse -/

/-- The `while` loop of `parse` that looks for the middle operator; `rest` is
`expression + curr_index`.  Returns the final `curr_index`. -/
def operatorLoop (last_chr_index : Int) : List Char → Int → Nat → Result Nat
  | [], _, _ => .outOfBounds
  | c :: cs, bracket_count, curr_index =>
    if !isOperatorSymbol c ||
        (decide (bracket_count ≠ 0) && decide ((curr_index : Int) ≤ last_chr_index - 1)) then
      operatorLoop last_chr_index cs
        ((if bracket_count = -1 then 0 else bracket_count) + isBracketSymbol c)
        (curr_index + 1)
    else .ok curr_index

/-- Function `parse` in the run where a `'\0'` stands right behind the local
`op` of every call, so that `newAST(&op)` stores the one character `op`
(`parseWithStack_terminated`); the first argument bounds the depth of the
recursion.  Returns the tree and the array from `expression` on, as the calls
left it. -/
def parse : Nat → List Char → Result (ASTNODE × List Char)
  | 0, _ => .outOfFuel
  | fuel + 1, expression =>
    (strlen expression).bind fun n =>
    let last_chr_index : Int := (n : Int) - 1
    (readAt expression 0).bind fun first =>
    if isNumeralSymbol first then extractFirstNumeral expression
    else if first = '-' then
      (parse fuel (expression.drop 1)).bind fun r =>
      .ok (.node ['-'] (newAST ['0']) r.1, expression.take 1 ++ r.2)
    else
      (removeOuterMostParen expression).bind fun stripped =>
      let e := stripped.2.drop stripped.1
      (operatorLoop last_chr_index e (-1) 0).bind fun curr_index =>
      if (curr_index : Int) > last_chr_index - 1 then
        (parse fuel e).bind fun r => .ok (r.1, stripped.2.take stripped.1 ++ r.2)
      else
        (readAt e curr_index).bind fun op =>
        (writeAt e curr_index NUL).bind fun e1 =>
        (parse fuel e1).bind fun l =>
        (parse fuel (l.2.drop (curr_index + 1))).bind fun r =>
        .ok (.node [op] l.1 r.1,
          stripped.2.take stripped.1 ++ (l.2.take (curr_index + 1) ++ r.2))

/-- Function `parse` with the memory behind the local `op` given: in the call
at depth `fuel` on `expression`, `stack fuel expression` is what follows `op`
up to the end of the memory that may be read.  `newAST(&op)` copies `op` and
what follows it up to the first `'\0'`, and reads out of bounds where there is
none. -/
def parseWithStack (stack : Nat → List Char → List Char) :
    Nat → List Char → Result (ASTNODE × List Char)
  | 0, _ => .outOfFuel
  | fuel + 1, expression =>
    (strlen expression).bind fun n =>
    let last_chr_index : Int := (n : Int) - 1
    (readAt expression 0).bind fun first =>
    if isNumeralSymbol first then extractFirstNumeral expression
    else if first = '-' then
      (parseWithStack stack fuel (expression.drop 1)).bind fun r =>
      .ok (.node ['-'] (newAST ['0']) r.1, expression.take 1 ++ r.2)
    else
      (removeOuterMostParen expression).bind fun stripped =>
      let e := stripped.2.drop stripped.1
      (operatorLoop last_chr_index e (-1) 0).bind fun curr_index =>
      if (curr_index : Int) > last_chr_index - 1 then
        (parseWithStack stack fuel e).bind fun r =>
        .ok (r.1, stripped.2.take stripped.1 ++ r.2)
      else
        (readAt e curr_index).bind fun op =>
        (newASTSymbol (op :: stack fuel expression)).bind fun symbol =>
        (writeAt e curr_index NUL).bind fun e1 =>
        (parseWithStack stack fuel e1).bind fun l =>
        (parseWithStack stack fuel (l.2.drop (curr_index + 1))).bind fun r =>
        .ok (.node symbol l.1 r.1,
          stripped.2.take stripped.1 ++ (l.2.take (curr_index + 1) ++ r.2))

/-- The tree `parse` returns for the expression `s`, as `main` calls it. -/
def parseTree (fuel : Nat) (s : List Char) : Result ASTNODE :=
  (parse fuel (cstring s)).bind fun r => .ok r.1

/-- The call `parse(s)` returns the tree `t`: some depth of recursion is enough
for it. -/
def Returns (s : List Char) (t : ASTNODE) : Prop :=
  ∃ fuel, parseTree fuel s = .ok t

/-! ## evaluate -/

/-- The arithmetic of `double` and the library function `strtod`, which the
program takes from the C implementation. -/
structure Arith (α : Type) where
  add : α → α → α
  sub : α → α → α
  mul : α → α → α
  div : α → α → α
  strtod : List Char → α

/-- Function `evaluate`.  `none` is the dereference of a null pointer. -/
def evaluate {α : Type} (ar : Arith α) : ASTNODE → Option α
  | .NULL => none
  | .node symbol left right =>
    let c := symbol.headD NUL
    if c = '+' then
      match evaluate ar left, evaluate ar right with
      | some a, some b => some (ar.add a b)
      | _, _ => none
    else if c = '-' then
      match evaluate ar left, evaluate ar right with
      | some a, some b => some (ar.sub a b)
      | _, _ => none
    else if c = '*' then
      match evaluate ar left, evaluate ar right with
      | some a, some b => some (ar.mul a b)
      | _, _ => none
    else if c = '/' then
      match evaluate ar left, evaluate ar right with
      | some a, some b => some (ar.div a b)
      | _, _ => none
    else some (ar.strtod symbol)

/-- Value of a run of decimal digits read left to right, and what follows it. -/
def digitsValue : Nat → List Char → Nat × List Char
  | acc, [] => (acc, [])
  | acc, c :: cs =>
    if '0' ≤ c ∧ c ≤ '9' then digitsValue (acc * 10 + (c.toNat - 48)) cs
    else (acc, c :: cs)

/-- Value of the digits after a decimal point. -/
def fractionValue : List Char → ℚ
  | [] => 0
  | c :: cs =>
    if '0' ≤ c ∧ c ≤ '9' then (((c.toNat - 48 : Nat) : ℚ) + fractionValue cs) / 10
    else 0

/-- What `strtod` reads from a string of digits and points: the digits, then
the digits after a first point, as an exact rational. -/
def decimalValue (s : List Char) : ℚ :=
  match digitsValue 0 s with
  | (n, '.' :: fs) => (n : ℚ) + fractionValue fs
  | (n, _) => (n : ℚ)

/-- Exact rational arithmetic with the decimal reader for `strtod`. -/
def ratArith : Arith ℚ where
  add := fun a b => a + b
  sub := fun a b => a - b
  mul := fun a b => a * b
  div := fun a b => a / b
  strtod := decimalValue

/-- The values of `double` by kind: not-a-number, the two infinities, and
the finite values, taken exactly. -/
inductive Double where
  | nan
  | inf (negative : Bool)
  | finite (q : ℚ)
  deriving DecidableEq

/-- Unary minus of `double`. -/
def Double.neg : Double → Double
  | .nan => .nan
  | .inf s => .inf (!s)
  | .finite q => .finite (-q)

/-- Addition of `double`: not-a-number if an operand is, or for infinities of
opposite sign. -/
def Double.add : Double → Double → Double
  | .nan, _ => .nan
  | _, .nan => .nan
  | .inf a, .inf b => if a = b then .inf a else .nan
  | .inf a, .finite _ => .inf a
  | .finite _, .inf b => .inf b
  | .finite p, .finite q => .finite (p + q)

/-- Subtraction of `double`. -/
def Double.sub (x y : Double) : Double := Double.add x (Double.neg y)

/-- Multiplication of `double`: not-a-number if an operand is, or for zero
times an infinity. -/
def Double.mul : Double → Double → Double
  | .nan, _ => .nan
  | _, .nan => .nan
  | .inf a, .inf b => .inf (a != b)
  | .inf a, .finite q => if q = 0 then .nan else .inf (a != decide (q < 0))
  | .finite p, .inf b => if p = 0 then .nan else .inf (decide (p < 0) != b)
  | .finite p, .finite q => .finite (p * q)

/-- Division of `double`: `0/0` and infinity by infinity are not-a-number, any
other value by zero is an infinity. -/
def Double.div : Double → Double → Double
  | .nan, _ => .nan
  | _, .nan => .nan
  | .inf _, .inf _ => .nan
  | .inf a, .finite q => .inf (a != decide (q < 0))
  | .finite _, .inf _ => .finite 0
  | .finite p, .finite q =>
    if q = 0 then (if p = 0 then .nan else .inf (decide (p < 0))) else .finite (p / q)

/-- A derivation in the grammar `G` of the header comment: `P = c`,
`P = (A k B)`, `P = -A`. -/
inductive Derivation where
  | numeral (c : List Char)
  | binary (A : Derivation) (k : Char) (B : Derivation)
  | negation (A : Derivation)
  deriving DecidableEq, Repr

/-- A numeral: a non-empty string of digits with at most one point. -/
def validNumeral (c : List Char) : Bool :=
  !c.isEmpty && c.all isNumeralSymbol && decide (c.count '.' ≤ 1)

/-- The numerals of the derivation are numerals and its operators are among
`+ - * /`. -/
def Derivation.wellFormed : Derivation → Bool
  | .numeral c => validNumeral c
  | .binary A k B => A.wellFormed && isOperatorSymbol k && B.wellFormed
  | .negation A => A.wellFormed

/-- The sentence a derivation derives. -/
def Derivation.text : Derivation → List Char
  | .numeral c => c
  | .binary A k B => '(' :: (A.text ++ k :: (B.text ++ [')']))
  | .negation A => '-' :: A.text

/-- The tree of a derivation. -/
def Derivation.tree : Derivation → ASTNODE
  | .numeral c => Leaf c
  | .binary A k B => BinaryOp k A.tree B.tree
  | .negation A => BinaryOp '-' (Leaf ['0']) A.tree

/-- Sum of the bracket increments over a text: its running bracket depth. -/
def depth (s : List Char) : Int := (s.map isBracketSymbol).sum

/-- The string left at the pointer `removeOuterMostParen` returns for `s`. -/
def strippedText (s : List Char) : List Char :=
  match removeOuterMostParen (cstring s) with
  | .ok (k, buf) => (buf.drop k).takeWhile (fun c => c != NUL)
  | .outOfBounds => []
  | .exitFailure => []
  | .outOfFuel => []

/-- Every prefix of the text has a bracket depth of at least 0. -/
def NonNegPrefixes (w : List Char) : Prop := ∀ a b, w = a ++ b → 0 ≤ depth a

/-- The value of `bracket_count` in the operator search of `parse` once the
characters `pre` are behind it, as long as no count was negative on the way:
the initial -1 before the first character, their bracket depth after it. -/
def countAfter (pre : List Char) : Int := if pre = [] then -1 else depth pre

/-- The text is `(`, a text none of whose prefixes has a negative bracket depth,
`)`: the count of `removeOuterMostParen` does not come back to 0 before the
last character. -/
def Wrapped (s : List Char) : Prop :=
  ∃ mid, s = '(' :: (mid ++ [')']) ∧ NonNegPrefixes mid

/-- Every node of the tree is an operator node with two children that are
nodes, or a leaf with no children whose symbol is a non-empty string of numeral
symbols. -/
inductive WellShaped : ASTNODE → Prop where
  | leaf (c : List Char) (hne : c ≠ []) (hnum : ∀ x ∈ c, isNumeralSymbol x = true) :
      WellShaped (Leaf c)
  | operator (k : Char) (l r : ASTNODE) (hk : isOperatorSymbol k = true)
      (hl : WellShaped l) (hr : WellShaped r) : WellShaped (BinaryOp k l r)

/-- Every node of the tree is a node with two children that are nodes and a
symbol that begins with an operator character, or a leaf with no children
whose symbol is a non-empty string of numeral symbols. -/
inductive OperatorHeaded : ASTNODE → Prop where
  | leaf (c : List Char) (hne : c ≠ []) (hnum : ∀ x ∈ c, isNumeralSymbol x = true) :
      OperatorHeaded (Leaf c)
  | operator (k : Char) (tail : List Char) (l r : ASTNODE)
      (hk : isOperatorSymbol k = true)
      (hl : OperatorHeaded l) (hr : OperatorHeaded r) : OperatorHeaded (.node (k :: tail) l r)

/-- The fully parenthesised text of a tree: the symbol of a leaf, and
`(` left `k` right `)` for a node with children. -/
def render : ASTNODE → List Char
  | .NULL => []
  | .node symbol .NULL .NULL => symbol
  | .node symbol left right => '(' :: (render left ++ symbol ++ render right ++ [')'])

/-- The operator nodes of the tree carry one of `+ - * /` and its leaves are
numerals (non-empty, digits and at most one point). -/
inductive Parenthesised : ASTNODE → Prop where
  | leaf (c : List Char) (hc : validNumeral c = true) : Parenthesised (Leaf c)
  | operator (k : Char) (l r : ASTNODE) (hk : isOperatorSymbol k = true)
      (hl : Parenthesised l) (hr : Parenthesised r) : Parenthesised (BinaryOp k l r)

/-! ## Theorems -/

@[simp] theorem Result.bind_ok {α β : Type} (a : α) (f : α → Result β) :
    (Result.ok a).bind f = f a := rfl

theorem isNumeralSymbol_NUL : isNumeralSymbol NUL = false := by decide

theorem isOperatorSymbol_NUL : isOperatorSymbol NUL = false := by decide

/-- `strlen` finds the terminator of an array that has one. -/
theorem strlen_terminated (s post : List Char) :
    ∃ n, strlen (s ++ NUL :: post) = .ok n := by
  induction s with
  | nil => exact ⟨0, by simp [strlen]⟩
  | cons c cs ih =>
    obtain ⟨n, hn⟩ := ih
    by_cases hc : c = NUL
    · exact ⟨0, by simp [strlen, hc]⟩
    · exact ⟨n + 1, by simp [strlen, hc, hn]⟩

theorem strlen_of_not_mem (s post : List Char) (h : NUL ∉ s) :
    strlen (s ++ NUL :: post) = .ok s.length := by
  induction s with
  | nil => simp [strlen]
  | cons c cs ih =>
    have hc : c ≠ NUL := fun e => h (by simp [e])
    have hcs : NUL ∉ cs := fun e => h (by simp [e])
    simp [strlen, hc, ih hcs]

theorem countLoop_run (r : List Char) (x : Char) (rest : List Char) (d : Nat) (h : Bool)
    (hr : ∀ c ∈ r, isNumeralSymbol c = true) (hx : isNumeralSymbol x = false) :
    countLoop (r ++ x :: rest) d h = .ok (d + r.length) := by
  induction r generalizing d with
  | nil =>
    have hx' : x ≠ '.' := by
      intro e; subst e; exact absurd hx (by decide)
    simp [countLoop, hx, hx']
  | cons c cs ih =>
    have hc : isNumeralSymbol c = true := hr c (by simp)
    have := ih (d + 1) (fun y hy => hr y (by simp [hy]))
    simp [countLoop, hc, this]; omega

theorem copyLoop_run (D : Nat) (r : List Char) (x : Char) (rest : List Char) (idx : Nat)
    (hr : ∀ c ∈ r, isNumeralSymbol c = true) (hx : isNumeralSymbol x = false)
    (hD : idx + r.length < D + 1) :
    copyLoop D (r ++ x :: rest) idx = .ok (r, List.replicate r.length NUL ++ x :: rest) := by
  induction r generalizing idx with
  | nil =>
    have hx' : x ≠ '.' := by
      intro e; subst e; exact absurd hx (by decide)
    simp at hD
    simp [copyLoop, hx, hx', hD]
  | cons c cs ih =>
    have hc : isNumeralSymbol c = true := hr c (by simp)
    simp at hD
    have h1 : idx < D + 1 := by omega
    have := ih (idx + 1) (fun y hy => hr y (by simp [hy])) (by omega)
    simp [copyLoop, hc, h1, this, List.replicate_succ]

theorem extractFirstNumeral_run (r : List Char) (x : Char) (rest : List Char)
    (hr : ∀ c ∈ r, isNumeralSymbol c = true) (hx : isNumeralSymbol x = false) :
    extractFirstNumeral (r ++ x :: rest) =
      .ok (Leaf r, List.replicate r.length NUL ++ x :: rest) := by
  simp [extractFirstNumeral, countLoop_run r x rest 0 false hr hx,
    copyLoop_run r.length r x rest 0 hr hx (by omega), Leaf]

/-- An array that starts with a numeral symbol splits into its leading run of
numeral symbols and a rest that starts with another character. -/
theorem run_split (s post : List Char) :
    ∃ x rest, s ++ NUL :: post = s.takeWhile isNumeralSymbol ++ x :: rest ∧
      isNumeralSymbol x = false := by
  induction s with
  | nil => exact ⟨NUL, post, by simp, isNumeralSymbol_NUL⟩
  | cons c cs ih =>
    by_cases hc : isNumeralSymbol c = true
    · obtain ⟨x, rest, h1, h2⟩ := ih
      exact ⟨x, rest, by simp [List.takeWhile, hc, h1], h2⟩
    · exact ⟨c, cs ++ NUL :: post, by simp [List.takeWhile, hc], by simpa using hc⟩

/-- The numeral case of `parse`: the leading run of numeral symbols becomes a
leaf, whatever the run holds and whatever follows it. -/
theorem parse_numeral_run (fuel : Nat) (c : Char) (s post : List Char)
    (hc : isNumeralSymbol c = true) :
    ∃ x rest, (c :: s) ++ NUL :: post = (c :: s).takeWhile isNumeralSymbol ++ x :: rest ∧
      isNumeralSymbol x = false ∧
      parse (fuel + 1) ((c :: s) ++ NUL :: post) =
        .ok (Leaf ((c :: s).takeWhile isNumeralSymbol),
          List.replicate ((c :: s).takeWhile isNumeralSymbol).length NUL ++ x :: rest) := by
  obtain ⟨x, rest, h1, h2⟩ := run_split (c :: s) post
  refine ⟨x, rest, h1, h2, ?_⟩
  obtain ⟨n, hn⟩ := strlen_terminated (c :: s) post
  have hrun : ∀ y ∈ (c :: s).takeWhile isNumeralSymbol, isNumeralSymbol y = true :=
    fun y hy => List.mem_takeWhile_imp hy
  have := extractFirstNumeral_run _ x rest hrun h2
  rw [← h1] at this
  rw [parse, hn]
  simp only [Result.bind_ok, readAt, List.cons_append, List.get?_cons_zero, hc, if_true]
  exact this

theorem isOperatorSymbol_of_isNumeralSymbol (x : Char) (h : isNumeralSymbol x = true) :
    isOperatorSymbol x = false := by
  by_contra hop
  have hop' : isOperatorSymbol x = true := by simpa using hop
  unfold isOperatorSymbol at hop'
  split_ifs at hop' with h1 h2 h3 h4
  · subst h1; exact absurd h (by decide)
  · subst h2; exact absurd h (by decide)
  · subst h3; exact absurd h (by decide)
  · subst h4; exact absurd h (by decide)

theorem evaluate_non_operator {α : Type} (ar : Arith α) (symbol : List Char)
    (l r : ASTNODE) (h : isOperatorSymbol (symbol.headD NUL) = false) :
    evaluate ar (.node symbol l r) = some (ar.strtod symbol) := by
  have h1 : symbol.headD NUL ≠ '+' := by
    intro e; rw [e] at h; exact absurd h (by decide)
  have h2 : symbol.headD NUL ≠ '-' := by
    intro e; rw [e] at h; exact absurd h (by decide)
  have h3 : symbol.headD NUL ≠ '*' := by
    intro e; rw [e] at h; exact absurd h (by decide)
  have h4 : symbol.headD NUL ≠ '/' := by
    intro e; rw [e] at h; exact absurd h (by decide)
  unfold evaluate
  simp only [if_neg h1, if_neg h2, if_neg h3, if_neg h4]

theorem evaluate_binary {α : Type} (ar : Arith α) (l r : ASTNODE) :
    evaluate ar (BinaryOp '+' l r) =
      (evaluate ar l).bind (fun a => (evaluate ar r).bind fun b => some (ar.add a b)) ∧
    evaluate ar (BinaryOp '-' l r) =
      (evaluate ar l).bind (fun a => (evaluate ar r).bind fun b => some (ar.sub a b)) ∧
    evaluate ar (BinaryOp '*' l r) =
      (evaluate ar l).bind (fun a => (evaluate ar r).bind fun b => some (ar.mul a b)) ∧
    evaluate ar (BinaryOp '/' l r) =
      (evaluate ar l).bind (fun a => (evaluate ar r).bind fun b => some (ar.div a b)) := by
  refine ⟨?_, ?_, ?_, ?_⟩ <;>
  · simp only [BinaryOp, evaluate, List.headD_cons]
    cases evaluate ar l <;> cases evaluate ar r <;> simp

theorem parseTree_numeral_run (fuel : Nat) (c : Char) (s : List Char)
    (hc : isNumeralSymbol c = true) :
    parseTree (fuel + 1) (c :: s) = .ok (Leaf ((c :: s).takeWhile isNumeralSymbol)) := by
  obtain ⟨x, rest, -, -, h⟩ := parse_numeral_run fuel c s [] hc
  unfold parseTree cstring
  rw [h]; rfl

theorem takeWhile_of_all (p : Char → Bool) (s : List Char) (h : s.all p = true) :
    s.takeWhile p = s := by
  induction s with
  | nil => rfl
  | cons c cs ih =>
    simp only [List.all_cons, Bool.and_eq_true] at h
    simp [List.takeWhile, h.1, ih h.2]

/-- What is left for the inner `-` of `(--1+2)` once the outer `-` has been
split off: an empty string followed by `1+2`.  `parse` finds the `+` behind the
terminator and calls itself on the same pointer. -/
theorem parse_empty_before_operator_loops :
    ∀ fuel : Nat, parse fuel [NUL, '1', '+', '2', NUL, NUL] = .outOfFuel := by
  intro fuel
  induction fuel with
  | zero => rfl
  | succ n ih =>
    have h : parse (n + 1) [NUL, '1', '+', '2', NUL, NUL] =
        (parse n [NUL, '1', '+', '2', NUL, NUL]).bind
          fun r => .ok (r.1, ([] : List Char) ++ r.2) := rfl
    rw [h, ih]; rfl

theorem parse_minus_before_empty_loops :
    ∀ fuel : Nat, parse fuel ['-', NUL, '1', '+', '2', NUL, NUL] = .outOfFuel := by
  intro fuel
  cases fuel with
  | zero => rfl
  | succ n =>
    have h : parse (n + 1) ['-', NUL, '1', '+', '2', NUL, NUL] =
        (parse n [NUL, '1', '+', '2', NUL, NUL]).bind
          fun r => .ok (.node ['-'] (newAST ['0']) r.1, ['-'] ++ r.2) := rfl
    rw [h, parse_empty_before_operator_loops]; rfl

/-! ### Extending the array behind a run that stayed inside it -/

theorem Result.bind_eq_ok {α β : Type} (x : Result α) (f : α → Result β) (b : β) :
    x.bind f = .ok b ↔ ∃ a, x = .ok a ∧ f a = .ok b := by
  cases x <;> simp [Result.bind]

theorem strlen_append (m post : List Char) (n : Nat) (h : strlen m = .ok n) :
    strlen (m ++ post) = .ok n := by
  induction m generalizing n with
  | nil => simp [strlen] at h
  | cons c cs ih =>
    by_cases hc : c = NUL
    · simp [strlen, hc] at h ⊢; exact h
    · simp only [strlen, hc, if_false, Result.bind_eq_ok] at h
      obtain ⟨a, ha, hb⟩ := h
      simp [strlen, hc, ih a ha, hb]

theorem strlen_lt_length (m : List Char) (n : Nat) (h : strlen m = .ok n) :
    n < m.length := by
  induction m generalizing n with
  | nil => simp [strlen] at h
  | cons c cs ih =>
    by_cases hc : c = NUL
    · simp [strlen, hc] at h; simp [← h]
    · simp only [strlen, hc, if_false, Result.bind_eq_ok] at h
      obtain ⟨a, ha, hb⟩ := h
      have := ih a ha
      simp at hb; simp; omega

theorem readAt_eq_ok (p : List Char) (i : Nat) (c : Char) :
    readAt p i = .ok c ↔ p.get? i = some c := by
  unfold readAt
  cases h : p.get? i <;> simp

theorem readAt_append (m post : List Char) (i : Nat) (c : Char) (h : readAt m i = .ok c) :
    readAt (m ++ post) i = .ok c := by
  rw [readAt_eq_ok] at h ⊢
  have hlt : i < m.length := by
    by_contra hge
    rw [List.get?_eq_none.mpr (by omega)] at h
    exact absurd h (by simp)
  rw [List.get?_eq_getElem?, List.getElem?_append_left hlt, ← List.get?_eq_getElem?]; exact h

theorem readInt_append (m post : List Char) (i : Int) (c : Char) (h : readInt m i = .ok c) :
    readInt (m ++ post) i = .ok c := by
  unfold readInt at h ⊢
  split_ifs at h ⊢ with hi
  exact readAt_append m post _ c h

theorem writeAt_eq_ok (p : List Char) (i : Nat) (c : Char) (p1 : List Char) :
    writeAt p i c = .ok p1 ↔ i < p.length ∧ p1 = p.set i c := by
  unfold writeAt
  split_ifs with h
  · simp [h, eq_comm]
  · simp [h]

theorem writeAt_append (m post : List Char) (i : Nat) (c : Char) (m1 : List Char)
    (h : writeAt m i c = .ok m1) : writeAt (m ++ post) i c = .ok (m1 ++ post) := by
  rw [writeAt_eq_ok] at h ⊢
  obtain ⟨h1, h2⟩ := h
  refine ⟨by simp; omega, ?_⟩
  rw [h2, List.set_append_left _ _ h1]

theorem writeInt_append (m post : List Char) (i : Int) (c : Char) (m1 : List Char)
    (h : writeInt m i c = .ok m1) : writeInt (m ++ post) i c = .ok (m1 ++ post) := by
  unfold writeInt at h ⊢
  split_ifs at h ⊢ with hi
  exact writeAt_append m post _ c m1 h

theorem writeAt_length (p : List Char) (i : Nat) (c : Char) (p1 : List Char)
    (h : writeAt p i c = .ok p1) : p1.length = p.length := by
  rw [writeAt_eq_ok] at h
  simp [h.2]

theorem writeInt_length (p : List Char) (i : Int) (c : Char) (p1 : List Char)
    (h : writeInt p i c = .ok p1) : p1.length = p.length := by
  unfold writeInt at h
  split_ifs at h with hi
  exact writeAt_length p _ c p1 h

theorem parenLoop_stop (last : Int) (rest : List Char) (b : Int) (j : Nat)
    (hc : ¬ (b ≠ 0 ∧ (j : Int) ≤ last)) : parenLoop last rest b j = .ok j := by
  cases rest <;> rw [parenLoop, if_neg hc]

theorem parenLoop_step (last : Int) (c : Char) (cs : List Char) (b : Int) (j : Nat)
    (hc : b ≠ 0 ∧ (j : Int) ≤ last) :
    parenLoop last (c :: cs) b j =
      parenLoop last cs ((if b = -1 then 0 else b) + isBracketSymbol c) (j + 1) := by
  rw [parenLoop, if_pos hc]

theorem parenLoop_nil (last : Int) (b : Int) (j : Nat)
    (hc : b ≠ 0 ∧ (j : Int) ≤ last) : parenLoop last [] b j = .outOfBounds := by
  rw [parenLoop, if_pos hc]

theorem parenLoop_append (last : Int) (rest post : List Char) (b : Int) (j r : Nat)
    (h : parenLoop last rest b j = .ok r) : parenLoop last (rest ++ post) b j = .ok r := by
  induction rest generalizing b j with
  | nil =>
    by_cases hc : b ≠ 0 ∧ (j : Int) ≤ last
    · rw [parenLoop_nil _ _ _ hc] at h; exact absurd h (by simp)
    · rw [parenLoop_stop _ _ _ _ hc] at h ⊢; exact h
  | cons c cs ih =>
    by_cases hc : b ≠ 0 ∧ (j : Int) ≤ last
    · rw [parenLoop_step _ _ _ _ _ hc] at h
      rw [List.cons_append, parenLoop_step _ _ _ _ _ hc]
      exact ih _ _ h
    · rw [parenLoop_stop _ _ _ _ hc] at h ⊢; exact h

theorem operatorLoop_stop (last : Int) (c : Char) (cs : List Char) (b : Int) (j : Nat)
    (hc : (!isOperatorSymbol c ||
      (decide (b ≠ 0) && decide ((j : Int) ≤ last - 1))) = false) :
    operatorLoop last (c :: cs) b j = .ok j := by
  rw [operatorLoop, hc]; rfl

theorem operatorLoop_step (last : Int) (c : Char) (cs : List Char) (b : Int) (j : Nat)
    (hc : (!isOperatorSymbol c ||
      (decide (b ≠ 0) && decide ((j : Int) ≤ last - 1))) = true) :
    operatorLoop last (c :: cs) b j =
      operatorLoop last cs ((if b = -1 then 0 else b) + isBracketSymbol c) (j + 1) := by
  rw [operatorLoop, hc]; rfl

theorem operatorLoop_append (last : Int) (rest post : List Char) (b : Int) (j r : Nat)
    (h : operatorLoop last rest b j = .ok r) :
    operatorLoop last (rest ++ post) b j = .ok r := by
  induction rest generalizing b j with
  | nil => simp [operatorLoop] at h
  | cons c cs ih =>
    cases hc : (!isOperatorSymbol c ||
      (decide (b ≠ 0) && decide ((j : Int) ≤ last - 1)))
    · rw [operatorLoop_stop _ _ _ _ _ hc] at h
      rw [List.cons_append, operatorLoop_stop _ _ _ _ _ hc]; exact h
    · rw [operatorLoop_step _ _ _ _ _ hc] at h
      rw [List.cons_append, operatorLoop_step _ _ _ _ _ hc]
      exact ih _ _ h

theorem countLoop_append (rest post : List Char) (d : Nat) (hd : Bool) (r : Nat)
    (h : countLoop rest d hd = .ok r) : countLoop (rest ++ post) d hd = .ok r := by
  induction rest generalizing d hd with
  | nil => simp [countLoop] at h
  | cons c cs ih =>
    rw [countLoop] at h
    rw [List.cons_append, countLoop]
    split_ifs at h ⊢ with h1 h2 h3
    · exact ih _ _ h
    · exact ih _ _ h
    · exact h

theorem copyLoop_append (D : Nat) (rest post : List Char) (idx : Nat)
    (r : List Char × List Char) (h : copyLoop D rest idx = .ok r) :
    copyLoop D (rest ++ post) idx = .ok (r.1, r.2 ++ post) ∧ r.2.length = rest.length := by
  induction rest generalizing idx r with
  | nil => simp [copyLoop] at h
  | cons c cs ih =>
    rw [copyLoop] at h
    rw [List.cons_append, copyLoop]
    split_ifs at h ⊢ with h1 h2 h3
    · rw [Result.bind_eq_ok] at h
      obtain ⟨a, ha, hb⟩ := h
      obtain ⟨ih1, ih2⟩ := ih _ _ ha
      simp only [Result.ok.injEq] at hb
      subst hb
      simp [ih1, ih2]
    · simp only [Result.ok.injEq] at h
      subst h
      simp

theorem extractFirstNumeral_append (m post : List Char) (r : ASTNODE × List Char)
    (h : extractFirstNumeral m = .ok r) :
    extractFirstNumeral (m ++ post) = .ok (r.1, r.2 ++ post) ∧ r.2.length = m.length := by
  unfold extractFirstNumeral at h ⊢
  rw [Result.bind_eq_ok] at h
  obtain ⟨d, hd, h⟩ := h
  rw [Result.bind_eq_ok] at h
  obtain ⟨a, ha, h⟩ := h
  simp only [Result.ok.injEq] at h
  subst h
  obtain ⟨h1, h2⟩ := copyLoop_append _ _ post _ _ ha
  simp [countLoop_append _ post _ _ _ hd, h1, h2]

/-- The ways a level of `removeOuterMostParenAux` returns: the pointer comes
back as it came (the string does not start with `(`, or does not end with `)`,
or the loop stopped before the last character), or the outer pair was
overwritten and the call on `expression + 1` returned. -/
theorem removeOuterMostParenAux_ok (fuel : Nat) (m : List Char) (r : Nat × List Char)
    (h : removeOuterMostParenAux (fuel + 1) m = .ok r) :
    ∃ n first, strlen m = .ok n ∧ readAt m 0 = .ok first ∧
      ((first ≠ '(' ∧ r = (0, m)) ∨
       (first = '(' ∧ ∃ lastc, readInt m ((n : Int) - 1) = .ok lastc ∧
        ((lastc ≠ ')' ∧ r = (0, m)) ∨
         (lastc = ')' ∧ ∃ curr, parenLoop ((n : Int) - 1) m (-1) 0 = .ok curr ∧
          ((¬ (curr : Int) > (n : Int) - 1 ∧ r = (0, m)) ∨
           ((curr : Int) > (n : Int) - 1 ∧ ∃ e1 e2 r1,
              writeAt m 0 NUL = .ok e1 ∧ writeInt e1 ((n : Int) - 1) NUL = .ok e2 ∧
              removeOuterMostParenAux fuel (e2.drop 1) = .ok r1 ∧
              r = (r1.1 + 1, e2.take 1 ++ r1.2))))))) := by
  rw [removeOuterMostParenAux, Result.bind_eq_ok] at h
  obtain ⟨n, hn, h⟩ := h
  rw [Result.bind_eq_ok] at h
  obtain ⟨first, hfirst, h⟩ := h
  refine ⟨n, first, hn, hfirst, ?_⟩
  by_cases h1 : first ≠ '('
  · rw [if_pos h1] at h
    left; exact ⟨h1, by simpa using h.symm⟩
  · rw [if_neg h1, Result.bind_eq_ok] at h
    obtain ⟨lastc, hlast, h⟩ := h
    right
    refine ⟨by simpa using h1, lastc, hlast, ?_⟩
    by_cases h2 : lastc ≠ ')'
    · rw [if_pos h2] at h
      left; exact ⟨h2, by simpa using h.symm⟩
    · rw [if_neg h2, Result.bind_eq_ok] at h
      obtain ⟨curr, hcurr, h⟩ := h
      right
      refine ⟨by simpa using h2, curr, hcurr, ?_⟩
      by_cases h3 : (curr : Int) > (n : Int) - 1
      · rw [if_pos h3, Result.bind_eq_ok] at h
        obtain ⟨e1, he1, h⟩ := h
        rw [Result.bind_eq_ok] at h
        obtain ⟨e2, he2, h⟩ := h
        rw [Result.bind_eq_ok] at h
        obtain ⟨r1, hr1, h⟩ := h
        right
        exact ⟨h3, e1, e2, r1, he1, he2, hr1, by simpa using h.symm⟩
      · rw [if_neg h3] at h
        left; exact ⟨h3, by simpa using h.symm⟩

theorem removeOuterMostParenAux_keep_first (fuel : Nat) (m : List Char) (n : Nat)
    (first : Char) (hn : strlen m = .ok n) (h0 : readAt m 0 = .ok first)
    (h1 : first ≠ '(') : removeOuterMostParenAux (fuel + 1) m = .ok (0, m) := by
  rw [removeOuterMostParenAux, hn]
  simp only [Result.bind_ok, h0]
  rw [if_pos h1]

theorem removeOuterMostParenAux_keep_last (fuel : Nat) (m : List Char) (n : Nat)
    (lastc : Char) (hn : strlen m = .ok n) (h0 : readAt m 0 = .ok '(')
    (hl : readInt m ((n : Int) - 1) = .ok lastc) (h1 : lastc ≠ ')') :
    removeOuterMostParenAux (fuel + 1) m = .ok (0, m) := by
  rw [removeOuterMostParenAux, hn]
  simp only [Result.bind_ok, h0, hl]
  rw [if_neg (by simp), if_pos h1]

theorem removeOuterMostParenAux_keep_loop (fuel : Nat) (m : List Char) (n curr : Nat)
    (hn : strlen m = .ok n) (h0 : readAt m 0 = .ok '(')
    (hl : readInt m ((n : Int) - 1) = .ok ')')
    (hloop : parenLoop ((n : Int) - 1) m (-1) 0 = .ok curr)
    (hcurr : ¬ (curr : Int) > (n : Int) - 1) :
    removeOuterMostParenAux (fuel + 1) m = .ok (0, m) := by
  rw [removeOuterMostParenAux, hn]
  simp only [Result.bind_ok, h0, hl, hloop]
  rw [if_neg (by simp), if_neg (by simp), if_neg hcurr]

theorem removeOuterMostParenAux_strip (fuel : Nat) (m : List Char) (n curr : Nat)
    (e1 e2 : List Char) (r1 : Nat × List Char)
    (hn : strlen m = .ok n) (h0 : readAt m 0 = .ok '(')
    (hl : readInt m ((n : Int) - 1) = .ok ')')
    (hloop : parenLoop ((n : Int) - 1) m (-1) 0 = .ok curr)
    (hcurr : (curr : Int) > (n : Int) - 1)
    (he1 : writeAt m 0 NUL = .ok e1) (he2 : writeInt e1 ((n : Int) - 1) NUL = .ok e2)
    (hr1 : removeOuterMostParenAux fuel (e2.drop 1) = .ok r1) :
    removeOuterMostParenAux (fuel + 1) m = .ok (r1.1 + 1, e2.take 1 ++ r1.2) := by
  rw [removeOuterMostParenAux, hn]
  simp only [Result.bind_ok, h0, hl, hloop, he1, he2, hr1]
  rw [if_neg (by simp), if_neg (by simp), if_pos hcurr]

theorem removeOuterMostParenAux_length (fuel : Nat) (m : List Char) (r : Nat × List Char)
    (h : removeOuterMostParenAux fuel m = .ok r) :
    r.2.length = m.length ∧ r.1 ≤ m.length := by
  induction fuel generalizing m r with
  | zero => simp [removeOuterMostParenAux] at h
  | succ fuel ih =>
    obtain ⟨n, first, hn, -, ⟨-, h⟩ | ⟨-, lastc, -, ⟨-, h⟩ | ⟨-, curr, -, ⟨-, h⟩ |
      ⟨-, e1, e2, r1, he1, he2, hr1, h⟩⟩⟩⟩ := removeOuterMostParenAux_ok fuel m r h
    · subst h; simp
    · subst h; simp
    · subst h; simp
    · subst h
      have l1 := writeAt_length _ _ _ _ he1
      have l2 := writeInt_length _ _ _ _ he2
      obtain ⟨i1, i2⟩ := ih _ _ hr1
      have hpos := strlen_lt_length m n hn
      simp only [List.length_append, List.length_take, List.length_drop] at i1 i2 ⊢
      omega

theorem removeOuterMostParenAux_append (fuel : Nat) (m post : List Char)
    (r : Nat × List Char) (h : removeOuterMostParenAux fuel m = .ok r) :
    removeOuterMostParenAux fuel (m ++ post) = .ok (r.1, r.2 ++ post) := by
  induction fuel generalizing m r with
  | zero => simp [removeOuterMostParenAux] at h
  | succ fuel ih =>
    obtain ⟨n, first, hn, h0, ⟨h1, h⟩ | ⟨h1, lastc, hl, ⟨h2, h⟩ | ⟨h2, curr, hloop,
      ⟨hcurr, h⟩ | ⟨hcurr, e1, e2, r1, he1, he2, hr1, h⟩⟩⟩⟩ :=
        removeOuterMostParenAux_ok fuel m r h
    · subst h
      exact removeOuterMostParenAux_keep_first fuel _ n first (strlen_append _ _ _ hn)
        (readAt_append _ _ _ _ h0) h1
    · subst h h1
      exact removeOuterMostParenAux_keep_last fuel _ n lastc (strlen_append _ _ _ hn)
        (readAt_append _ _ _ _ h0) (readInt_append _ _ _ _ hl) h2
    · subst h h1 h2
      exact removeOuterMostParenAux_keep_loop fuel _ n curr (strlen_append _ _ _ hn)
        (readAt_append _ _ _ _ h0) (readInt_append _ _ _ _ hl)
        (parenLoop_append _ _ _ _ _ _ hloop) hcurr
    · subst h h1 h2
      have l1 := writeAt_length _ _ _ _ he1
      have l2 := writeInt_length _ _ _ _ he2
      have hpos := strlen_lt_length m n hn
      have hd : (e2 ++ post).drop 1 = e2.drop 1 ++ post :=
        List.drop_append_of_le_length (by omega)
      have ht : (e2 ++ post).take 1 = e2.take 1 :=
        List.take_append_of_le_length (by omega)
      have := removeOuterMostParenAux_strip fuel (m ++ post) n curr (e1 ++ post)
        (e2 ++ post) (r1.1, r1.2 ++ post) (strlen_append _ _ _ hn)
        (readAt_append _ _ _ _ h0) (readInt_append _ _ _ _ hl)
        (parenLoop_append _ _ _ _ _ _ hloop) hcurr (writeAt_append _ _ _ _ _ he1)
        (writeInt_append _ _ _ _ _ he2) (by rw [hd]; exact ih _ _ hr1)
      rw [this, ht]; simp

theorem removeOuterMostParenAux_fuel_succ (fuel : Nat) (m : List Char)
    (r : Nat × List Char) (h : removeOuterMostParenAux fuel m = .ok r) :
    removeOuterMostParenAux (fuel + 1) m = .ok r := by
  induction fuel generalizing m r with
  | zero => simp [removeOuterMostParenAux] at h
  | succ fuel ih =>
    obtain ⟨n, first, hn, h0, ⟨h1, h⟩ | ⟨h1, lastc, hl, ⟨h2, h⟩ | ⟨h2, curr, hloop,
      ⟨hcurr, h⟩ | ⟨hcurr, e1, e2, r1, he1, he2, hr1, h⟩⟩⟩⟩ :=
        removeOuterMostParenAux_ok fuel m r h
    · subst h
      exact removeOuterMostParenAux_keep_first _ _ n first hn h0 h1
    · subst h h1
      exact removeOuterMostParenAux_keep_last _ _ n lastc hn h0 hl h2
    · subst h h1 h2
      exact removeOuterMostParenAux_keep_loop _ _ n curr hn h0 hl hloop hcurr
    · subst h h1 h2
      exact removeOuterMostParenAux_strip _ _ n curr e1 e2 r1 hn h0 hl hloop hcurr he1 he2
        (ih _ _ hr1)

theorem removeOuterMostParenAux_fuel_le (fuel fuel1 : Nat) (hle : fuel ≤ fuel1)
    (m : List Char) (r : Nat × List Char) (h : removeOuterMostParenAux fuel m = .ok r) :
    removeOuterMostParenAux fuel1 m = .ok r := by
  induction hle with
  | refl => exact h
  | step _ ih => exact removeOuterMostParenAux_fuel_succ _ _ _ ih

theorem removeOuterMostParen_length (m : List Char) (r : Nat × List Char)
    (h : removeOuterMostParen m = .ok r) : r.2.length = m.length ∧ r.1 ≤ m.length :=
  removeOuterMostParenAux_length _ m r h

theorem removeOuterMostParen_append (m post : List Char) (r : Nat × List Char)
    (h : removeOuterMostParen m = .ok r) :
    removeOuterMostParen (m ++ post) = .ok (r.1, r.2 ++ post) := by
  unfold removeOuterMostParen at h ⊢
  exact removeOuterMostParenAux_fuel_le (m.length + 1) _ (by simp) _ _
    (removeOuterMostParenAux_append _ m post r h)

/-! ### The cases of `parse` -/

theorem parse_case_numeral (fuel : Nat) (m : List Char) (n : Nat) (first : Char)
    (hn : strlen m = .ok n) (h0 : readAt m 0 = .ok first)
    (h1 : isNumeralSymbol first = true) :
    parse (fuel + 1) m = extractFirstNumeral m := by
  rw [parse, hn]
  simp only [Result.bind_ok, h0]
  rw [if_pos h1]

theorem parse_case_negation (fuel : Nat) (m : List Char) (n : Nat)
    (hn : strlen m = .ok n) (h0 : readAt m 0 = .ok '-') :
    parse (fuel + 1) m = (parse fuel (m.drop 1)).bind fun r =>
      .ok (.node ['-'] (newAST ['0']) r.1, m.take 1 ++ r.2) := by
  rw [parse, hn]
  simp only [Result.bind_ok, h0]
  rw [if_neg (by decide), if_pos trivial]

theorem parse_case_search (fuel : Nat) (m : List Char) (n : Nat) (first : Char)
    (st : Nat × List Char) (hn : strlen m = .ok n) (h0 : readAt m 0 = .ok first)
    (h1 : isNumeralSymbol first = false) (h2 : first ≠ '-')
    (hst : removeOuterMostParen m = .ok st) :
    parse (fuel + 1) m =
      (operatorLoop ((n : Int) - 1) (st.2.drop st.1) (-1) 0).bind fun curr_index =>
      if (curr_index : Int) > (n : Int) - 1 - 1 then
        (parse fuel (st.2.drop st.1)).bind fun r => .ok (r.1, st.2.take st.1 ++ r.2)
      else
        (readAt (st.2.drop st.1) curr_index).bind fun op =>
        (writeAt (st.2.drop st.1) curr_index NUL).bind fun e1 =>
        (parse fuel e1).bind fun l =>
        (parse fuel (l.2.drop (curr_index + 1))).bind fun r =>
        .ok (.node [op] l.1 r.1,
          st.2.take st.1 ++ (l.2.take (curr_index + 1) ++ r.2)) := by
  rw [parse, hn]
  simp only [Result.bind_ok, h0, hst]
  rw [if_neg (by simp [h1]), if_neg h2]

theorem parse_case_again (fuel : Nat) (m : List Char) (n : Nat) (first : Char)
    (st : Nat × List Char) (curr : Nat) (hn : strlen m = .ok n)
    (h0 : readAt m 0 = .ok first)
    (h1 : isNumeralSymbol first = false) (h2 : first ≠ '-')
    (hst : removeOuterMostParen m = .ok st)
    (hloop : operatorLoop ((n : Int) - 1) (st.2.drop st.1) (-1) 0 = .ok curr)
    (hcurr : (curr : Int) > (n : Int) - 1 - 1) :
    parse (fuel + 1) m =
      (parse fuel (st.2.drop st.1)).bind fun r => .ok (r.1, st.2.take st.1 ++ r.2) := by
  rw [parse_case_search fuel m n first st hn h0 h1 h2 hst, hloop]
  simp only [Result.bind_ok]
  rw [if_pos hcurr]

theorem parse_case_split (fuel : Nat) (m : List Char) (n : Nat) (first : Char)
    (st : Nat × List Char) (curr : Nat) (op : Char) (e1 : List Char)
    (hn : strlen m = .ok n) (h0 : readAt m 0 = .ok first)
    (h1 : isNumeralSymbol first = false) (h2 : first ≠ '-')
    (hst : removeOuterMostParen m = .ok st)
    (hloop : operatorLoop ((n : Int) - 1) (st.2.drop st.1) (-1) 0 = .ok curr)
    (hcurr : ¬ (curr : Int) > (n : Int) - 1 - 1)
    (hop : readAt (st.2.drop st.1) curr = .ok op)
    (he1 : writeAt (st.2.drop st.1) curr NUL = .ok e1) :
    parse (fuel + 1) m =
      (parse fuel e1).bind fun l =>
      (parse fuel (l.2.drop (curr + 1))).bind fun r =>
      .ok (.node [op] l.1 r.1, st.2.take st.1 ++ (l.2.take (curr + 1) ++ r.2)) := by
  rw [parse_case_search fuel m n first st hn h0 h1 h2 hst, hloop]
  simp only [Result.bind_ok]
  rw [if_neg hcurr, hop, he1]
  simp only [Result.bind_ok]

/-- The ways a call of `parse` returns. -/
theorem parse_ok (fuel : Nat) (m : List Char) (r : ASTNODE × List Char)
    (h : parse (fuel + 1) m = .ok r) :
    ∃ n first, strlen m = .ok n ∧ readAt m 0 = .ok first ∧
      ((isNumeralSymbol first = true ∧ extractFirstNumeral m = .ok r) ∨
       (first = '-' ∧ ∃ r1, parse fuel (m.drop 1) = .ok r1 ∧
          r = (.node ['-'] (newAST ['0']) r1.1, m.take 1 ++ r1.2)) ∨
       (isNumeralSymbol first = false ∧ first ≠ '-' ∧ ∃ st curr,
          removeOuterMostParen m = .ok st ∧
          operatorLoop ((n : Int) - 1) (st.2.drop st.1) (-1) 0 = .ok curr ∧
          (((curr : Int) > (n : Int) - 1 - 1 ∧ ∃ r1,
              parse fuel (st.2.drop st.1) = .ok r1 ∧ r = (r1.1, st.2.take st.1 ++ r1.2)) ∨
           (¬ (curr : Int) > (n : Int) - 1 - 1 ∧ ∃ op e1 l r2,
              readAt (st.2.drop st.1) curr = .ok op ∧
              writeAt (st.2.drop st.1) curr NUL = .ok e1 ∧
              parse fuel e1 = .ok l ∧ parse fuel (l.2.drop (curr + 1)) = .ok r2 ∧
              r = (.node [op] l.1 r2.1,
                st.2.take st.1 ++ (l.2.take (curr + 1) ++ r2.2)))))) := by
  have h' := h
  rw [parse, Result.bind_eq_ok] at h'
  obtain ⟨n, hn, h'⟩ := h'
  rw [Result.bind_eq_ok] at h'
  obtain ⟨first, h0, -⟩ := h'
  refine ⟨n, first, hn, h0, ?_⟩
  by_cases h1 : isNumeralSymbol first = true
  · left
    rw [parse_case_numeral fuel m n first hn h0 h1] at h
    exact ⟨h1, h⟩
  · have h1' : isNumeralSymbol first = false := by simpa using h1
    by_cases h2 : first = '-'
    · right; left
      subst h2
      rw [parse_case_negation fuel m n hn h0, Result.bind_eq_ok] at h
      obtain ⟨r1, hr1, h⟩ := h
      exact ⟨rfl, r1, hr1, by simpa using h.symm⟩
    · right; right
      refine ⟨h1', h2, ?_⟩
      cases hst : removeOuterMostParen m with
      | ok st =>
        rw [parse_case_search fuel m n first st hn h0 h1' h2 hst, Result.bind_eq_ok] at h
        obtain ⟨curr, hloop, h⟩ := h
        refine ⟨st, curr, rfl, hloop, ?_⟩
        by_cases hc : (curr : Int) > (n : Int) - 1 - 1
        · left
          rw [if_pos hc, Result.bind_eq_ok] at h
          obtain ⟨r1, hr1, h⟩ := h
          exact ⟨hc, r1, hr1, by simpa using h.symm⟩
        · right
          rw [if_neg hc, Result.bind_eq_ok] at h
          obtain ⟨op, hop, h⟩ := h
          rw [Result.bind_eq_ok] at h
          obtain ⟨e1, he1, h⟩ := h
          rw [Result.bind_eq_ok] at h
          obtain ⟨l, hl, h⟩ := h
          rw [Result.bind_eq_ok] at h
          obtain ⟨r2, hr2, h⟩ := h
          exact ⟨hc, op, e1, l, r2, hop, he1, hl, hr2, by simpa using h.symm⟩
      | outOfBounds =>
        rw [parse, hn] at h
        simp only [Result.bind_ok, h0, hst] at h
        rw [if_neg h1, if_neg h2] at h
        exact absurd h (by simp [Result.bind])
      | exitFailure =>
        rw [parse, hn] at h
        simp only [Result.bind_ok, h0, hst] at h
        rw [if_neg h1, if_neg h2] at h
        exact absurd h (by simp [Result.bind])
      | outOfFuel =>
        rw [parse, hn] at h
        simp only [Result.bind_ok, h0, hst] at h
        rw [if_neg h1, if_neg h2] at h
        exact absurd h (by simp [Result.bind])

theorem parse_length (fuel : Nat) (m : List Char) (r : ASTNODE × List Char)
    (h : parse fuel m = .ok r) : r.2.length = m.length := by
  induction fuel generalizing m r with
  | zero => simp [parse] at h
  | succ fuel ih =>
    obtain ⟨n, first, hn, h0, ⟨-, h⟩ | ⟨-, r1, hr1, h⟩ | ⟨-, -, st, curr, hst, hloop,
      ⟨-, r1, hr1, h⟩ | ⟨-, op, e1, l, r2, hop, he1, hl, hr2, h⟩⟩⟩ := parse_ok fuel m r h
    · exact (extractFirstNumeral_append m [] r h).2
    · subst h
      have hpos := strlen_lt_length m n hn
      have := ih _ _ hr1
      simp only [List.length_append, List.length_take, List.length_drop] at this ⊢
      omega
    · subst h
      obtain ⟨s1, s2⟩ := removeOuterMostParen_length m st hst
      have := ih _ _ hr1
      simp only [List.length_append, List.length_take, List.length_drop] at this ⊢
      omega
    · subst h
      obtain ⟨s1, s2⟩ := removeOuterMostParen_length m st hst
      have i1 := ih _ _ hl
      have i2 := ih _ _ hr2
      have w1 := writeAt_length _ _ _ _ he1
      rw [writeAt_eq_ok] at he1
      have w2 := he1.1
      simp only [List.length_append, List.length_take, List.length_drop] at i1 i2 w1 w2 ⊢
      omega

theorem parse_append (fuel : Nat) (m post : List Char) (r : ASTNODE × List Char)
    (h : parse fuel m = .ok r) : parse fuel (m ++ post) = .ok (r.1, r.2 ++ post) := by
  induction fuel generalizing m r with
  | zero => simp [parse] at h
  | succ fuel ih =>
    obtain ⟨n, first, hn, h0, ⟨h1, h⟩ | ⟨h1, r1, hr1, h⟩ | ⟨h1, h2, st, curr, hst, hloop,
      ⟨hc, r1, hr1, h⟩ | ⟨hc, op, e1, l, r2, hop, he1, hl, hr2, h⟩⟩⟩ := parse_ok fuel m r h
    · rw [parse_case_numeral fuel _ n first (strlen_append _ _ _ hn)
        (readAt_append _ _ _ _ h0) h1]
      exact (extractFirstNumeral_append m post r h).1
    · subst h h1
      have hpos := strlen_lt_length m n hn
      rw [parse_case_negation fuel _ n (strlen_append _ _ _ hn) (readAt_append _ _ _ _ h0),
        List.drop_append_of_le_length (by omega), ih _ _ hr1,
        List.take_append_of_le_length (by omega)]
      simp
    · subst h
      obtain ⟨s1, s2⟩ := removeOuterMostParen_length m st hst
      have hst' := removeOuterMostParen_append m post st hst
      have hd : (st.2 ++ post).drop st.1 = st.2.drop st.1 ++ post :=
        List.drop_append_of_le_length (by omega)
      have ht : (st.2 ++ post).take st.1 = st.2.take st.1 :=
        List.take_append_of_le_length (by omega)
      rw [parse_case_again fuel _ n first (st.1, st.2 ++ post) curr (strlen_append _ _ _ hn)
        (readAt_append _ _ _ _ h0) h1 h2 hst'
        (by rw [hd]; exact operatorLoop_append _ _ _ _ _ _ hloop) hc]
      simp only [hd, ht, ih _ _ hr1, Result.bind_ok, List.append_assoc]
    · subst h
      obtain ⟨s1, s2⟩ := removeOuterMostParen_length m st hst
      have hst' := removeOuterMostParen_append m post st hst
      have hd : (st.2 ++ post).drop st.1 = st.2.drop st.1 ++ post :=
        List.drop_append_of_le_length (by omega)
      have ht : (st.2 ++ post).take st.1 = st.2.take st.1 :=
        List.take_append_of_le_length (by omega)
      have i1 := parse_length _ _ _ hl
      have w1 := writeAt_length _ _ _ _ he1
      have w2 := ((writeAt_eq_ok _ _ _ _).mp he1).1
      have hd2 : (l.2 ++ post).drop (curr + 1) = l.2.drop (curr + 1) ++ post :=
        List.drop_append_of_le_length (by omega)
      have ht2 : (l.2 ++ post).take (curr + 1) = l.2.take (curr + 1) :=
        List.take_append_of_le_length (by omega)
      rw [parse_case_split fuel _ n first (st.1, st.2 ++ post) curr op (e1 ++ post)
        (strlen_append _ _ _ hn) (readAt_append _ _ _ _ h0) h1 h2 hst'
        (by rw [hd]; exact operatorLoop_append _ _ _ _ _ _ hloop) hc
        (by rw [hd]; exact readAt_append _ _ _ _ hop)
        (by rw [hd]; exact writeAt_append _ _ _ _ _ he1)]
      simp only [ht, ih _ _ hl, Result.bind_ok, hd2, ht2, ih _ _ hr2, List.append_assoc]

theorem parse_fuel_succ (fuel : Nat) (m : List Char) (r : ASTNODE × List Char)
    (h : parse fuel m = .ok r) : parse (fuel + 1) m = .ok r := by
  induction fuel generalizing m r with
  | zero => simp [parse] at h
  | succ fuel ih =>
    obtain ⟨n, first, hn, h0, ⟨h1, h⟩ | ⟨h1, r1, hr1, h⟩ | ⟨h1, h2, st, curr, hst, hloop,
      ⟨hc, r1, hr1, h⟩ | ⟨hc, op, e1, l, r2, hop, he1, hl, hr2, h⟩⟩⟩ := parse_ok fuel m r h
    · rw [parse_case_numeral _ _ n first hn h0 h1]; exact h
    · subst h h1
      rw [parse_case_negation _ _ n hn h0, ih _ _ hr1]; rfl
    · subst h
      rw [parse_case_again _ _ n first st curr hn h0 h1 h2 hst hloop hc, ih _ _ hr1]; rfl
    · subst h
      rw [parse_case_split _ _ n first st curr op e1 hn h0 h1 h2 hst hloop hc hop he1,
        ih _ _ hl]
      simp only [Result.bind_ok, ih _ _ hr2]

theorem parse_fuel_le (fuel fuel1 : Nat) (hle : fuel ≤ fuel1) (m : List Char)
    (r : ASTNODE × List Char) (h : parse fuel m = .ok r) : parse fuel1 m = .ok r := by
  induction hle with
  | refl => exact h
  | step _ ih => exact parse_fuel_succ _ _ _ ih

/-! ### Bracket depth -/

@[simp] theorem depth_nil : depth [] = 0 := rfl

@[simp] theorem depth_cons (c : Char) (s : List Char) :
    depth (c :: s) = isBracketSymbol c + depth s := by
  simp [depth]

@[simp] theorem depth_append (s t : List Char) : depth (s ++ t) = depth s + depth t := by
  simp [depth]

theorem isBracketSymbol_bounds (c : Char) : -1 ≤ isBracketSymbol c ∧ isBracketSymbol c ≤ 1 := by
  unfold isBracketSymbol
  split_ifs <;> omega

theorem isBracketSymbol_of_isOperatorSymbol (c : Char) (h : isOperatorSymbol c = true) :
    isBracketSymbol c = 0 := by
  unfold isOperatorSymbol at h
  split_ifs at h with h1 h2 h3 h4
  · subst h1; decide
  · subst h2; decide
  · subst h3; decide
  · subst h4; decide

theorem NonNegPrefixes.nil : NonNegPrefixes [] := by
  intro a b h
  have : a = [] := by
    cases a with
    | nil => rfl
    | cons x xs => simp at h
  subst this; simp

theorem NonNegPrefixes.prefix {w a b : List Char} (h : NonNegPrefixes w) (hw : w = a ++ b) :
    NonNegPrefixes a := by
  intro a1 b1 h1
  exact h a1 (b1 ++ b) (by rw [hw, h1, List.append_assoc])

/-- The loop of `removeOuterMostParen` runs past the last character only if
the count stays at 1 or more on the way. -/
theorem parenLoop_past_last (last : Int) (rest tail : List Char) (b : Int) (j curr : Nat)
    (h : parenLoop last (rest ++ tail) b j = .ok curr) (hb : 1 ≤ b)
    (hj : ((j + rest.length : Nat) : Int) ≤ last) (hcurr : (curr : Int) > last) :
    ∀ a c, rest = a ++ c → 1 ≤ b + depth a := by
  induction rest generalizing b j with
  | nil =>
    intro a c hac
    have : a = [] := by
      cases a with
      | nil => rfl
      | cons x xs => simp at hac
    subst this; simpa using hb
  | cons x xs ih =>
    have hcond : b ≠ 0 ∧ (j : Int) ≤ last := by
      constructor
      · omega
      · simp at hj; omega
    rw [List.cons_append, parenLoop_step _ _ _ _ _ hcond] at h
    have hb1 : (if b = -1 then 0 else b) = b := by
      rw [if_neg (by omega)]
    rw [hb1] at h
    have hx := isBracketSymbol_bounds x
    have hb' : 1 ≤ b + isBracketSymbol x := by
      by_contra hlt
      have h0 : b + isBracketSymbol x = 0 := by omega
      rw [h0, parenLoop_stop _ _ _ _ (by simp)] at h
      simp at h hj
      omega
    intro a c hac
    cases a with
    | nil => simpa using hb
    | cons y ys =>
      simp only [List.cons_append, List.cons.injEq] at hac
      obtain ⟨rfl, hac⟩ := hac
      have := ih (b + isBracketSymbol x) (j + 1) h hb' (by simp at hj ⊢; omega) ys c hac
      simp only [depth_cons]
      omega

theorem readAt_zero_cons (c : Char) (cs : List Char) : readAt (c :: cs) 0 = .ok c := rfl

theorem readInt_natCast (p : List Char) (i : Nat) : readInt p (i : Int) = readAt p i := by
  unfold readInt
  rw [if_neg (by omega)]; simp

theorem writeInt_natCast (p : List Char) (i : Nat) (c : Char) :
    writeInt p (i : Int) c = writeAt p i c := by
  unfold writeInt
  rw [if_neg (by omega)]; simp

theorem readAt_append_length (a : List Char) (y : Char) (t : List Char) :
    readAt (a ++ y :: t) a.length = .ok y := by
  rw [readAt_eq_ok, List.get?_eq_getElem?, List.getElem?_append_right (le_refl _)]
  simp

theorem writeAt_append_length (a : List Char) (y : Char) (t : List Char) (v : Char) :
    writeAt (a ++ y :: t) a.length v = .ok (a ++ v :: t) := by
  rw [writeAt_eq_ok]
  refine ⟨by simp, ?_⟩
  rw [List.set_append_right _ _ (le_refl _)]
  simp

theorem eq_nil_or_concat (l : List Char) : l = [] ∨ ∃ mid y, l = mid ++ [y] := by
  induction l using List.reverseRecOn with
  | nil => left; rfl
  | append_singleton mid y _ => right; exact ⟨mid, y, rfl⟩

theorem NonNegPrefixes.wrap {mid : List Char} (h : NonNegPrefixes mid) :
    NonNegPrefixes ('(' :: (mid ++ [')'])) := by
  intro a b hab
  cases a with
  | nil => simp
  | cons x xs =>
    simp only [List.cons_append, List.cons.injEq] at hab
    obtain ⟨rfl, hab⟩ := hab
    rcases eq_nil_or_concat b with hb | ⟨b1, y, hb⟩
    · subst hb
      rw [List.append_nil] at hab
      subst hab
      have := h mid [] (by simp)
      simp [isBracketSymbol]
      omega
    · subst hb
      rw [← List.append_assoc] at hab
      have hmid : mid = xs ++ b1 := (List.append_inj' hab rfl).1
      have := h xs b1 hmid
      simp [isBracketSymbol]
      omega

/-- What `removeOuterMostParen` leaves: at the returned pointer stands a string
`w1` with its terminator; either nothing was removed, or every prefix of the
string that came in, and of `w1`, has a bracket depth of at least 0. -/
theorem removeOuterMostParenAux_shape (fuel : Nat) (w post : List Char)
    (r : Nat × List Char) (hNUL : NUL ∉ w)
    (h : removeOuterMostParenAux fuel (w ++ NUL :: post) = .ok r) :
    ∃ w1 post1, r.2.drop r.1 = w1 ++ NUL :: post1 ∧ NUL ∉ w1 ∧ w1.length ≤ w.length ∧
      ((r.1 = 0 ∧ w1 = w ∧ post1 = post) ∨ (NonNegPrefixes w ∧ NonNegPrefixes w1)) := by
  induction fuel generalizing w post r with
  | zero => simp [removeOuterMostParenAux] at h
  | succ fuel ih =>
    have keep : r = (0, w ++ NUL :: post) →
        ∃ w1 post1, r.2.drop r.1 = w1 ++ NUL :: post1 ∧ NUL ∉ w1 ∧ w1.length ≤ w.length ∧
          ((r.1 = 0 ∧ w1 = w ∧ post1 = post) ∨ (NonNegPrefixes w ∧ NonNegPrefixes w1)) := by
      intro hr
      subst hr
      exact ⟨w, post, rfl, hNUL, le_refl _, Or.inl ⟨rfl, rfl, rfl⟩⟩
    obtain ⟨n, first, hn, h0, ⟨-, h⟩ | ⟨h1, lastc, hl, ⟨-, h⟩ | ⟨h2, curr, hloop,
      ⟨-, h⟩ | ⟨hcurr, e1, e2, r1, he1, he2, hr1, h⟩⟩⟩⟩ :=
        removeOuterMostParenAux_ok fuel _ r h
    · exact keep h
    · exact keep h
    · exact keep h
    · clear keep
      subst h1 h2
      rw [strlen_of_not_mem w post hNUL] at hn
      simp only [Result.ok.injEq] at hn
      subst hn
      -- the string is `(` mid `)`
      cases w with
      | nil =>
        rw [List.nil_append, readAt_zero_cons] at h0
        exact absurd h0 (by decide)
      | cons x w1 =>
        rw [List.cons_append, readAt_zero_cons] at h0
        simp only [Result.ok.injEq] at h0
        subst h0
        rcases eq_nil_or_concat w1 with hw1 | ⟨mid, y, hw1⟩
        · subst hw1
          exact absurd hl (by simp [readInt, readAt])
        · subst hw1
          have hm : '(' :: (mid ++ [y]) ++ NUL :: post = ('(' :: mid) ++ y :: NUL :: post := by
            simp
          have hlen : ((('(' :: (mid ++ [y])).length : Nat) : Int) - 1 =
              ((('(' :: mid).length : Nat) : Int) := by simp
          rw [hlen] at hl hloop hcurr he2
          rw [hm] at hl hloop he1
          rw [readInt_natCast, readAt_append_length] at hl
          have hy : y = ')' := by simpa using hl
          subst hy
          have hmidNUL : NUL ∉ mid := fun hm => hNUL (by simp [hm])
          -- the loop ran through `mid`
          rw [List.cons_append, parenLoop_step _ _ _ _ _
            ⟨by decide, by simp only [List.length_cons]; omega⟩] at hloop
          have hmid : NonNegPrefixes mid := by
            intro a c hac
            have := parenLoop_past_last _ mid _ 1 1 curr hloop (le_refl _)
              (by simp; omega) hcurr a c hac
            omega
          -- the two writes
          rw [writeAt_eq_ok] at he1
          obtain ⟨-, he1⟩ := he1
          simp only [List.cons_append, List.set_cons_zero] at he1
          subst he1
          have he2' : e2 = (NUL :: mid) ++ NUL :: NUL :: post := by
            have := writeAt_append_length (NUL :: mid) ')' (NUL :: post) NUL
            rw [writeInt_natCast] at he2
            simp only [List.length_cons, List.cons_append] at this he2
            rw [this] at he2
            simpa using he2.symm
          subst he2'
          simp only [List.cons_append, List.drop_succ_cons, List.drop_zero] at hr1
          obtain ⟨w2, post2, hd, hN2, hlen2, hcase⟩ := ih mid (NUL :: post) r1 hmidNUL hr1
          subst h
          refine ⟨w2, post2, ?_, hN2, by simp; omega, Or.inr ⟨hmid.wrap, ?_⟩⟩
          · simpa using hd
          · rcases hcase with ⟨-, hw, -⟩ | ⟨-, hw⟩
            · rw [hw]; exact hmid
            · exact hw

/-! ### The operator search -/

theorem operatorLoop_ge (last : Int) (xs : List Char) (b : Int) (j r : Nat)
    (h : operatorLoop last xs b j = .ok r) : j ≤ r := by
  induction xs generalizing b j with
  | nil => simp [operatorLoop] at h
  | cons c cs ih =>
    cases hc : (!isOperatorSymbol c ||
      (decide (b ≠ 0) && decide ((j : Int) ≤ last - 1)))
    · rw [operatorLoop_stop _ _ _ _ _ hc] at h
      simp only [Result.ok.injEq] at h
      omega
    · rw [operatorLoop_step _ _ _ _ _ hc] at h
      have := ih _ _ h
      omega

theorem countAfter_step (pre : List Char) (x : Char) (h : pre = [] ∨ 0 ≤ depth pre) :
    (if countAfter pre = -1 then 0 else countAfter pre) + isBracketSymbol x =
      countAfter (pre ++ [x]) := by
  unfold countAfter
  by_cases hp : pre = []
  · subst hp; simp
  · have h0 : 0 ≤ depth pre := h.resolve_left hp
    rw [if_neg hp, if_neg (by omega), if_neg (by simp)]
    simp

/-- The operator search stops at the first operator character that stands at
bracket depth 0 behind the first character, when no prefix before it has a
negative depth. -/
theorem operatorLoop_finds (last : Int) (rest pre : List Char) (k : Char) (tail : List Char)
    (hk : isOperatorSymbol k = true) (hd : depth (pre ++ rest) = 0)
    (hne : pre ++ rest ≠ [])
    (hnn : NonNegPrefixes (pre ++ rest))
    (hleast : ∀ a1 k1 b1, pre ++ rest = a1 ++ k1 :: b1 → a1 ≠ [] →
      isOperatorSymbol k1 = true → depth a1 ≠ 0)
    (hlast : ((pre.length + rest.length : Nat) : Int) ≤ last - 1) :
    operatorLoop last (rest ++ k :: tail) (countAfter pre) pre.length =
      .ok (pre.length + rest.length) := by
  induction rest generalizing pre with
  | nil =>
    rw [List.append_nil] at hd hne
    have hb : countAfter pre = 0 := by
      unfold countAfter; rw [if_neg hne]; exact hd
    rw [List.nil_append, operatorLoop_stop _ _ _ _ _ (by simp [hk, hb])]
    simp
  | cons c cs ih =>
    have hpre : pre = [] ∨ 0 ≤ depth pre := Or.inr (hnn pre (c :: cs) rfl)
    have hcond : (!isOperatorSymbol c ||
        (decide (countAfter pre ≠ 0) && decide ((pre.length : Int) ≤ last - 1))) = true := by
      cases hop : isOperatorSymbol c
      · simp
      · have h1 : (pre.length : Int) ≤ last - 1 := by
          simp at hlast; omega
        have h2 : countAfter pre ≠ 0 := by
          unfold countAfter
          by_cases hp : pre = []
          · rw [if_pos hp]; decide
          · rw [if_neg hp]; exact hleast pre c cs rfl hp hop
        simp [h1, h2]
    rw [List.cons_append, operatorLoop_step _ _ _ _ _ hcond, countAfter_step pre c hpre]
    have hrw : pre ++ c :: cs = (pre ++ [c]) ++ cs := by simp
    have := ih (pre ++ [c]) (by rw [← hrw]; exact hd) (by simp)
      (by rw [← hrw]; exact hnn) (by rw [← hrw]; exact hleast)
      (by simp at hlast ⊢; omega)
    simp only [List.length_append, List.length_singleton] at this
    rw [this]
    simp; omega

/-- When the bracket depth turns negative after `pre` and the character `c`,
and no operator inside `pre` stands at depth 0, the operator search does not
split the string at `c` or before it. -/
theorem operatorLoop_late (last : Int) (p2 p1 : List Char) (c : Char) (tail : List Char)
    (r : Nat)
    (hnn : NonNegPrefixes (p1 ++ p2))
    (hc : isOperatorSymbol c = false)
    (hleast : ∀ a1 k1 b1, p1 ++ p2 = a1 ++ k1 :: b1 → a1 ≠ [] →
      isOperatorSymbol k1 = true → depth a1 ≠ 0)
    (h : operatorLoop last (p2 ++ c :: tail) (countAfter p1) p1.length = .ok r)
    (hr : (r : Int) ≤ last - 1) : (p1 ++ p2).length + 1 ≤ r := by
  induction p2 generalizing p1 with
  | nil =>
    rw [List.nil_append, operatorLoop_step _ _ _ _ _ (by simp [hc])] at h
    have := operatorLoop_ge _ _ _ _ _ h
    simpa using this
  | cons x xs ih =>
    have hpre : p1 = [] ∨ 0 ≤ depth p1 := Or.inr (hnn p1 (x :: xs) rfl)
    have hrw : p1 ++ x :: xs = (p1 ++ [x]) ++ xs := by simp
    cases hcond : (!isOperatorSymbol x ||
        (decide (countAfter p1 ≠ 0) && decide ((p1.length : Int) ≤ last - 1)))
    · exfalso
      rw [List.cons_append, operatorLoop_stop _ _ _ _ _ hcond] at h
      simp only [Result.ok.injEq] at h
      subst h
      simp only [Bool.or_eq_false_iff, Bool.not_eq_false', Bool.and_eq_false_iff,
        decide_eq_false_iff_not, not_not] at hcond
      obtain ⟨hop, hz | hz⟩ := hcond
      · unfold countAfter at hz
        by_cases hp : p1 = []
        · rw [if_pos hp] at hz; exact absurd hz (by decide)
        · rw [if_neg hp] at hz
          exact hleast p1 x xs rfl hp hop hz
      · exact hz hr
    · rw [List.cons_append, operatorLoop_step _ _ _ _ _ hcond,
        countAfter_step p1 x hpre] at h
      have := ih (p1 ++ [x]) (by rw [← hrw]; exact hnn) (by rw [← hrw]; exact hleast)
        (by simpa using h)
      rw [hrw]; exact this

theorem isOperatorSymbol_of_isBracketSymbol_ne (c : Char) (h : isBracketSymbol c ≠ 0) :
    isOperatorSymbol c = false := by
  cases hop : isOperatorSymbol c
  · rfl
  · exact absurd (isBracketSymbol_of_isOperatorSymbol c hop) h

theorem split_at (l : List Char) (i : Nat) (hi : i < l.length) :
    ∃ x, l = l.take i ++ x :: l.drop (i + 1) := by
  refine ⟨l[i], ?_⟩
  rw [← List.drop_eq_getElem_cons hi, List.take_append_drop]

theorem head?_append_cons (pre : List Char) (c : Char) (x y : List Char) :
    (pre ++ c :: x).head? = (pre ++ c :: y).head? := by
  cases pre <;> rfl

theorem readAt_zero_of_head? (w t : List Char) (first : Char)
    (h : w.head? = some first) : readAt (w ++ t) 0 = .ok first := by
  cases w with
  | nil => simp at h
  | cons x xs =>
    simp only [List.head?_cons, Option.some.injEq] at h
    subst h; rfl

/-- A string that starts with neither a numeral symbol nor `-`, and whose
bracket depth turns negative before any operator at depth 0, is never parsed
to a tree: the search either leaves the array, or sends `parse` to the same
string again, or splits behind the negative depth and leaves a left part of
the same kind. -/
theorem parse_no_tree_of_negative_depth (fuel : Nat) (pre : List Char) (c : Char)
    (rest post : List Char) (r : ASTNODE × List Char)
    (hNUL : NUL ∉ pre ++ c :: rest)
    (first : Char) (hfirst : (pre ++ c :: rest).head? = some first)
    (hnum : isNumeralSymbol first = false) (hminus : first ≠ '-')
    (hnn : NonNegPrefixes pre) (hdip : depth (pre ++ [c]) < 0)
    (hleast : ∀ a1 k1 b1, pre = a1 ++ k1 :: b1 → a1 ≠ [] →
      isOperatorSymbol k1 = true → depth a1 ≠ 0) :
    parse fuel ((pre ++ c :: rest) ++ NUL :: post) ≠ .ok r := by
  induction fuel generalizing rest post r with
  | zero => simp [parse]
  | succ fuel ih =>
    intro h
    have hc : isOperatorSymbol c = false := by
      apply isOperatorSymbol_of_isBracketSymbol_ne
      have := hnn pre [] (by simp)
      simp only [depth_append, depth_cons, depth_nil] at hdip
      omega
    have hn := strlen_of_not_mem _ post hNUL
    have h0 := readAt_zero_of_head? _ (NUL :: post) first hfirst
    have hst : ∃ st, removeOuterMostParen ((pre ++ c :: rest) ++ NUL :: post) = .ok st ∧
        st.1 = 0 ∧ st.2 = (pre ++ c :: rest) ++ NUL :: post := by
      obtain ⟨n1, first1, hn1, h01, hcases⟩ := parse_ok fuel _ r h
      rw [h0] at h01
      simp only [Result.ok.injEq] at h01
      subst h01
      rcases hcases with ⟨h1, -⟩ | ⟨h1, -⟩ | ⟨-, -, st, curr, hst, -⟩
      · rw [hnum] at h1; exact absurd h1 (by decide)
      · exact absurd h1 hminus
      · refine ⟨st, hst, ?_⟩
        obtain ⟨w1, post1, hd, -, -, ⟨hk, hw, hp⟩ | ⟨hbad, -⟩⟩ :=
          removeOuterMostParenAux_shape _ _ post st hNUL hst
        · rw [hk, List.drop_zero, hw, hp] at hd
          exact ⟨hk, hd⟩
        · have := hbad (pre ++ [c]) rest (by simp)
          omega
    obtain ⟨st, hst, hk, hbuf⟩ := hst
    have hdrop : st.2.drop st.1 = pre ++ c :: (rest ++ NUL :: post) := by
      rw [hk, hbuf]; simp
    cases hloop : operatorLoop (((pre ++ c :: rest).length : Nat) - 1 : Int)
        (st.2.drop st.1) (-1) 0 with
    | ok curr =>
      by_cases hcurr : (curr : Int) > (((pre ++ c :: rest).length : Nat) : Int) - 1 - 1
      · rw [parse_case_again fuel _ _ first st curr hn h0 hnum hminus hst hloop hcurr,
          Result.bind_eq_ok] at h
        obtain ⟨r1, hr1, -⟩ := h
        rw [hdrop] at hr1
        exact ih rest post r1 hNUL hfirst (by simpa using hr1)
      · have hlen : (pre ++ c :: rest).length = pre.length + 1 + rest.length := by
          simp only [List.length_append, List.length_cons]; omega
        have hlate : pre.length + 1 ≤ curr := by
          rw [hdrop] at hloop
          have := operatorLoop_late ((((pre ++ c :: rest).length : Nat) : Int) - 1)
            pre [] c (rest ++ NUL :: post) curr
            (by simpa using hnn) hc (by simpa using hleast) hloop (by omega)
          simpa using this
        obtain ⟨i, rfl⟩ : ∃ i, curr = pre.length + 1 + i :=
          ⟨curr - (pre.length + 1), by omega⟩
        have hi : i < rest.length := by omega
        obtain ⟨x, hx⟩ := split_at rest i hi
        have hlen2 : (pre ++ c :: rest.take i).length = pre.length + 1 + i := by
          simp only [List.length_append, List.length_cons, List.length_take]; omega
        have hsplit : st.2.drop st.1 =
            (pre ++ c :: rest.take i) ++ x :: (rest.drop (i + 1) ++ NUL :: post) := by
          rw [hdrop]
          conv_lhs => rw [hx]
          simp
        have hop : readAt (st.2.drop st.1) (pre.length + 1 + i) = .ok x := by
          rw [hsplit, ← hlen2]
          exact readAt_append_length _ _ _
        have he1 : writeAt (st.2.drop st.1) (pre.length + 1 + i) NUL = .ok
            ((pre ++ c :: rest.take i) ++ NUL :: (rest.drop (i + 1) ++ NUL :: post)) := by
          rw [hsplit, ← hlen2]
          exact writeAt_append_length _ _ _ _
        rw [parse_case_split fuel _ _ first st _ x _ hn h0 hnum hminus hst hloop hcurr
          hop he1, Result.bind_eq_ok] at h
        obtain ⟨l, hl, -⟩ := h
        refine ih (rest.take i) _ l ?_ ?_ hl
        · intro hmem
          apply hNUL
          simp only [List.mem_append, List.mem_cons] at hmem ⊢
          rcases hmem with hm | hm | hm
          · exact Or.inl hm
          · exact Or.inr (Or.inl hm)
          · exact Or.inr (Or.inr (List.mem_of_mem_take hm))
        · rw [← hfirst]; exact head?_append_cons _ _ _ _
    | outOfBounds =>
      rw [parse_case_search fuel _ _ first st hn h0 hnum hminus hst, hloop] at h
      exact absurd h (by simp [Result.bind])
    | exitFailure =>
      rw [parse_case_search fuel _ _ first st hn h0 hnum hminus hst, hloop] at h
      exact absurd h (by simp [Result.bind])
    | outOfFuel =>
      rw [parse_case_search fuel _ _ first st hn h0 hnum hminus hst, hloop] at h
      exact absurd h (by simp [Result.bind])

theorem exists_first_negative_prefix (a : List Char) (h : ¬ NonNegPrefixes a) :
    ∃ pre c rest, a = pre ++ c :: rest ∧ NonNegPrefixes pre ∧ depth (pre ++ [c]) < 0 := by
  induction a using List.reverseRecOn with
  | nil => exact absurd NonNegPrefixes.nil h
  | append_singleton a1 x ih =>
    by_cases h1 : NonNegPrefixes a1
    · refine ⟨a1, x, [], rfl, h1, ?_⟩
      unfold NonNegPrefixes at h
      push_neg at h
      obtain ⟨p, q, hpq, hneg⟩ := h
      rcases eq_nil_or_concat q with hq | ⟨q1, y, hq⟩
      · subst hq
        rw [List.append_nil] at hpq
        rw [hpq]; exact hneg
      · subst hq
        rw [← List.append_assoc] at hpq
        have := h1 p q1 (List.append_inj' hpq rfl).1
        omega
    · obtain ⟨pre, c, rest, ha, hnn, hd⟩ := ih h1
      exact ⟨pre, c, rest ++ [x], by rw [ha]; simp, hnn, hd⟩

theorem takeWhile_ne_NUL (w post : List Char) (h : NUL ∉ w) :
    (w ++ NUL :: post).takeWhile (fun c => c != NUL) = w := by
  induction w with
  | nil => simp [List.takeWhile]
  | cons x xs ih =>
    have hx : x ≠ NUL := fun e => h (by simp [e])
    have hxs : NUL ∉ xs := fun e => h (by simp [e])
    have hb : (x != NUL) = true := by simpa using hx
    rw [List.cons_append, List.takeWhile_cons, hb, ih hxs]
    rfl

theorem parseTree_eq_ok (fuel : Nat) (s : List Char) (t : ASTNODE)
    (h : parseTree fuel s = .ok t) : ∃ m, parse fuel (s ++ [NUL]) = .ok (t, m) := by
  unfold parseTree cstring at h
  rw [Result.bind_eq_ok] at h
  obtain ⟨a, ha, h⟩ := h
  simp only [Result.ok.injEq] at h
  subst h
  exact ⟨a.2, ha⟩

/-- The split case of `parse`, stated on strings: `a` and `b` are the text
before and after the operator `k`. -/
theorem returns_of_split (s : List Char) (first : Char) (a b : List Char) (k : Char)
    (l r : ASTNODE) (st : Nat × List Char) (post1 : List Char)
    (hNUL : NUL ∉ s) (hfirst : s.head? = some first)
    (hnum : isNumeralSymbol first = false) (hminus : first ≠ '-')
    (hst : removeOuterMostParen (s ++ [NUL]) = .ok st)
    (hdrop : st.2.drop st.1 = (a ++ k :: b) ++ NUL :: post1)
    (hloop : operatorLoop ((s.length : Int) - 1) (st.2.drop st.1) (-1) 0 = .ok a.length)
    (hlen : a.length + 1 < s.length)
    (hl : Returns a l) (hr : Returns b r) : Returns s (BinaryOp k l r) := by
  obtain ⟨fl, hl⟩ := hl
  obtain ⟨fr, hr⟩ := hr
  obtain ⟨ml, hl⟩ := parseTree_eq_ok _ _ _ hl
  obtain ⟨mr, hr⟩ := parseTree_eq_ok _ _ _ hr
  have hl1 := parse_fuel_le fl (max fl fr) (le_max_left _ _) _ _
    (parse_append fl _ (b ++ NUL :: post1) _ hl)
  have hr1 := parse_fuel_le fr (max fl fr) (le_max_right _ _) _ _
    (parse_append fr _ post1 _ hr)
  have hmll : ml.length = a.length + 1 := by
    have := parse_length _ _ _ hl
    simpa using this
  have hsplit : st.2.drop st.1 = a ++ k :: (b ++ NUL :: post1) := by
    rw [hdrop]; simp
  have hop : readAt (st.2.drop st.1) a.length = .ok k := by
    rw [hsplit]; exact readAt_append_length _ _ _
  have he1 : writeAt (st.2.drop st.1) a.length NUL = .ok (a ++ NUL :: (b ++ NUL :: post1)) := by
    rw [hsplit]; exact writeAt_append_length _ _ _ _
  have hn := strlen_of_not_mem s [] hNUL
  have h0 := readAt_zero_of_head? s [NUL] first hfirst
  refine ⟨max fl fr + 1, ?_⟩
  unfold parseTree cstring
  rw [parse_case_split (max fl fr) _ _ first st a.length k _ hn h0 hnum hminus hst hloop
    (by omega) hop he1]
  have hl2 : parse (max fl fr) (a ++ NUL :: (b ++ NUL :: post1)) =
      .ok (l, ml ++ (b ++ NUL :: post1)) := by
    simpa using hl1
  rw [hl2]
  simp only [Result.bind_ok]
  have hd2 : (ml ++ (b ++ NUL :: post1)).drop (a.length + 1) = b ++ NUL :: post1 := by
    rw [← hmll]; simp
  rw [hd2]
  have hr2 : parse (max fl fr) (b ++ NUL :: post1) = .ok (r, mr ++ post1) := by
    simpa using hr1
  rw [hr2]
  rfl

theorem strippedText_eq (s : List Char) (st : Nat × List Char) (w1 post1 : List Char)
    (hst : removeOuterMostParen (s ++ [NUL]) = .ok st)
    (hd : st.2.drop st.1 = w1 ++ NUL :: post1) (hN : NUL ∉ w1) : strippedText s = w1 := by
  unfold strippedText cstring
  rw [hst]
  simp only [hd]
  exact takeWhile_ne_NUL w1 post1 hN

/-- The general statement of the split at the first operator of depth 0. -/
theorem returns_split_first_operator (s : List Char) (first : Char) (i : Nat) (k : Char)
    (l r : ASTNODE) (hNUL : NUL ∉ s) (hfirst : s.head? = some first)
    (hnum : isNumeralSymbol first = false) (hminus : first ≠ '-')
    (hk : (strippedText s).get? i = some k) (hop : isOperatorSymbol k = true)
    (hi : 1 ≤ i) (hright : i + 1 < (strippedText s).length)
    (hdepth : depth ((strippedText s).take i) = 0)
    (hleast : ∀ j, j < i → 1 ≤ j → isOperatorSymbol ((strippedText s).getD j NUL) = true →
      depth ((strippedText s).take j) ≠ 0)
    (hl : Returns ((strippedText s).take i) l)
    (hr : Returns ((strippedText s).drop (i + 1)) r) :
    Returns s (BinaryOp k l r) := by
  cases hst : removeOuterMostParen (s ++ [NUL]) with
  | ok st =>
    obtain ⟨w1, post1, hd, hN, hlen, hcase⟩ :=
      removeOuterMostParenAux_shape _ s [] st hNUL hst
    have hw := strippedText_eq s st w1 post1 hst hd hN
    rw [hw] at hk hright hdepth hleast hl hr
    have hilt : i < w1.length := by omega
    -- the text before and after the operator
    have hsplit : w1 = w1.take i ++ k :: w1.drop (i + 1) := by
      obtain ⟨x, hx⟩ := split_at w1 i hilt
      have : w1.get? i = some x := by
        conv_lhs => rw [hx]
        rw [List.get?_eq_getElem?, List.getElem?_append_right (by rw [List.length_take]; omega)]
        simp [List.length_take, Nat.min_eq_left (le_of_lt hilt)]
      rw [this] at hk
      simp only [Option.some.injEq] at hk
      rw [← hk]; exact hx
    have hai : (w1.take i).length = i := by
      rw [List.length_take]; omega
    have hleast1 : ∀ a1 k1 b1, w1.take i = a1 ++ k1 :: b1 → a1 ≠ [] →
        isOperatorSymbol k1 = true → depth a1 ≠ 0 := by
      intro a1 k1 b1 ha hne hk1
      have hlen1 : a1.length < i := by
        have := congrArg List.length ha
        simp only [hai, List.length_append, List.length_cons] at this
        omega
      have hw1 : w1 = a1 ++ k1 :: (b1 ++ k :: w1.drop (i + 1)) := by
        conv_lhs => rw [hsplit, ha]
        simp
      have htake : w1.take a1.length = a1 := by
        conv_lhs => rw [hw1]
        simp
      have hget : w1.getD a1.length NUL = k1 := by
        conv_lhs => rw [hw1]
        rw [List.getD_eq_getElem?_getD, List.getElem?_append_right (le_refl _)]
        simp
      have := hleast a1.length hlen1
        (by cases a1 with
          | nil => exact absurd rfl hne
          | cons y ys => simp)
        (by rw [hget]; exact hk1)
      rwa [htake] at this
    have hane : w1.take i ≠ [] := by
      intro e
      rw [e] at hai
      simp at hai; omega
    -- no prefix of the left text has a negative depth
    have hnn : NonNegPrefixes (w1.take i) := by
      rcases hcase with ⟨-, hw1, -⟩ | ⟨-, hnn1⟩
      · by_contra hneg
        obtain ⟨pre, c, rest, ha, hpre, hdip⟩ := exists_first_negative_prefix _ hneg
        obtain ⟨fl, hl⟩ := hl
        obtain ⟨ml, hl⟩ := parseTree_eq_ok _ _ _ hl
        rw [ha] at hl
        refine parse_no_tree_of_negative_depth fl pre c rest [] (l, ml) ?_ first ?_ hnum
          hminus hpre hdip ?_ hl
        · rw [← ha]
          intro hm
          exact hN (List.mem_of_mem_take hm)
        · rw [← ha, ← hfirst, hw1]
          cases s with
          | nil => simp
          | cons y ys =>
            cases i with
            | zero => omega
            | succ i1 => simp
        · intro a1 k1 b1 hp
          exact hleast1 a1 k1 (b1 ++ c :: rest) (by rw [ha, hp]; simp)
      · exact hnn1.prefix hsplit
    have hloop := operatorLoop_finds ((s.length : Int) - 1) (w1.take i) [] k
      (w1.drop (i + 1) ++ NUL :: post1) hop (by simpa using hdepth) (by simpa using hane)
      (by simpa using hnn) (by simpa using hleast1)
      (by simp only [List.length_nil, Nat.zero_add, hai]; omega)
    have hloop1 : operatorLoop ((s.length : Int) - 1) (st.2.drop st.1) (-1) 0 =
        .ok (w1.take i).length := by
      rw [hd]
      conv_lhs => rw [hsplit]
      simpa [countAfter] using hloop
    exact returns_of_split s first (w1.take i) (w1.drop (i + 1)) k l r st post1 hNUL hfirst
      hnum hminus hst (by rw [hd, ← hsplit]) hloop1 (by rw [hai]; omega) hl hr
  | outOfBounds =>
    have : strippedText s = [] := by unfold strippedText cstring; rw [hst]
    rw [this] at hright; simp at hright
  | exitFailure =>
    have : strippedText s = [] := by unfold strippedText cstring; rw [hst]
    rw [this] at hright; simp at hright
  | outOfFuel =>
    have : strippedText s = [] := by unfold strippedText cstring; rw [hst]
    rw [this] at hright; simp at hright

/-! ### The exits that are never taken -/

theorem countLoop_ne_exitFailure (e : List Char) (d : Nat) (hd : Bool) :
    countLoop e d hd ≠ .exitFailure := by
  induction e generalizing d hd with
  | nil => simp [countLoop]
  | cons c cs ih =>
    rw [countLoop]
    by_cases h1 : isNumeralSymbol c = true
    · rw [if_pos h1]; exact ih _ _
    · rw [if_neg h1]
      have h2 : c ≠ '.' := by
        intro e; subst e; exact h1 (by decide)
      rw [if_neg h2]; simp

theorem copyLoop_ne_exitFailure (D : Nat) (e : List Char) (idx : Nat) :
    copyLoop D e idx ≠ .exitFailure := by
  induction e generalizing idx with
  | nil => simp [copyLoop]
  | cons c cs ih =>
    rw [copyLoop]
    split_ifs
    · cases h : copyLoop D cs (idx + 1) with
      | ok r => simp [Result.bind]
      | outOfBounds => simp [Result.bind]
      | exitFailure => exact absurd h (ih _)
      | outOfFuel => simp [Result.bind]
    · simp
    · simp
    · simp

theorem extractFirstNumeral_ne_exitFailure (e : List Char) :
    extractFirstNumeral e ≠ .exitFailure := by
  unfold extractFirstNumeral
  cases h : countLoop e 0 false with
  | ok d =>
    simp only [Result.bind_ok]
    cases h2 : copyLoop d e 0 with
    | ok r => simp [Result.bind]
    | outOfBounds => simp [Result.bind]
    | exitFailure => exact absurd h2 (copyLoop_ne_exitFailure _ _ _)
    | outOfFuel => simp [Result.bind]
  | outOfBounds => simp [Result.bind]
  | exitFailure => exact absurd h (countLoop_ne_exitFailure _ _ _)
  | outOfFuel => simp [Result.bind]

theorem Result.bind_ne_outOfFuel {α β : Type} (x : Result α) (f : α → Result β)
    (hx : x ≠ .outOfFuel) (hf : ∀ a, x = .ok a → f a ≠ .outOfFuel) :
    x.bind f ≠ .outOfFuel := by
  cases x with
  | ok a => exact hf a rfl
  | outOfBounds => simp [Result.bind]
  | exitFailure => simp [Result.bind]
  | outOfFuel => exact absurd rfl hx

theorem strlen_ne_outOfFuel (e : List Char) : strlen e ≠ .outOfFuel := by
  induction e with
  | nil => simp [strlen]
  | cons c cs ih =>
    rw [strlen]
    split_ifs
    · simp
    · exact Result.bind_ne_outOfFuel _ _ ih (fun _ _ => by simp)

theorem readAt_ne_outOfFuel (e : List Char) (i : Nat) : readAt e i ≠ .outOfFuel := by
  unfold readAt
  cases e.get? i <;> simp

theorem readInt_ne_outOfFuel (e : List Char) (i : Int) : readInt e i ≠ .outOfFuel := by
  unfold readInt
  split_ifs
  · simp
  · exact readAt_ne_outOfFuel _ _

theorem writeAt_ne_outOfFuel (e : List Char) (i : Nat) (c : Char) :
    writeAt e i c ≠ .outOfFuel := by
  unfold writeAt
  split_ifs <;> simp

theorem writeInt_ne_outOfFuel (e : List Char) (i : Int) (c : Char) :
    writeInt e i c ≠ .outOfFuel := by
  unfold writeInt
  split_ifs
  · simp
  · exact writeAt_ne_outOfFuel _ _ _

theorem parenLoop_ne_outOfFuel (last : Int) (e : List Char) (b : Int) (j : Nat) :
    parenLoop last e b j ≠ .outOfFuel := by
  induction e generalizing b j with
  | nil => rw [parenLoop]; split_ifs <;> simp
  | cons c cs ih =>
    by_cases hc : b ≠ 0 ∧ (j : Int) ≤ last
    · rw [parenLoop_step _ _ _ _ _ hc]; exact ih _ _
    · rw [parenLoop_stop _ _ _ _ hc]; simp

/-- The length of the array is enough recursion depth for
`removeOuterMostParen`: it never stops for lack of depth. -/
theorem removeOuterMostParenAux_ne_outOfFuel (e : List Char) (fuel : Nat)
    (h : e.length < fuel) : removeOuterMostParenAux fuel e ≠ .outOfFuel := by
  induction fuel generalizing e with
  | zero => omega
  | succ fuel ih =>
    rw [removeOuterMostParenAux]
    refine Result.bind_ne_outOfFuel _ _ (strlen_ne_outOfFuel _) (fun n hn => ?_)
    refine Result.bind_ne_outOfFuel _ _ (readAt_ne_outOfFuel _ _) (fun first _ => ?_)
    split_ifs with h1
    · simp
    refine Result.bind_ne_outOfFuel _ _ (readInt_ne_outOfFuel _ _) (fun lastc _ => ?_)
    split_ifs with h2
    · simp
    refine Result.bind_ne_outOfFuel _ _ (parenLoop_ne_outOfFuel _ _ _ _) (fun curr _ => ?_)
    split_ifs with h3
    · refine Result.bind_ne_outOfFuel _ _ (writeAt_ne_outOfFuel _ _ _) (fun e1 he1 => ?_)
      refine Result.bind_ne_outOfFuel _ _ (writeInt_ne_outOfFuel _ _ _) (fun e2 he2 => ?_)
      have l1 := writeAt_length _ _ _ _ he1
      have l2 := writeInt_length _ _ _ _ he2
      have hpos := strlen_lt_length e n hn
      exact Result.bind_ne_outOfFuel _ _
        (ih (e2.drop 1) (by simp only [List.length_drop]; omega)) (fun _ _ => by simp)
    · simp

theorem removeOuterMostParen_ne_outOfFuel (e : List Char) :
    removeOuterMostParen e ≠ .outOfFuel :=
  removeOuterMostParenAux_ne_outOfFuel e _ (Nat.lt_succ_self _)

/-! ### A stripped expression without a second operator -/

theorem operatorLoop_no_operator (last : Int) (xs : List Char) (b : Int) (j : Nat)
    (h : ∀ x ∈ xs, isOperatorSymbol x = false) :
    operatorLoop last xs b j = .outOfBounds := by
  induction xs generalizing b j with
  | nil => rfl
  | cons c cs ih =>
    have hc : isOperatorSymbol c = false := h c (by simp)
    rw [operatorLoop_step _ _ _ _ _ (by simp [hc])]
    exact ih _ _ (fun x hx => h x (by simp [hx]))

theorem isBracketSymbol_of_isNumeralSymbol (x : Char) (h : isNumeralSymbol x = true) :
    isBracketSymbol x = 0 := by
  unfold isBracketSymbol
  split_ifs with h1 h2
  · subst h1; exact absurd h (by decide)
  · subst h2; exact absurd h (by decide)
  · rfl

theorem ne_NUL_of_isNumeralSymbol (x : Char) (h : isNumeralSymbol x = true) : x ≠ NUL := by
  intro e; subst e; exact absurd h (by decide)

/-- The loop of `removeOuterMostParen` keeps its count over numeral symbols. -/
theorem parenLoop_numerals (last : Int) (xs tail : List Char) (b : Int) (j : Nat)
    (hxs : ∀ x ∈ xs, isNumeralSymbol x = true) (hb : 1 ≤ b)
    (hj : ((j + xs.length : Nat) : Int) ≤ last + 1) :
    parenLoop last (xs ++ tail) b j = parenLoop last tail b (j + xs.length) := by
  induction xs generalizing j with
  | nil => simp
  | cons c cs ih =>
    have hc := isBracketSymbol_of_isNumeralSymbol c (hxs c (by simp))
    rw [List.cons_append, parenLoop_step _ _ _ _ _
      ⟨by omega, by simp only [List.length_cons] at hj; omega⟩, hc,
      if_neg (by omega), add_zero,
      ih (j + 1) (fun x hx => hxs x (by simp [hx]))
        (by simp only [List.length_cons] at hj ⊢; omega)]
    simp only [List.length_cons]
    congr 1
    omega

/-- For every valid numeral `c`, `parse` on `(-c)` reads past the end of the
array: once the outer pair is overwritten, the operator search skips the `-`
and finds no other operator before the array ends. -/
theorem parse_parenthesised_negative_numeral (c : List Char) (hc : validNumeral c = true)
    (fuel : Nat) :
    parse (fuel + 1) (cstring ('(' :: '-' :: (c ++ [')']))) = .outOfBounds := by
  simp only [validNumeral, Bool.and_eq_true, Bool.not_eq_true', decide_eq_true_eq,
    List.all_eq_true] at hc
  obtain ⟨⟨-, hall⟩, -⟩ := hc
  have hNULc : NUL ∉ c := fun hm => ne_NUL_of_isNumeralSymbol _ (hall _ hm) rfl
  have hNUL : NUL ∉ '(' :: '-' :: (c ++ [')']) := by
    intro hm
    simp only [List.mem_cons, List.mem_append, List.mem_singleton] at hm
    rcases hm with hm | hm | hm | hm
    · exact absurd hm (by decide)
    · exact absurd hm (by decide)
    · exact hNULc hm
    · exact absurd hm (by decide)
  have hn := strlen_of_not_mem _ [] hNUL
  have hlen : (('(' :: '-' :: (c ++ [')'])).length : Int) - 1 = ((c.length + 2 : Nat) : Int)
      := by
    simp only [List.length_cons, List.length_append, List.length_singleton, List.length_nil]
    push_cast; omega
  have hm : ('(' :: '-' :: (c ++ [')'])) ++ [NUL] = ('(' :: '-' :: c) ++ ')' :: [NUL] := by
    simp
  -- the outer pair is removed
  have hstrip : removeOuterMostParen (('(' :: '-' :: (c ++ [')'])) ++ [NUL]) =
      .ok (1, NUL :: '-' :: (c ++ [NUL, NUL])) := by
    unfold removeOuterMostParen
    have hloop : parenLoop ((c.length + 2 : Nat) : Int)
        (('(' :: '-' :: c) ++ ')' :: [NUL]) (-1) 0 = .ok (c.length + 3) := by
      rw [List.cons_append, parenLoop_step _ _ _ _ _ ⟨by decide, by omega⟩,
        List.cons_append, parenLoop_step _ _ _ _ _ ⟨by decide, by push_cast; omega⟩]
      have h1 : (if (-1 : Int) = -1 then (0 : Int) else -1) + isBracketSymbol '(' = 1 := by
        decide
      have h2 : (if (1 : Int) = -1 then (0 : Int) else 1) + isBracketSymbol '-' = 1 := by
        decide
      rw [h1, h2, parenLoop_numerals _ c _ 1 _ hall (le_refl _) (by push_cast; omega),
        parenLoop_step _ _ _ _ _ ⟨by decide, by push_cast; omega⟩]
      have h3 : (if (1 : Int) = -1 then (0 : Int) else 1) + isBracketSymbol ')' = 0 := by
        decide
      rw [h3, parenLoop_stop _ _ _ _ (by simp)]
      congr 1
      omega
    have he2 : writeInt (NUL :: '-' :: c ++ ')' :: [NUL]) ((c.length + 2 : Nat) : Int) NUL =
        .ok ((NUL :: '-' :: c) ++ NUL :: [NUL]) := by
      rw [writeInt_natCast]
      exact writeAt_append_length (NUL :: '-' :: c) ')' [NUL] NUL
    have hinner : removeOuterMostParenAux ((c.length + 3) + 1)
        ('-' :: c ++ NUL :: [NUL]) = .ok (0, '-' :: c ++ NUL :: [NUL]) := by
      obtain ⟨n1, hn1⟩ := strlen_terminated ('-' :: c) [NUL]
      exact removeOuterMostParenAux_keep_first _ _ n1 '-' hn1 rfl (by decide)
    have := removeOuterMostParenAux_strip ((c.length + 3) + 1)
      (('(' :: '-' :: c) ++ ')' :: [NUL]) _ (c.length + 3)
      (NUL :: '-' :: c ++ ')' :: [NUL]) ((NUL :: '-' :: c) ++ NUL :: [NUL])
      (0, '-' :: c ++ NUL :: [NUL])
      (by rw [← hm]; exact hn) rfl
      (by rw [hlen, readInt_natCast]
          exact readAt_append_length ('(' :: '-' :: c) ')' [NUL])
      (by rw [hlen]; exact hloop) (by rw [hlen]; push_cast; omega) rfl
      (by rw [hlen]; exact he2) hinner
    rw [hm]
    have hfuel : (('(' :: '-' :: c) ++ ')' :: [NUL]).length + 1 = (c.length + 3) + 1 + 1 := by
      simp only [List.length_append, List.length_cons, List.length_nil]
    rw [hfuel, this]
    simp
  -- the search leaves the array
  have hsearch : operatorLoop ((('(' :: '-' :: (c ++ [')'])).length : Int) - 1)
      ('-' :: (c ++ [NUL, NUL])) (-1) 0 = .outOfBounds := by
    rw [hlen, operatorLoop_step _ _ _ _ _ (by simp; omega)]
    apply operatorLoop_no_operator
    intro x hx
    simp only [List.mem_append, List.mem_cons, List.mem_singleton, List.not_mem_nil,
      or_false] at hx
    rcases hx with hx | hx | hx
    · exact isOperatorSymbol_of_isNumeralSymbol x (hall x hx)
    · subst hx; decide
    · subst hx; decide
  unfold cstring
  rw [parse_case_search fuel _ _ '(' _ hn rfl (by decide) (by decide) hstrip]
  simp only [List.drop_succ_cons, List.drop_zero]
  rw [hsearch]
  rfl

/-! ### `removeOuterMostParen`, forwards -/

/-- The loop of `removeOuterMostParen` runs through a text as long as the count
stays at 1 or more before each of its characters. -/
theorem parenLoop_through (last : Int) (rest tail : List Char) (b : Int) (j : Nat)
    (h : ∀ a c, rest = a ++ c → c ≠ [] → 1 ≤ b + depth a)
    (hj : ((j + rest.length : Nat) : Int) ≤ last + 1) :
    parenLoop last (rest ++ tail) b j =
      parenLoop last tail (b + depth rest) (j + rest.length) := by
  induction rest generalizing b j with
  | nil => simp
  | cons x xs ih =>
    have hb : 1 ≤ b := by
      have := h [] (x :: xs) rfl (by simp)
      simpa using this
    rw [List.cons_append, parenLoop_step _ _ _ _ _
      ⟨by omega, by simp only [List.length_cons] at hj; omega⟩, if_neg (by omega),
      ih (b + isBracketSymbol x) (j + 1)
        (fun a c hac hc => by
          have := h (x :: a) c (by rw [hac]; rfl) hc
          simp only [depth_cons] at this
          omega)
        (by simp only [List.length_cons] at hj ⊢; omega)]
    simp only [depth_cons, List.length_cons]
    congr 1
    · omega
    · omega

theorem parenLoop_total (last : Int) (rest : List Char) (b : Int) (j : Nat)
    (h : last + 1 ≤ ((j + rest.length : Nat) : Int)) :
    ∃ curr, parenLoop last rest b j = .ok curr := by
  induction rest generalizing b j with
  | nil =>
    refine ⟨j, parenLoop_stop _ _ _ _ ?_⟩
    simp only [List.length_nil, Nat.add_zero] at h
    omega
  | cons x xs ih =>
    by_cases hc : b ≠ 0 ∧ (j : Int) ≤ last
    · rw [parenLoop_step _ _ _ _ _ hc]
      exact ih _ _ (by simp only [List.length_cons] at h ⊢; omega)
    · exact ⟨j, parenLoop_stop _ _ _ _ hc⟩

/-- A string wrapped in an outer pair that `removeOuterMostParen` removes: `(`,
a text none of whose prefixes has a negative depth, `)`. -/
theorem removeOuterMostParenAux_wrapped (fuel : Nat) (mid post : List Char)
    (hNUL : NUL ∉ mid) (hnn : NonNegPrefixes mid) :
    removeOuterMostParenAux (fuel + 1) (('(' :: (mid ++ [')'])) ++ NUL :: post) =
      (removeOuterMostParenAux fuel (mid ++ NUL :: NUL :: post)).bind fun r =>
        .ok (r.1 + 1, NUL :: r.2) := by
  have hN : NUL ∉ '(' :: (mid ++ [')']) := by
    intro hm
    simp only [List.mem_cons, List.mem_append, List.mem_singleton] at hm
    rcases hm with hm | hm | hm
    · exact absurd hm (by decide)
    · exact hNUL hm
    · exact absurd hm (by decide)
  have hn := strlen_of_not_mem _ post hN
  have hm : '(' :: (mid ++ [')']) ++ NUL :: post = ('(' :: mid) ++ ')' :: NUL :: post := by
    simp
  have hlen : ((('(' :: (mid ++ [')'])).length : Nat) : Int) - 1 =
      ((('(' :: mid).length : Nat) : Int) := by simp
  have hloop : parenLoop ((('(' :: mid).length : Nat) : Int)
      (('(' :: mid) ++ ')' :: NUL :: post) (-1) 0 = .ok (('(' :: mid).length + 1) := by
    have h1 : (if (-1 : Int) = -1 then (0 : Int) else -1) + isBracketSymbol '(' = 1 := by
      decide
    rw [List.cons_append, parenLoop_step _ _ _ _ _
      ⟨by decide, by simp only [List.length_cons]; omega⟩, h1]
    have hrw : mid ++ ')' :: NUL :: post = (mid ++ [')']) ++ NUL :: post := by simp
    rw [hrw, parenLoop_through _ (mid ++ [')']) _ 1 1
      (fun a c hac hc => by
        rcases eq_nil_or_concat c with hc1 | ⟨c1, y, hc1⟩
        · exact absurd hc1 hc
        · subst hc1
          rw [← List.append_assoc] at hac
          have := hnn a c1 (List.append_inj' hac rfl).1
          omega)
      (by simp only [List.length_cons, List.length_append, List.length_singleton, List.length_nil]
          push_cast; omega),
      parenLoop_stop _ _ _ _
        (by simp only [List.length_cons, List.length_append, List.length_singleton, List.length_nil]
            push_cast; omega)]
    simp only [List.length_cons, List.length_append, List.length_singleton, List.length_nil]
    congr 1
    omega
  have he2 : writeInt (NUL :: mid ++ ')' :: NUL :: post) ((('(' :: mid).length : Nat) : Int)
      NUL = .ok ((NUL :: mid) ++ NUL :: NUL :: post) := by
    rw [writeInt_natCast]
    exact writeAt_append_length (NUL :: mid) ')' (NUL :: post) NUL
  rw [removeOuterMostParenAux, hn]
  simp only [Result.bind_ok]
  rw [hlen, hm]
  have h0 : readAt (('(' :: mid) ++ ')' :: NUL :: post) 0 = .ok '(' := rfl
  have hl : readInt (('(' :: mid) ++ ')' :: NUL :: post) ((('(' :: mid).length : Nat) : Int)
      = .ok ')' := by
    rw [readInt_natCast]; exact readAt_append_length _ _ _
  have hw1 : writeAt (('(' :: mid) ++ ')' :: NUL :: post) 0 NUL =
      .ok (NUL :: mid ++ ')' :: NUL :: post) := by
    rw [writeAt_eq_ok]; exact ⟨by simp, rfl⟩
  rw [h0]
  simp only [Result.bind_ok]
  rw [if_neg (by simp), hl]
  simp only [Result.bind_ok]
  rw [if_neg (by simp), hloop]
  simp only [Result.bind_ok]
  rw [if_pos (by push_cast; omega), hw1]
  simp only [Result.bind_ok]
  rw [he2]
  simp only [Result.bind_ok, List.cons_append, List.drop_succ_cons, List.drop_zero,
    List.take_succ_cons, List.take_zero]
  rfl

/-- A string that is not wrapped comes back from `removeOuterMostParen` as it
came. -/
theorem removeOuterMostParenAux_not_wrapped (fuel : Nat) (w post : List Char)
    (hNUL : NUL ∉ w) (hw : ¬ Wrapped w) :
    removeOuterMostParenAux (fuel + 1) (w ++ NUL :: post) = .ok (0, w ++ NUL :: post) := by
  have hn := strlen_of_not_mem w post hNUL
  cases w with
  | nil => exact removeOuterMostParenAux_keep_first fuel _ _ NUL hn rfl (by decide)
  | cons x w1 =>
    by_cases hx : x = '('
    · subst hx
      rcases eq_nil_or_concat w1 with hw1 | ⟨mid, y, hw1⟩
      · subst hw1
        exact removeOuterMostParenAux_keep_last fuel _ _ '(' hn rfl
          (by simp [readInt, readAt]) (by decide)
      · subst hw1
        have hm : '(' :: (mid ++ [y]) ++ NUL :: post = ('(' :: mid) ++ y :: NUL :: post := by
          simp
        have hlen : ((('(' :: (mid ++ [y])).length : Nat) : Int) - 1 =
            ((('(' :: mid).length : Nat) : Int) := by simp
        have hl : readInt ('(' :: (mid ++ [y]) ++ NUL :: post)
            (((('(' :: (mid ++ [y])).length : Nat) : Int) - 1) = .ok y := by
          rw [hlen, hm, readInt_natCast]; exact readAt_append_length _ _ _
        by_cases hy : y = ')'
        · subst hy
          obtain ⟨curr, hcurr⟩ := parenLoop_total
            (((('(' :: (mid ++ [')'])).length : Nat) : Int) - 1)
            ('(' :: (mid ++ [')']) ++ NUL :: post) (-1) 0
            (by simp only [List.length_cons, List.length_append, List.length_nil]
                push_cast; omega)
          by_cases hc : (curr : Int) > ((('(' :: (mid ++ [')'])).length : Nat) : Int) - 1
          · exfalso
            apply hw
            refine ⟨mid, rfl, ?_⟩
            have hloop := hcurr
            rw [hlen, hm, List.cons_append, parenLoop_step _ _ _ _ _
              ⟨by decide, by simp only [List.length_cons]; omega⟩] at hloop
            intro a c hac
            have := parenLoop_past_last _ mid _ 1 1 curr hloop (le_refl _)
              (by simp only [List.length_cons]; push_cast; omega)
              (by rw [hlen] at hc; exact hc) a c hac
            omega
          · exact removeOuterMostParenAux_keep_loop fuel _ _ curr hn rfl hl hcurr hc
        · exact removeOuterMostParenAux_keep_last fuel _ _ y hn rfl hl hy
    · exact removeOuterMostParenAux_keep_first fuel _ _ x hn rfl hx

theorem Wrapped.length_lt {s mid : List Char} (h : s = '(' :: (mid ++ [')'])) :
    mid.length + 2 = s.length := by
  rw [h]; simp

/-- With the length of the string as depth, `removeOuterMostParen` returns. -/
theorem removeOuterMostParenAux_total (fuel : Nat) (w post : List Char)
    (hNUL : NUL ∉ w) (hf : w.length < fuel) :
    ∃ r, removeOuterMostParenAux fuel (w ++ NUL :: post) = .ok r := by
  induction fuel generalizing w post with
  | zero => omega
  | succ fuel ih =>
    by_cases hw : Wrapped w
    · obtain ⟨mid, hmid, hnn⟩ := hw
      subst hmid
      have hN : NUL ∉ mid := fun hm => hNUL (by simp [hm])
      obtain ⟨r, hr⟩ := ih mid (NUL :: post) hN
        (by simp only [List.length_cons, List.length_append, List.length_nil] at hf; omega)
      rw [removeOuterMostParenAux_wrapped fuel mid post hN hnn, hr]
      exact ⟨_, rfl⟩
    · exact ⟨_, removeOuterMostParenAux_not_wrapped fuel w post hNUL hw⟩

theorem strippedText_not_wrapped (w : List Char) (hNUL : NUL ∉ w) (hw : ¬ Wrapped w) :
    strippedText w = w := by
  unfold strippedText cstring removeOuterMostParen
  rw [removeOuterMostParenAux_not_wrapped _ w [] hNUL hw]
  exact takeWhile_ne_NUL w [] hNUL

theorem strippedText_wrapped (mid : List Char) (hNUL : NUL ∉ mid)
    (hnn : NonNegPrefixes mid) :
    strippedText ('(' :: (mid ++ [')'])) = strippedText mid := by
  obtain ⟨r, hr⟩ := removeOuterMostParenAux_total ((mid ++ [NUL]).length + 1) mid [] hNUL
    (by simp only [List.length_append, List.length_cons, List.length_nil]; omega)
  obtain ⟨w1, post1, hd, hN1, -, -⟩ := removeOuterMostParenAux_shape _ mid [] r hNUL hr
  obtain ⟨hlen2, hlen⟩ := removeOuterMostParenAux_length _ _ _ hr
  have hmid : strippedText mid = w1 := strippedText_eq mid r w1 post1 hr hd hN1
  have hr2 : removeOuterMostParenAux (('(' :: (mid ++ [')'])).length + 1 - 1)
      (mid ++ NUL :: NUL :: []) = .ok (r.1, r.2 ++ [NUL]) := by
    have := removeOuterMostParenAux_append _ (mid ++ [NUL]) [NUL] r hr
    have h2 : (mid ++ [NUL]) ++ [NUL] = mid ++ NUL :: NUL :: [] := by simp
    rw [h2] at this
    exact removeOuterMostParenAux_fuel_le _ _
      (by simp only [List.length_cons, List.length_append, List.length_nil]; omega) _ _ this
  rw [hmid]
  unfold strippedText cstring removeOuterMostParen
  have hfuel : (('(' :: (mid ++ [')'])) ++ [NUL]).length + 1 =
      (('(' :: (mid ++ [')'])).length + 1 - 1) + 1 + 1 := by
    simp only [List.length_cons, List.length_append, List.length_nil]; omega
  rw [hfuel, removeOuterMostParenAux_wrapped _ mid [] hNUL hnn,
    removeOuterMostParenAux_fuel_succ _ _ _ hr2]
  simp only [Result.bind_ok, List.drop_succ_cons]
  rw [List.drop_append_of_le_length (by omega), hd]
  have : w1 ++ NUL :: post1 ++ [NUL] = w1 ++ NUL :: (post1 ++ [NUL]) := by simp
  rw [this]
  exact takeWhile_ne_NUL w1 _ hN1

/-- Being wrapped, said with indices: the string starts with `(`, ends with
`)`, and its bracket depth is not 0 after any of its characters but the last. -/
theorem wrapped_iff (s : List Char) :
    Wrapped s ↔ (s.head? = some '(' ∧ s.getLast? = some ')' ∧
      ∀ j, j < s.length → 1 ≤ j → depth (s.take j) ≠ 0) := by
  constructor
  · rintro ⟨mid, rfl, hnn⟩
    refine ⟨rfl, by rw [← List.cons_append, List.getLast?_append]; simp, ?_⟩
    intro j hj h1
    obtain ⟨i, rfl⟩ : ∃ i, j = i + 1 := ⟨j - 1, by omega⟩
    simp only [List.length_cons, List.length_append, List.length_nil] at hj
    have hi : i ≤ mid.length := by omega
    rw [List.take_succ_cons, List.take_append_of_le_length hi, depth_cons]
    have := hnn (mid.take i) (mid.drop i) (List.take_append_drop i mid).symm
    have h2 : isBracketSymbol '(' = 1 := by decide
    omega
  · rintro ⟨hh, hl, hj⟩
    cases s with
    | nil => simp at hh
    | cons x w1 =>
      simp only [List.head?_cons, Option.some.injEq] at hh
      subst hh
      rcases eq_nil_or_concat w1 with hw1 | ⟨mid, y, hw1⟩
      · subst hw1
        simp at hl
      · subst hw1
        have hy : y = ')' := by
          rw [← List.cons_append, List.getLast?_append] at hl
          simpa using hl
        subst hy
        refine ⟨mid, rfl, ?_⟩
        have key : ∀ a : List Char, (∃ c, mid = a ++ c) → 0 ≤ depth a := by
          intro a
          induction a using List.reverseRecOn with
          | nil => intro _; simp
          | append_singleton a1 x ih =>
            rintro ⟨c, hc⟩
            have h0 := ih ⟨[x] ++ c, by rw [hc]; simp⟩
            have hlen : (a1 ++ [x]).length ≤ mid.length := by
              rw [hc]; simp
            have := hj ((a1 ++ [x]).length + 1)
              (by simp only [List.length_cons, List.length_append, List.length_nil]
                    at hlen ⊢
                  omega)
              (by omega)
            rw [List.take_succ_cons, List.take_append_of_le_length hlen] at this
            have ht : mid.take (a1 ++ [x]).length = a1 ++ [x] := by
              rw [hc]; exact List.take_left' rfl
            rw [ht] at this
            have hb := isBracketSymbol_bounds x
            have h2 : isBracketSymbol '(' = 1 := by decide
            simp only [depth_cons, depth_append, depth_nil] at this ⊢
            omega
        intro a c hac
        exact key a ⟨c, hac⟩

theorem wrapped_mid (s mid : List Char) (h : s = '(' :: (mid ++ [')'])) :
    (s.drop 1).dropLast = mid := by
  rw [h]; simp

/-- What `removeOuterMostParen` returns is not wrapped any more, holds no
terminator, and is the string with as many characters taken from its front as
from its back. -/
theorem strippedText_core (s : List Char) (hNUL : NUL ∉ s) :
    ¬ Wrapped (strippedText s) ∧ NUL ∉ strippedText s ∧
      ∃ pre suf, pre.length = suf.length ∧ s = pre ++ strippedText s ++ suf := by
  suffices H : ∀ n : Nat, ∀ s : List Char, s.length = n → NUL ∉ s →
      ¬ Wrapped (strippedText s) ∧ NUL ∉ strippedText s ∧
        ∃ pre suf, pre.length = suf.length ∧ s = pre ++ strippedText s ++ suf from
    H s.length s rfl hNUL
  intro n
  induction n using Nat.strong_induction_on with
  | _ n ih =>
    intro s hn hNUL
    by_cases hw : Wrapped s
    · obtain ⟨mid, hmid, hnn⟩ := hw
      have hN : NUL ∉ mid := fun hm => hNUL (by rw [hmid]; simp [hm])
      have hlen : mid.length < n := by
        rw [← hn, hmid]
        simp only [List.length_cons, List.length_append, List.length_nil]
        omega
      obtain ⟨h1, h2, pre, suf, h3, h4⟩ := ih mid.length hlen mid rfl hN
      rw [hmid, strippedText_wrapped mid hN hnn]
      refine ⟨h1, h2, '(' :: pre, suf ++ [')'], by simp [h3], ?_⟩
      conv_lhs => rw [h4]
      simp
    · rw [strippedText_not_wrapped s hNUL hw]
      exact ⟨hw, hNUL, [], [], rfl, by simp⟩

/-! ### The shape of the trees `parse` builds -/

theorem copyLoop_numeral (D : Nat) (e : List Char) (idx : Nat) (r : List Char × List Char)
    (h : copyLoop D e idx = .ok r) :
    (∀ x ∈ r.1, isNumeralSymbol x = true) ∧
      (∀ c cs, e = c :: cs → isNumeralSymbol c = true → r.1 ≠ []) := by
  induction e generalizing idx r with
  | nil => simp [copyLoop] at h
  | cons c cs ih =>
    rw [copyLoop] at h
    by_cases h1 : (isNumeralSymbol c || c == '.') = true
    · rw [if_pos h1] at h
      by_cases h2 : idx < D + 1
      · rw [if_pos h2, Result.bind_eq_ok] at h
        obtain ⟨a, ha, h⟩ := h
        simp only [Result.ok.injEq] at h
        subst h
        have hc : isNumeralSymbol c = true := by
          rcases Bool.or_eq_true _ _ |>.mp h1 with hc | hc
          · exact hc
          · have : c = '.' := by simpa using hc
            subst this; decide
        refine ⟨?_, fun _ _ _ _ => by simp⟩
        intro x hx
        simp only [List.mem_cons] at hx
        rcases hx with hx | hx
        · subst hx; exact hc
        · exact (ih _ _ ha).1 x hx
      · rw [if_neg h2] at h; exact absurd h (by simp)
    · rw [if_neg h1] at h
      by_cases h2 : idx < D + 1
      · rw [if_pos h2] at h
        simp only [Result.ok.injEq] at h
        subst h
        refine ⟨by simp, ?_⟩
        intro c1 cs1 he hc1
        simp only [List.cons.injEq] at he
        rw [← he.1] at hc1
        simp [hc1] at h1
      · rw [if_neg h2] at h; exact absurd h (by simp)

theorem extractFirstNumeral_wellShaped (m : List Char) (first : Char)
    (r : ASTNODE × List Char) (h0 : readAt m 0 = .ok first)
    (h1 : isNumeralSymbol first = true) (h : extractFirstNumeral m = .ok r) :
    WellShaped r.1 := by
  unfold extractFirstNumeral at h
  rw [Result.bind_eq_ok] at h
  obtain ⟨d, -, h⟩ := h
  rw [Result.bind_eq_ok] at h
  obtain ⟨a, ha, h⟩ := h
  simp only [Result.ok.injEq] at h
  subst h
  obtain ⟨hall, hne⟩ := copyLoop_numeral _ _ _ _ ha
  cases m with
  | nil => simp [readAt] at h0
  | cons c cs =>
    rw [readAt_zero_cons] at h0
    simp only [Result.ok.injEq] at h0
    subst h0
    exact WellShaped.leaf a.1 (hne c cs rfl h1) hall

/-- The operator search stops on an operator character only. -/
theorem operatorLoop_operator (last : Int) (e : List Char) (b : Int) (j r : Nat)
    (h : operatorLoop last e b j = .ok r) :
    ∃ c, e.get? (r - j) = some c ∧ isOperatorSymbol c = true := by
  induction e generalizing b j with
  | nil => simp [operatorLoop] at h
  | cons c cs ih =>
    cases hc : (!isOperatorSymbol c ||
      (decide (b ≠ 0) && decide ((j : Int) ≤ last - 1)))
    · rw [operatorLoop_stop _ _ _ _ _ hc] at h
      simp only [Result.ok.injEq] at h
      subst h
      refine ⟨c, by simp, ?_⟩
      simp only [Bool.or_eq_false_iff, Bool.not_eq_false'] at hc
      exact hc.1
    · rw [operatorLoop_step _ _ _ _ _ hc] at h
      obtain ⟨x, hx, hop⟩ := ih _ _ h
      have hge := operatorLoop_ge _ _ _ _ _ h
      refine ⟨x, ?_, hop⟩
      have : r - j = (r - (j + 1)) + 1 := by omega
      rw [this, List.get?_cons_succ]
      exact hx

/-- Every tree `parse` returns is well shaped. -/
theorem parse_wellShaped (fuel : Nat) (m : List Char) (r : ASTNODE × List Char)
    (h : parse fuel m = .ok r) : WellShaped r.1 := by
  induction fuel generalizing m r with
  | zero => simp [parse] at h
  | succ fuel ih =>
    obtain ⟨n, first, hn, h0, ⟨h1, h⟩ | ⟨h1, r1, hr1, h⟩ | ⟨h1, h2, st, curr, hst, hloop,
      ⟨hc, r1, hr1, h⟩ | ⟨hc, op, e1, l, r2, hop, he1, hl, hr2, h⟩⟩⟩ := parse_ok fuel m r h
    · exact extractFirstNumeral_wellShaped m first r h0 h1 h
    · subst h
      exact WellShaped.operator '-' _ _ (by decide)
        (WellShaped.leaf ['0'] (by simp) (by decide)) (ih _ r1 hr1)
    · subst h
      exact ih _ r1 hr1
    · subst h
      obtain ⟨c, hget, hcop⟩ := operatorLoop_operator _ _ _ _ _ hloop
      rw [readAt_eq_ok] at hop
      simp only [Nat.sub_zero] at hget
      rw [hget] at hop
      simp only [Option.some.injEq] at hop
      subst hop
      exact WellShaped.operator c _ _ hcop (ih _ l hl) (ih _ r2 hr2)

/-- The loop of `isNumeral` never reaches its test for a second point: a point
is a numeral symbol and is passed over by the first test. -/
theorem isNumeralLoop_eq_all (s : List Char) (hasDecimal : Bool) :
    isNumeralLoop s hasDecimal = s.all isNumeralSymbol := by
  induction s generalizing hasDecimal with
  | nil => rfl
  | cons c cs ih =>
    rw [isNumeralLoop]
    by_cases h1 : isNumeralSymbol c = true
    · rw [if_pos h1, ih]; simp [h1]
    · have h2 : c ≠ '.' := by
        intro e; subst e; exact h1 (by decide)
      rw [if_neg h1, if_neg h2]
      simp [h1]

theorem isNumeral_cstring (s : List Char) (hNUL : NUL ∉ s) :
    isNumeral (cstring s) = .ok (s.all isNumeralSymbol) := by
  unfold isNumeral cstring
  rw [strlen_of_not_mem s [] hNUL]
  simp only [Result.bind_ok, List.take_left']
  rw [isNumeralLoop_eq_all]

theorem isOperatorSymbol_iff (ch : Char) :
    isOperatorSymbol ch = true ↔ ch = '+' ∨ ch = '-' ∨ ch = '*' ∨ ch = '/' := by
  unfold isOperatorSymbol
  split_ifs with h1 h2 h3 h4 <;> simp [*]

theorem isBracketSymbol_other (ch : Char) (h1 : ch ≠ '(') (h2 : ch ≠ ')') :
    isBracketSymbol ch = 0 := by
  unfold isBracketSymbol
  rw [if_neg h1, if_neg h2]

theorem isNumeralSymbol_iff (ch : Char) :
    isNumeralSymbol ch = true ↔ ('0' ≤ ch ∧ ch ≤ '9') ∨ ch = '.' := by
  unfold isNumeralSymbol
  simp

theorem digit_of_between (ch : Char) (h0 : '0' ≤ ch) (h9 : ch ≤ '9') :
    ch ∈ ['0', '1', '2', '3', '4', '5', '6', '7', '8', '9'] := by
  have e : ch = Char.ofNat ch.toNat := (Char.ofNat_toNat ch).symm
  have l0 : 48 ≤ ch.toNat := h0
  have l9 : ch.toNat ≤ 57 := h9
  rw [e]
  generalize ch.toNat = n at l0 l9
  interval_cases n <;> decide

theorem isNumeralSymbol_iff_mem (ch : Char) :
    isNumeralSymbol ch = true ↔
      ch ∈ ['0', '1', '2', '3', '4', '5', '6', '7', '8', '9', '.'] := by
  rw [isNumeralSymbol_iff]
  constructor
  · rintro (⟨h0, h9⟩ | h)
    · have := digit_of_between ch h0 h9
      simp only [List.mem_cons] at this ⊢
      tauto
    · subst h; decide
  · intro h
    have : ∀ x ∈ ['0', '1', '2', '3', '4', '5', '6', '7', '8', '9', '.'],
        ('0' ≤ x ∧ x ≤ '9') ∨ x = '.' := by decide
    exact this ch h

/-! ### The round trip over fully parenthesised text -/

theorem render_leaf (c : List Char) : render (Leaf c) = c := rfl

theorem Parenthesised.isNode {t : ASTNODE} (h : Parenthesised t) :
    ∃ symbol l r, t = .node symbol l r := by
  cases h with
  | leaf c _ => exact ⟨c, .NULL, .NULL, rfl⟩
  | operator k l r _ _ _ => exact ⟨[k], l, r, rfl⟩

theorem render_binary (k : Char) (l r : ASTNODE) (hl : Parenthesised l) :
    render (BinaryOp k l r) = '(' :: ((render l ++ k :: render r) ++ [')']) := by
  obtain ⟨symbol, a, b, rfl⟩ := hl.isNode
  simp [BinaryOp, render]

theorem validNumeral_all (c : List Char) (h : validNumeral c = true) :
    c ≠ [] ∧ ∀ x ∈ c, isNumeralSymbol x = true := by
  simp only [validNumeral, Bool.and_eq_true, Bool.not_eq_true', decide_eq_true_eq,
    List.all_eq_true] at h
  obtain ⟨⟨hne, hall⟩, -⟩ := h
  exact ⟨by intro e; subst e; simp at hne, hall⟩

/-- The text between the outer pair of a rendered operator node: the depth is
0 at its end, never negative on the way, and 0 after the left operand. -/
theorem inner_props (a b : List Char) (k : Char) (hk : isOperatorSymbol k = true)
    (ha0 : depth a = 0) (hb0 : depth b = 0) (hann : NonNegPrefixes a)
    (hbnn : NonNegPrefixes b) :
    depth (a ++ k :: b) = 0 ∧ NonNegPrefixes (a ++ k :: b) := by
  have hkb := isBracketSymbol_of_isOperatorSymbol k hk
  refine ⟨by simp [ha0, hb0, hkb], ?_⟩
  intro p q hpq
  rcases List.append_eq_append_iff.mp hpq with ⟨a', hp, hq⟩ | ⟨c', hp, hq⟩
  · -- p = a ++ a', k :: b = a' ++ q
    subst hp
    cases a' with
    | nil => simp [ha0]
    | cons x xs =>
      simp only [List.cons_append, List.cons.injEq] at hq
      obtain ⟨rfl, hq⟩ := hq
      have := hbnn xs q hq
      simp only [depth_append, depth_cons, ha0, hkb]
      omega
  · -- a = p ++ c'
    exact hann p c' hp

/-- The rendered text of a tree: no terminator in it, not empty, depth 0 at the
end and never negative on the way, and no operator at depth 0 behind its first
character. -/
theorem render_props (t : ASTNODE) (h : Parenthesised t) :
    NUL ∉ render t ∧ render t ≠ [] ∧ depth (render t) = 0 ∧ NonNegPrefixes (render t) ∧
      (∀ a1 k1 b1, render t = a1 ++ k1 :: b1 → a1 ≠ [] →
        isOperatorSymbol k1 = true → depth a1 ≠ 0) := by
  induction h with
  | leaf c hc =>
    obtain ⟨hne, hall⟩ := validNumeral_all c hc
    rw [render_leaf]
    have hbr : ∀ p : List Char, (∀ x ∈ p, isNumeralSymbol x = true) → depth p = 0 := by
      intro p hp
      induction p with
      | nil => rfl
      | cons x xs ih =>
        rw [depth_cons, isBracketSymbol_of_isNumeralSymbol x (hp x (by simp)),
          ih (fun y hy => hp y (by simp [hy]))]
        rfl
    refine ⟨fun hm => ne_NUL_of_isNumeralSymbol _ (hall _ hm) rfl, hne, hbr c hall, ?_, ?_⟩
    · intro p q hpq
      rw [hbr p (fun x hx => hall x (by rw [hpq]; simp [hx]))]
    · intro a1 k1 b1 hc1 _ hk1
      have := hall k1 (by rw [hc1]; simp)
      rw [isOperatorSymbol_of_isNumeralSymbol k1 this] at hk1
      exact absurd hk1 (by decide)
  | operator k l r hk hl hr ihl ihr =>
    obtain ⟨lN, lne, l0, lnn, -⟩ := ihl
    obtain ⟨rN, rne, r0, rnn, -⟩ := ihr
    obtain ⟨i0, inn⟩ := inner_props (render l) (render r) k hk l0 r0 lnn rnn
    rw [render_binary k l r hl]
    have hkN : k ≠ NUL := by
      intro e; subst e; exact absurd hk (by decide)
    refine ⟨?_, by simp, ?_, ?_, ?_⟩
    · intro hm
      simp only [List.mem_cons, List.mem_append, List.mem_singleton] at hm
      rcases hm with hm | (hm | hm | hm) | hm
      · exact absurd hm (by decide)
      · exact lN hm
      · exact hkN hm.symm
      · exact rN hm
      · exact absurd hm (by decide)
    · simp only [depth_cons, depth_append, depth_nil, i0, l0, r0]
      have h1 : isBracketSymbol '(' = 1 := by decide
      have h2 : isBracketSymbol ')' = -1 := by decide
      have h3 := isBracketSymbol_of_isOperatorSymbol k hk
      omega
    · exact NonNegPrefixes.wrap inn
    · intro a1 k1 b1 hs hne hk1
      cases a1 with
      | nil => exact absurd rfl hne
      | cons x xs =>
        simp only [List.cons_append, List.cons.injEq] at hs
        obtain ⟨rfl, hs⟩ := hs
        rcases eq_nil_or_concat b1 with hb | ⟨b2, y, hb⟩
        · subst hb
          have : k1 = ')' := by
            have h2 : (render l ++ k :: render r) ++ [')'] = (xs) ++ [k1] := hs
            exact ((List.append_inj' h2 rfl).2 ▸ rfl : [k1] = [')']) |> fun e => by
              simpa using e
          subst this
          exact absurd hk1 (by decide)
        · subst hb
          have h2 : (render l ++ k :: render r) ++ [')'] = (xs ++ k1 :: b2) ++ [y] := by
            rw [hs]; simp
          have h3 := (List.append_inj' h2 rfl).1
          have := inn xs (k1 :: b2) h3
          have h1 : isBracketSymbol '(' = 1 := by decide
          simp only [depth_cons]
          omega

/-- The text between the outer pair of a rendered operator node is not wrapped:
its depth is 0 after the left operand. -/
theorem inner_not_wrapped (a b : List Char) (k : Char) (hane : a ≠ [])
    (ha0 : depth a = 0) : ¬ Wrapped (a ++ k :: b) := by
  intro hw
  obtain ⟨-, -, hj⟩ := (wrapped_iff _).mp hw
  have := hj a.length (by simp)
    (by cases a with
        | nil => exact absurd rfl hane
        | cons x xs => simp)
  rw [List.take_left' rfl] at this
  exact this ha0

/-- `parse` gives back the tree of a fully parenthesised text. -/
theorem returns_render (t : ASTNODE) (h : Parenthesised t) : Returns (render t) t := by
  induction h with
  | leaf c hc =>
    obtain ⟨hne, hall⟩ := validNumeral_all c hc
    rw [render_leaf]
    cases c with
    | nil => exact absurd rfl hne
    | cons x xs =>
      refine ⟨1, ?_⟩
      have := parseTree_numeral_run 0 x xs (hall x (by simp))
      rwa [takeWhile_of_all _ _ (by simpa using hall)] at this
  | operator k l r hk hl hr ihl ihr =>
    obtain ⟨lN, lne, l0, lnn, lleast⟩ := render_props l hl
    obtain ⟨rN, rne, r0, rnn, -⟩ := render_props r hr
    obtain ⟨sN, -, -, -, -⟩ := render_props _ (Parenthesised.operator k l r hk hl hr)
    obtain ⟨i0, inn⟩ := inner_props (render l) (render r) k hk l0 r0 lnn rnn
    have hkN : k ≠ NUL := by
      intro e; subst e; exact absurd hk (by decide)
    have iN : NUL ∉ render l ++ k :: render r := by
      intro hm
      simp only [List.mem_cons, List.mem_append] at hm
      rcases hm with hm | hm | hm
      · exact lN hm
      · exact hkN hm.symm
      · exact rN hm
    rw [render_binary k l r hl] at sN ⊢
    -- the outer pair is removed, and nothing more
    have hst : removeOuterMostParen (('(' :: ((render l ++ k :: render r) ++ [')'])) ++ [NUL]) =
        .ok (1, NUL :: ((render l ++ k :: render r) ++ NUL :: NUL :: [])) := by
      unfold removeOuterMostParen
      have hfuel : (('(' :: ((render l ++ k :: render r) ++ [')'])) ++ [NUL]).length + 1 =
          ((render l ++ k :: render r).length + 2) + 1 + 1 := by
        simp only [List.length_cons, List.length_append, List.length_nil]
      rw [hfuel, removeOuterMostParenAux_wrapped _ _ [] iN inn,
        removeOuterMostParenAux_not_wrapped _ _ _ iN
          (inner_not_wrapped _ _ k lne l0)]
      rfl
    -- the search stops at `k`
    have hloop := operatorLoop_finds
      (((('(' :: ((render l ++ k :: render r) ++ [')'])).length : Nat) : Int) - 1)
      (render l) [] k (render r ++ NUL :: NUL :: []) hk (by simpa using l0)
      (by simpa using lne) (by simpa using lnn) (by simpa using lleast)
      (by simp only [List.length_cons, List.length_append, List.length_nil]
          push_cast; omega)
    refine returns_of_split _ '(' (render l) (render r) k l r _ [NUL] sN rfl (by decide)
      (by decide) hst (by simp) ?_ ?_ ihl ihr
    · simp only [List.drop_succ_cons, List.drop_zero]
      have hrw : (render l ++ k :: render r) ++ NUL :: NUL :: [] =
          render l ++ k :: (render r ++ NUL :: NUL :: []) := by simp
      rw [hrw]
      simpa [countAfter] using hloop
    · simp only [List.length_cons, List.length_append, List.length_nil]
      omega

/-! ### `parse` with the memory behind `op` -/

theorem Result.bind_congr {α β : Type} (x : Result α) (f g : α → Result β)
    (h : ∀ a, x = .ok a → f a = g a) : x.bind f = x.bind g := by
  cases x with
  | ok a => exact h a rfl
  | outOfBounds => rfl
  | exitFailure => rfl
  | outOfFuel => rfl

/-- With a terminator right behind it, one character is copied. -/
theorem newASTSymbol_terminated (op : Char) (rest : List Char) (h : op ≠ NUL) :
    newASTSymbol (op :: NUL :: rest) = .ok [op] := by
  simp [newASTSymbol, strlen, h, Result.bind]

/-- With nothing behind it that may be read, the copy leaves the object. -/
theorem newASTSymbol_single (op : Char) (h : op ≠ NUL) :
    newASTSymbol [op] = .outOfBounds := by
  simp [newASTSymbol, strlen, h, Result.bind]

/-- The copied string begins with the character pointed to. -/
theorem newASTSymbol_head (op : Char) (behind symbol : List Char) (h : op ≠ NUL)
    (hs : newASTSymbol (op :: behind) = .ok symbol) : ∃ tail, symbol = op :: tail := by
  unfold newASTSymbol at hs
  rw [Result.bind_eq_ok] at hs
  obtain ⟨n, hn, hs⟩ := hs
  simp only [Result.ok.injEq] at hs
  rw [strlen, if_neg h, Result.bind_eq_ok] at hn
  obtain ⟨k, -, hk⟩ := hn
  simp only [Result.ok.injEq] at hk
  subst hk
  exact ⟨behind.take k, by rw [← hs]; rfl⟩

/-- With a character other than the terminator behind it, more than the one
character is copied. -/
theorem newASTSymbol_behind (op b : Char) (behind symbol : List Char) (h : op ≠ NUL)
    (hb : b ≠ NUL) (hs : newASTSymbol (op :: b :: behind) = .ok symbol) :
    ∃ tail, symbol = op :: b :: tail := by
  unfold newASTSymbol at hs
  rw [Result.bind_eq_ok] at hs
  obtain ⟨n, hn, hs⟩ := hs
  simp only [Result.ok.injEq] at hs
  rw [strlen, if_neg h, Result.bind_eq_ok] at hn
  obtain ⟨k, hk1, hk⟩ := hn
  simp only [Result.ok.injEq] at hk
  subst hk
  rw [strlen, if_neg hb, Result.bind_eq_ok] at hk1
  obtain ⟨j, -, hj⟩ := hk1
  simp only [Result.ok.injEq] at hj
  subst hj
  exact ⟨behind.take j, by rw [← hs]; rfl⟩

/-- The character the operator search stops on is not the terminator. -/
theorem operatorLoop_read_ne_NUL (last : Int) (e : List Char) (curr : Nat) (op : Char)
    (hloop : operatorLoop last e (-1) 0 = .ok curr) (hop : readAt e curr = .ok op) :
    isOperatorSymbol op = true ∧ op ≠ NUL := by
  obtain ⟨c, hget, hcop⟩ := operatorLoop_operator _ _ _ _ _ hloop
  rw [readAt_eq_ok] at hop
  simp only [Nat.sub_zero] at hget
  rw [hget] at hop
  simp only [Option.some.injEq] at hop
  subst hop
  refine ⟨hcop, ?_⟩
  intro e0
  subst e0
  exact absurd hcop (by decide)

theorem parseWithStack_case_numeral (stack : Nat → List Char → List Char) (fuel : Nat)
    (m : List Char) (n : Nat) (first : Char)
    (hn : strlen m = .ok n) (h0 : readAt m 0 = .ok first)
    (h1 : isNumeralSymbol first = true) :
    parseWithStack stack (fuel + 1) m = extractFirstNumeral m := by
  rw [parseWithStack, hn]
  simp only [Result.bind_ok, h0]
  rw [if_pos h1]

theorem parseWithStack_case_negation (stack : Nat → List Char → List Char) (fuel : Nat)
    (m : List Char) (n : Nat)
    (hn : strlen m = .ok n) (h0 : readAt m 0 = .ok '-') :
    parseWithStack stack (fuel + 1) m = (parseWithStack stack fuel (m.drop 1)).bind fun r =>
      .ok (.node ['-'] (newAST ['0']) r.1, m.take 1 ++ r.2) := by
  rw [parseWithStack, hn]
  simp only [Result.bind_ok, h0]
  rw [if_neg (by decide), if_pos trivial]

theorem parseWithStack_case_search (stack : Nat → List Char → List Char) (fuel : Nat)
    (m : List Char) (n : Nat) (first : Char)
    (st : Nat × List Char) (hn : strlen m = .ok n) (h0 : readAt m 0 = .ok first)
    (h1 : isNumeralSymbol first = false) (h2 : first ≠ '-')
    (hst : removeOuterMostParen m = .ok st) :
    parseWithStack stack (fuel + 1) m =
      (operatorLoop ((n : Int) - 1) (st.2.drop st.1) (-1) 0).bind fun curr_index =>
      if (curr_index : Int) > (n : Int) - 1 - 1 then
        (parseWithStack stack fuel (st.2.drop st.1)).bind fun r =>
        .ok (r.1, st.2.take st.1 ++ r.2)
      else
        (readAt (st.2.drop st.1) curr_index).bind fun op =>
        (newASTSymbol (op :: stack fuel m)).bind fun symbol =>
        (writeAt (st.2.drop st.1) curr_index NUL).bind fun e1 =>
        (parseWithStack stack fuel e1).bind fun l =>
        (parseWithStack stack fuel (l.2.drop (curr_index + 1))).bind fun r =>
        .ok (.node symbol l.1 r.1,
          st.2.take st.1 ++ (l.2.take (curr_index + 1) ++ r.2)) := by
  rw [parseWithStack, hn]
  simp only [Result.bind_ok, h0, hst]
  rw [if_neg (by simp [h1]), if_neg h2]

/-- The ways a call of `parse` returns, whatever stands behind `op`. -/
theorem parseWithStack_ok (stack : Nat → List Char → List Char) (fuel : Nat)
    (m : List Char) (r : ASTNODE × List Char)
    (h : parseWithStack stack (fuel + 1) m = .ok r) :
    ∃ n first, strlen m = .ok n ∧ readAt m 0 = .ok first ∧
      ((isNumeralSymbol first = true ∧ extractFirstNumeral m = .ok r) ∨
       (first = '-' ∧ ∃ r1, parseWithStack stack fuel (m.drop 1) = .ok r1 ∧
          r = (.node ['-'] (newAST ['0']) r1.1, m.take 1 ++ r1.2)) ∨
       (isNumeralSymbol first = false ∧ first ≠ '-' ∧ ∃ st curr,
          removeOuterMostParen m = .ok st ∧
          operatorLoop ((n : Int) - 1) (st.2.drop st.1) (-1) 0 = .ok curr ∧
          (((curr : Int) > (n : Int) - 1 - 1 ∧ ∃ r1,
              parseWithStack stack fuel (st.2.drop st.1) = .ok r1 ∧
              r = (r1.1, st.2.take st.1 ++ r1.2)) ∨
           (¬ (curr : Int) > (n : Int) - 1 - 1 ∧ ∃ op symbol e1 l r2,
              readAt (st.2.drop st.1) curr = .ok op ∧
              newASTSymbol (op :: stack fuel m) = .ok symbol ∧
              writeAt (st.2.drop st.1) curr NUL = .ok e1 ∧
              parseWithStack stack fuel e1 = .ok l ∧
              parseWithStack stack fuel (l.2.drop (curr + 1)) = .ok r2 ∧
              r = (.node symbol l.1 r2.1,
                st.2.take st.1 ++ (l.2.take (curr + 1) ++ r2.2)))))) := by
  have h' := h
  rw [parseWithStack, Result.bind_eq_ok] at h'
  obtain ⟨n, hn, h'⟩ := h'
  rw [Result.bind_eq_ok] at h'
  obtain ⟨first, h0, -⟩ := h'
  refine ⟨n, first, hn, h0, ?_⟩
  by_cases h1 : isNumeralSymbol first = true
  · left
    rw [parseWithStack_case_numeral stack fuel m n first hn h0 h1] at h
    exact ⟨h1, h⟩
  · have h1' : isNumeralSymbol first = false := by simpa using h1
    by_cases h2 : first = '-'
    · right; left
      subst h2
      rw [parseWithStack_case_negation stack fuel m n hn h0, Result.bind_eq_ok] at h
      obtain ⟨r1, hr1, h⟩ := h
      exact ⟨rfl, r1, hr1, by simpa using h.symm⟩
    · right; right
      refine ⟨h1', h2, ?_⟩
      cases hst : removeOuterMostParen m with
      | ok st =>
        rw [parseWithStack_case_search stack fuel m n first st hn h0 h1' h2 hst,
          Result.bind_eq_ok] at h
        obtain ⟨curr, hloop, h⟩ := h
        refine ⟨st, curr, rfl, hloop, ?_⟩
        by_cases hc : (curr : Int) > (n : Int) - 1 - 1
        · left
          rw [if_pos hc, Result.bind_eq_ok] at h
          obtain ⟨r1, hr1, h⟩ := h
          exact ⟨hc, r1, hr1, by simpa using h.symm⟩
        · right
          rw [if_neg hc, Result.bind_eq_ok] at h
          obtain ⟨op, hop, h⟩ := h
          rw [Result.bind_eq_ok] at h
          obtain ⟨symbol, hsym, h⟩ := h
          rw [Result.bind_eq_ok] at h
          obtain ⟨e1, he1, h⟩ := h
          rw [Result.bind_eq_ok] at h
          obtain ⟨l, hl, h⟩ := h
          rw [Result.bind_eq_ok] at h
          obtain ⟨r2, hr2, h⟩ := h
          exact ⟨hc, op, symbol, e1, l, r2, hop, hsym, he1, hl, hr2, by simpa using h.symm⟩
      | outOfBounds =>
        rw [parseWithStack, hn] at h
        simp only [Result.bind_ok, h0, hst] at h
        rw [if_neg h1, if_neg h2] at h
        exact absurd h (by simp [Result.bind])
      | exitFailure =>
        rw [parseWithStack, hn] at h
        simp only [Result.bind_ok, h0, hst] at h
        rw [if_neg h1, if_neg h2] at h
        exact absurd h (by simp [Result.bind])
      | outOfFuel =>
        rw [parseWithStack, hn] at h
        simp only [Result.bind_ok, h0, hst] at h
        rw [if_neg h1, if_neg h2] at h
        exact absurd h (by simp [Result.bind])

/-- With a terminator right behind `op` in every call, the run is that of
`parse`. -/
theorem parseWithStack_terminated (stack : Nat → List Char → List Char)
    (hs : ∀ fuel e, ∃ rest, stack fuel e = NUL :: rest) (fuel : Nat) (m : List Char) :
    parseWithStack stack fuel m = parse fuel m := by
  induction fuel generalizing m with
  | zero => rw [parseWithStack, parse]
  | succ fuel ih =>
    rw [parseWithStack, parse]
    refine Result.bind_congr _ _ _ (fun n _ => ?_)
    refine Result.bind_congr _ _ _ (fun first _ => ?_)
    by_cases h1 : isNumeralSymbol first = true
    · rw [if_pos h1, if_pos h1]
    · rw [if_neg h1, if_neg h1]
      by_cases h2 : first = '-'
      · rw [if_pos h2, if_pos h2, ih]
      · rw [if_neg h2, if_neg h2]
        refine Result.bind_congr _ _ _ (fun st _ => ?_)
        refine Result.bind_congr _ _ _ (fun curr hloop => ?_)
        by_cases hc : (curr : Int) > (n : Int) - 1 - 1
        · rw [if_pos hc, if_pos hc, ih]
        · rw [if_neg hc, if_neg hc]
          refine Result.bind_congr _ _ _ (fun op hop => ?_)
          obtain ⟨-, hne⟩ := operatorLoop_read_ne_NUL _ _ _ _ hloop hop
          obtain ⟨rest, hr⟩ := hs fuel m
          rw [hr, newASTSymbol_terminated op rest hne]
          simp only [Result.bind_ok]
          refine Result.bind_congr _ _ _ (fun e1 _ => ?_)
          rw [ih]
          refine Result.bind_congr _ _ _ (fun l _ => ?_)
          rw [ih]

/-- A well shaped tree has operator-headed nodes. -/
theorem WellShaped.operatorHeaded {t : ASTNODE} (h : WellShaped t) : OperatorHeaded t := by
  induction h with
  | leaf c hne hnum => exact OperatorHeaded.leaf c hne hnum
  | operator k l r hk _ _ ihl ihr => exact OperatorHeaded.operator k [] l r hk ihl ihr

/-- Whatever stands behind `op`, a returned tree has two children at every
node whose symbol begins with an operator, and numeral leaves. -/
theorem parseWithStack_operatorHeaded (stack : Nat → List Char → List Char) (fuel : Nat)
    (m : List Char) (r : ASTNODE × List Char)
    (h : parseWithStack stack fuel m = .ok r) : OperatorHeaded r.1 := by
  induction fuel generalizing m r with
  | zero => simp [parseWithStack] at h
  | succ fuel ih =>
    obtain ⟨n, first, hn, h0, ⟨h1, h⟩ | ⟨h1, r1, hr1, h⟩ | ⟨h1, h2, st, curr, hst, hloop,
      ⟨hc, r1, hr1, h⟩ | ⟨hc, op, symbol, e1, l, r2, hop, hsym, he1, hl, hr2, h⟩⟩⟩ :=
      parseWithStack_ok stack fuel m r h
    · exact (extractFirstNumeral_wellShaped m first r h0 h1 h).operatorHeaded
    · subst h
      exact OperatorHeaded.operator '-' [] _ _ (by decide)
        (OperatorHeaded.leaf ['0'] (by simp) (by decide)) (ih _ r1 hr1)
    · subst h
      exact ih _ r1 hr1
    · subst h
      obtain ⟨hcop, hne⟩ := operatorLoop_read_ne_NUL _ _ _ _ hloop hop
      obtain ⟨tail, ht⟩ := newASTSymbol_head op _ symbol hne hsym
      subst ht
      exact OperatorHeaded.operator op tail _ _ hcop (ih _ l hl) (ih _ r2 hr2)

/-- The symbol of an operator node is read by its first character. -/
theorem evaluate_operator_head {α : Type} (ar : Arith α) (k : Char) (tail : List Char)
    (l r : ASTNODE) (hk : isOperatorSymbol k = true) :
    evaluate ar (.node (k :: tail) l r) = evaluate ar (BinaryOp k l r) := by
  unfold isOperatorSymbol at hk
  split_ifs at hk with k1 k2 k3 k4
  · subst k1; simp [evaluate, BinaryOp]
  · subst k2; simp [evaluate, BinaryOp]
  · subst k3; simp [evaluate, BinaryOp]
  · subst k4; simp [evaluate, BinaryOp]

/-- On an operator-headed tree `evaluate` meets no null pointer. -/
theorem evaluate_operatorHeaded {α : Type} (ar : Arith α) (t : ASTNODE)
    (h : OperatorHeaded t) : ∃ v, evaluate ar t = some v := by
  induction h with
  | leaf c hne hnum =>
    refine ⟨ar.strtod c, evaluate_non_operator ar c .NULL .NULL ?_⟩
    cases c with
    | nil => exact absurd rfl hne
    | cons x xs => exact isOperatorSymbol_of_isNumeralSymbol x (hnum x (by simp))
  | operator k tail l r hk _ _ ihl ihr =>
    obtain ⟨a, ha⟩ := ihl
    obtain ⟨b, hb⟩ := ihr
    rw [evaluate_operator_head ar k tail l r hk]
    obtain ⟨h1, h2, h3, h4⟩ := evaluate_binary ar l r
    unfold isOperatorSymbol at hk
    split_ifs at hk with k1 k2 k3 k4
    · subst k1; exact ⟨_, by rw [h1, ha, hb]; rfl⟩
    · subst k2; exact ⟨_, by rw [h2, ha, hb]; rfl⟩
    · subst k3; exact ⟨_, by rw [h3, ha, hb]; rfl⟩
    · subst k4; exact ⟨_, by rw [h4, ha, hb]; rfl⟩

/-- With no terminator right behind it, the copy of `op` is not the one
character. -/
theorem newASTSymbol_ne_single (op : Char) (behind symbol : List Char) (h : op ≠ NUL)
    (hb : ∀ rest, behind ≠ NUL :: rest) (hs : newASTSymbol (op :: behind) = .ok symbol) :
    symbol ≠ [op] := by
  cases behind with
  | nil =>
    rw [newASTSymbol_single op h] at hs
    exact absurd hs (by simp)
  | cons b bs =>
    have hbn : b ≠ NUL := fun e => hb bs (by rw [e])
    obtain ⟨tail, ht⟩ := newASTSymbol_behind op b bs symbol h hbn hs
    rw [ht]
    simp

/-- A well shaped node is a leaf or carries a single operator character. -/
theorem WellShaped.node_cases {symbol : List Char} {l r : ASTNODE}
    (h : WellShaped (.node symbol l r)) :
    (l = .NULL ∧ r = .NULL) ∨ (∃ k, symbol = [k] ∧ isOperatorSymbol k = true) := by
  generalize ht : ASTNODE.node symbol l r = t at h
  cases h with
  | leaf c _ _ =>
    left
    simp only [Leaf, newAST, ASTNODE.node.injEq] at ht
    exact ⟨ht.2.1, ht.2.2⟩
  | operator k l1 r1 hk _ _ =>
    right
    simp only [BinaryOp, ASTNODE.node.injEq] at ht
    exact ⟨k, ht.1, hk⟩

/-- The run of `parse` on `(1+2)`, whatever stands behind `op`. -/
theorem parseWithStack_one_plus_two (stack : Nat → List Char → List Char) (fuel : Nat) :
    parseWithStack stack (fuel + 2) (cstring "(1+2)".toList) =
      (newASTSymbol ('+' :: stack (fuel + 1) (cstring "(1+2)".toList))).bind fun symbol =>
        .ok (.node symbol (Leaf ['1']) (Leaf ['2']), [NUL, NUL, NUL, NUL, NUL, NUL]) :=
  rfl

/-- On `(1+2)` a returned tree is the node of the copied symbol over the two
leaves. -/
theorem parseWithStack_one_plus_two_ok (stack : Nat → List Char → List Char) (fuel : Nat)
    (r : ASTNODE × List Char)
    (h : parseWithStack stack fuel (cstring "(1+2)".toList) = .ok r) :
    ∃ symbol n, fuel = n + 2 ∧
      newASTSymbol ('+' :: stack (n + 1) (cstring "(1+2)".toList)) = .ok symbol ∧
      r.1 = .node symbol (Leaf ['1']) (Leaf ['2']) := by
  match fuel with
  | 0 => exact absurd h (by simp [parseWithStack])
  | 1 =>
    have h1 : parseWithStack stack 1 (cstring "(1+2)".toList) =
        (newASTSymbol ('+' :: stack 0 (cstring "(1+2)".toList))).bind fun _ =>
          .outOfFuel := rfl
    rw [h1, Result.bind_eq_ok] at h
    obtain ⟨_, _, h⟩ := h
    exact absurd h (by simp)
  | n + 2 =>
    rw [parseWithStack_one_plus_two, Result.bind_eq_ok] at h
    obtain ⟨symbol, hs, h⟩ := h
    simp only [Result.ok.injEq] at h
    exact ⟨symbol, n, rfl, hs, by rw [← h]⟩

/-! ### The node at the root of a rendered tree -/

/-- On the text of an operator node the outer pair is removed, nothing more,
and the operator search stops at the operator of the node. -/
theorem render_search (k : Char) (l r : ASTNODE) (hk : isOperatorSymbol k = true)
    (hl : Parenthesised l) (hr : Parenthesised r) :
    render (BinaryOp k l r) = '(' :: ((render l ++ k :: render r) ++ [')']) ∧
    NUL ∉ render (BinaryOp k l r) ∧
    removeOuterMostParen (cstring (render (BinaryOp k l r))) =
      .ok (1, NUL :: (render l ++ k :: (render r ++ NUL :: NUL :: []))) ∧
    operatorLoop ((((render (BinaryOp k l r)).length : Nat) : Int) - 1)
      (render l ++ k :: (render r ++ NUL :: NUL :: [])) (-1) 0 = .ok (render l).length := by
  obtain ⟨lN, lne, l0, lnn, lleast⟩ := render_props l hl
  obtain ⟨rN, rne, r0, rnn, -⟩ := render_props r hr
  obtain ⟨sN, -, -, -, -⟩ := render_props _ (Parenthesised.operator k l r hk hl hr)
  obtain ⟨i0, inn⟩ := inner_props (render l) (render r) k hk l0 r0 lnn rnn
  have hkN : k ≠ NUL := by
    intro e; subst e; exact absurd hk (by decide)
  have iN : NUL ∉ render l ++ k :: render r := by
    intro hm
    simp only [List.mem_cons, List.mem_append] at hm
    rcases hm with hm | hm | hm
    · exact lN hm
    · exact hkN hm.symm
    · exact rN hm
  refine ⟨render_binary k l r hl, sN, ?_, ?_⟩
  · rw [render_binary k l r hl]
    unfold removeOuterMostParen cstring
    have hfuel : (('(' :: ((render l ++ k :: render r) ++ [')'])) ++ [NUL]).length + 1 =
        ((render l ++ k :: render r).length + 2) + 1 + 1 := by
      simp only [List.length_cons, List.length_append, List.length_nil]
    rw [hfuel, removeOuterMostParenAux_wrapped _ _ [] iN inn,
      removeOuterMostParenAux_not_wrapped _ _ _ iN
        (inner_not_wrapped _ _ k lne l0)]
    simp [Result.bind]
  · rw [render_binary k l r hl]
    have hloop := operatorLoop_finds
      (((('(' :: ((render l ++ k :: render r) ++ [')'])).length : Nat) : Int) - 1)
      (render l) [] k (render r ++ NUL :: NUL :: []) hk (by simpa using l0)
      (by simpa using lne) (by simpa using lnn) (by simpa using lleast)
      (by simp only [List.length_cons, List.length_append, List.length_nil]
          push_cast; omega)
    simpa [countAfter] using hloop

/-- On the text of an operator node a returned tree is the node of the string
copied from the operator and what stands behind it, over two nodes. -/
theorem parseWithStack_render_root (stack : Nat → List Char → List Char) (k : Char)
    (l r : ASTNODE) (hk : isOperatorSymbol k = true)
    (hl : Parenthesised l) (hr : Parenthesised r) (fuel : Nat) (res : ASTNODE × List Char)
    (h : parseWithStack stack fuel (cstring (render (BinaryOp k l r))) = .ok res) :
    ∃ n symbol l1 r1, fuel = n + 1 ∧
      newASTSymbol (k :: stack n (cstring (render (BinaryOp k l r)))) = .ok symbol ∧
      res.1 = .node symbol l1 r1 ∧ OperatorHeaded l1 ∧ OperatorHeaded r1 := by
  obtain ⟨hrender, sN, hst, hloop⟩ := render_search k l r hk hl hr
  cases fuel with
  | zero => exact absurd h (by simp [parseWithStack])
  | succ fuel =>
    have hlen : strlen (cstring (render (BinaryOp k l r))) =
        .ok (render (BinaryOp k l r)).length := strlen_of_not_mem _ [] sN
    have hfirst : readAt (cstring (render (BinaryOp k l r))) 0 = .ok '(' := by
      rw [hrender]; rfl
    obtain ⟨n, first, hn, h0, ⟨h1, -⟩ | ⟨h1, -⟩ | ⟨-, -, st, curr, hst1, hloop1,
      ⟨hc, -⟩ | ⟨-, op, symbol, e1, l1, r2, hop, hsym, -, hl1, hr2, hres⟩⟩⟩ :=
      parseWithStack_ok stack fuel _ res h
    · rw [hfirst] at h0
      simp only [Result.ok.injEq] at h0
      subst h0
      exact absurd h1 (by decide)
    · rw [hfirst] at h0
      simp only [Result.ok.injEq] at h0
      subst h0
      exact absurd h1 (by decide)
    · rw [hlen] at hn
      simp only [Result.ok.injEq] at hn
      subst hn
      rw [hst] at hst1
      simp only [Result.ok.injEq] at hst1
      subst hst1
      simp only [List.drop_succ_cons, List.drop_zero] at hloop1
      rw [hloop] at hloop1
      simp only [Result.ok.injEq] at hloop1
      subst hloop1
      rw [hrender] at hc
      simp only [List.length_cons, List.length_append, List.length_nil] at hc
      push_cast at hc
      omega
    · rw [hlen] at hn
      simp only [Result.ok.injEq] at hn
      subst hn
      rw [hst] at hst1
      simp only [Result.ok.injEq] at hst1
      subst hst1
      simp only [List.drop_succ_cons, List.drop_zero] at hloop1 hop
      rw [hloop] at hloop1
      simp only [Result.ok.injEq] at hloop1
      subst hloop1
      rw [readAt_append_length] at hop
      simp only [Result.ok.injEq] at hop
      subst hop
      refine ⟨fuel, symbol, l1.1, r2.1, rfl, hsym, by rw [hres], ?_, ?_⟩
      · exact parseWithStack_operatorHeaded stack fuel _ l1 hl1
      · exact parseWithStack_operatorHeaded stack fuel _ r2 hr2

/-- An operator-headed tree is a node. -/
theorem OperatorHeaded.ne_NULL {t : ASTNODE} (h : OperatorHeaded t) : t ≠ .NULL := by
  cases h with
  | leaf c _ _ => simp [Leaf, newAST]
  | operator k tail l r _ _ _ => simp

/-! ## The claims -/

/-- C1: `(--1+2)` is a sentence of the grammar (`(A + B)` with `A = --1` and
`B = 2`), and `parse` never returns on it: whatever the depth allowed for the
recursion, the depth is used up. -/
theorem parse_sentence_double_negation_diverges :
    (Derivation.binary (.negation (.negation (.numeral ['1']))) '+'
      (.numeral ['2'])).wellFormed = true ∧
    (Derivation.binary (.negation (.negation (.numeral ['1']))) '+'
      (.numeral ['2'])).text = "(--1+2)".toList ∧
    ∀ fuel : Nat, parse fuel (cstring "(--1+2)".toList) = .outOfFuel := by
  refine ⟨by decide, by decide, ?_⟩
  intro fuel
  cases fuel with
  | zero => rfl
  | succ n =>
    have h : parse (n + 1) (cstring "(--1+2)".toList) =
        (parse n ['-', NUL, '1', '+', '2', NUL, NUL]).bind fun l =>
          (parse n (l.2.drop 2)).bind fun r =>
            Result.ok (ASTNODE.node ['-'] l.1 r.1, [NUL] ++ (l.2.take 2 ++ r.2)) := rfl
    rw [h, parse_minus_before_empty_loops]; rfl

/-- C2: the input `((((1))))+2+3` meets the conditions of the claim with
`i = 9`: it starts with `(`, `removeOuterMostParen` strips nothing from it, the
first `+` stands at index 9 behind a text of bracket depth 0, with text on both
sides, and no operator character stands before it.  The claim gives
`BinaryOp('+', parse("((((1))))"), parse("2+3"))` for it.  `parse` returns
`+(+(1, 3), 2)`: the left operand holds the numeral 3 of the right text.  In
arrays of their own `parse("((((1))))")` reads out of bounds and `parse("2+3")`
is the leaf 2, and `parse` never returns `+(1, 2)` for the input.  Where the
calls of `parse` on `s1[0..i)` and on `s1[i+1..]`, in arrays of their own,
return trees `l` and `r`, `parse(s)` returns `BinaryOp(k, l, r)`, `s1` being
what `removeOuterMostParen` leaves of `s`.  On the witness of the claim,
`(1+2)*3`, the tree is `*(+(1, 2), 3)`, which evaluates to 9. -/
theorem parse_left_operand_takes_right_text :
    "((((1))))+2+3".toList.head? = some '(' ∧
    isNumeralSymbol '(' = false ∧ '(' ≠ '-' ∧
    strippedText "((((1))))+2+3".toList = "((((1))))+2+3".toList ∧
    (strippedText "((((1))))+2+3".toList).get? 9 = some '+' ∧
    isOperatorSymbol '+' = true ∧
    9 + 1 < (strippedText "((((1))))+2+3".toList).length ∧
    depth ((strippedText "((((1))))+2+3".toList).take 9) = 0 ∧
    ((strippedText "((((1))))+2+3".toList).take 9).all (fun c => !isOperatorSymbol c) = true ∧
    (strippedText "((((1))))+2+3".toList).take 9 = "((((1))))".toList ∧
    (strippedText "((((1))))+2+3".toList).drop (9 + 1) = "2+3".toList ∧
    (∀ fuel : Nat, parseTree (fuel + 3) "((((1))))+2+3".toList =
      .ok (BinaryOp '+' (BinaryOp '+' (Leaf ['1']) (Leaf ['3'])) (Leaf ['2']))) ∧
    (∀ fuel : Nat, parseTree (fuel + 1) "((((1))))".toList = .outOfBounds) ∧
    (∀ fuel : Nat, parseTree (fuel + 1) "2+3".toList = .ok (Leaf ['2'])) ∧
    ¬ Returns "((((1))))+2+3".toList (BinaryOp '+' (Leaf ['1']) (Leaf ['2'])) ∧
    (∀ (s : List Char) (first : Char) (i : Nat) (k : Char) (l r : ASTNODE),
      NUL ∉ s → s.head? = some first → isNumeralSymbol first = false → first ≠ '-' →
      (strippedText s).get? i = some k → isOperatorSymbol k = true →
      1 ≤ i → i + 1 < (strippedText s).length →
      depth ((strippedText s).take i) = 0 →
      (∀ j, j < i → 1 ≤ j → isOperatorSymbol ((strippedText s).getD j NUL) = true →
        depth ((strippedText s).take j) ≠ 0) →
      Returns ((strippedText s).take i) l →
      Returns ((strippedText s).drop (i + 1)) r →
      Returns s (BinaryOp k l r)) ∧
    (∀ fuel : Nat, parseTree (fuel + 3) "(1+2)*3".toList =
      .ok (BinaryOp '*' (BinaryOp '+' (Leaf ['1']) (Leaf ['2'])) (Leaf ['3']))) ∧
    evaluate ratArith (BinaryOp '*' (BinaryOp '+' (Leaf ['1']) (Leaf ['2'])) (Leaf ['3']))
      = some 9 := by
  refine ⟨by decide, by decide, by decide, by decide, by decide, by decide, by decide,
    by decide, by decide, by decide, by decide, fun _ => rfl, fun _ => rfl, fun _ => rfl,
    ?_, ?_, fun _ => rfl, ?_⟩
  · rintro ⟨fuel, h⟩
    have h3 : ∀ n : Nat, parseTree (n + 3) "((((1))))+2+3".toList =
        .ok (BinaryOp '+' (BinaryOp '+' (Leaf ['1']) (Leaf ['3'])) (Leaf ['2'])) :=
      fun _ => rfl
    match fuel with
    | 0 => exact absurd h (by decide)
    | 1 => exact absurd h (by decide)
    | 2 => exact absurd h (by decide)
    | n + 3 =>
      rw [h3 n] at h
      exact absurd h (by decide)
  · intro s first i k l r hNUL hfirst hnum hminus hk hop hi hright hdepth hleast hl hr
    exact returns_split_first_operator s first i k l r hNUL hfirst hnum hminus hk hop hi
      hright hdepth hleast hl hr
  · simp [evaluate, BinaryOp, Leaf, newAST, ratArith, decimalValue, digitsValue, NUL]
    norm_num

theorem parse_left_operand_takes_right_text_witness :
    Returns "((1+2)*3)".toList
      (BinaryOp '*' (BinaryOp '+' (Leaf ['1']) (Leaf ['2'])) (Leaf ['3'])) :=
  parse_left_operand_takes_right_text.2.2.2.2.2.2.2.2.2.2.2.2.2.2.2.1 "((1+2)*3)".toList
    '(' 5 '*' (BinaryOp '+' (Leaf ['1']) (Leaf ['2'])) (Leaf ['3'])
    (by decide) (by decide) (by decide) (by decide) (by decide) (by decide) (by decide)
    (by decide) (by decide) (by decide) ⟨2, by decide⟩ ⟨1, by decide⟩

/-- C3: a string that starts with a numeral symbol and whose leading run of
numeral symbols has at most one point parses to the leaf of that run, whatever
follows the run; a valid numeral parses to its own leaf, and `evaluate` gives
what `strtod` reads from it. -/
theorem parse_numeral_leaf :
    (∀ (fuel : Nat) (c : Char) (s : List Char), isNumeralSymbol c = true →
      ((c :: s).takeWhile isNumeralSymbol).count '.' ≤ 1 →
      parseTree (fuel + 1) (c :: s) = .ok (Leaf ((c :: s).takeWhile isNumeralSymbol))) ∧
    (∀ (fuel : Nat) (c : List Char), validNumeral c = true →
      parseTree (fuel + 1) c = .ok (Leaf c) ∧
      ∀ (α : Type) (ar : Arith α), evaluate ar (Leaf c) = some (ar.strtod c)) := by
  refine ⟨fun fuel c s hc _ => parseTree_numeral_run fuel c s hc, ?_⟩
  intro fuel c hv
  simp only [validNumeral, Bool.and_eq_true, Bool.not_eq_true', decide_eq_true_eq] at hv
  obtain ⟨⟨hne, hall⟩, -⟩ := hv
  cases c with
  | nil => simp at hne
  | cons x xs =>
    have hx : isNumeralSymbol x = true := by
      simp only [List.all_cons, Bool.and_eq_true] at hall; exact hall.1
    refine ⟨?_, ?_⟩
    · have := parseTree_numeral_run fuel x xs hx
      rwa [takeWhile_of_all _ _ hall] at this
    · intro α ar
      exact evaluate_non_operator ar (x :: xs) .NULL .NULL
        (isOperatorSymbol_of_isNumeralSymbol x hx)

theorem parse_numeral_leaf_witness :
    parseTree 1 "12.5+3".toList = .ok (Leaf "12.5".toList) ∧
    parseTree 1 "12.5".toList = .ok (Leaf "12.5".toList) ∧
    evaluate ratArith (Leaf "12.5".toList) = some (ratArith.strtod "12.5".toList) :=
  ⟨parse_numeral_leaf.1 0 '1' "2.5+3".toList (by decide) (by decide),
   (parse_numeral_leaf.2 0 "12.5".toList (by decide)).1,
   (parse_numeral_leaf.2 0 "12.5".toList (by decide)).2 ℚ ratArith⟩

/-- C5: `parse("1.2.3")` is not an error: the second point is taken as one more
numeral symbol before the test for a second point is reached, and the whole
string becomes the leaf.  For no array at all does `extractFirstNumeral` end in
`exit(EXIT_FAILURE)`. -/
theorem parse_two_points_is_leaf :
    (∀ fuel : Nat, parseTree (fuel + 1) "1.2.3".toList = .ok (Leaf "1.2.3".toList)) ∧
    (∀ e : List Char, extractFirstNumeral e ≠ .exitFailure) :=
  ⟨fun _ => rfl, extractFirstNumeral_ne_exitFailure⟩

/-- C6: on `(-123)`, and on `(-c)` for every valid numeral `c`, the search for
the middle operator runs past the terminator of the array: `parse` reads
outside the string and returns no tree. -/
theorem parse_parenthesised_negative_out_of_bounds :
    (∀ fuel : Nat, parse (fuel + 1) (cstring "(-123)".toList) = .outOfBounds) ∧
    (∀ c : List Char, validNumeral c = true → ∀ fuel : Nat,
      parse (fuel + 1) (cstring ('(' :: '-' :: (c ++ [')']))) = .outOfBounds) :=
  ⟨fun _ => rfl, parse_parenthesised_negative_numeral⟩

/-- C8: `parse("1")` returns the leaf `1`, but on `(((1)))` the search for the
middle operator runs past the terminator of the array and no tree is returned;
the same on `(((-1)))`.  With an operator of depth 0 left after the stripping
the trees agree: `((((1+2))))` and `(1+2)` both give `+(1, 2)`. -/
theorem parse_wrapped_numeral_out_of_bounds :
    ∀ fuel : Nat, parseTree (fuel + 1) ['1'] = .ok (Leaf ['1']) ∧
      parse (fuel + 1) (cstring "(((1)))".toList) = .outOfBounds ∧
      parseTree (fuel + 2) "-1".toList = .ok (BinaryOp '-' (Leaf ['0']) (Leaf ['1'])) ∧
      parse (fuel + 1) (cstring "(((-1)))".toList) = .outOfBounds ∧
      parseTree (fuel + 2) "(1+2)".toList = .ok (BinaryOp '+' (Leaf ['1']) (Leaf ['2'])) ∧
      parseTree (fuel + 2) "((((1+2))))".toList =
        .ok (BinaryOp '+' (Leaf ['1']) (Leaf ['2'])) :=
  fun _ => ⟨rfl, rfl, rfl, rfl, rfl, rfl⟩

/-- C9: `evaluate` of an operator node is the operation on the values of the
two children, for each of `+ - * /` and with no test on the divisor; a node
whose symbol does not begin with an operator character evaluates to what
`strtod` reads from its symbol. -/
theorem evaluate_node {α : Type} (ar : Arith α) (l r : ASTNODE) :
    evaluate ar (BinaryOp '+' l r) =
      (evaluate ar l).bind (fun a => (evaluate ar r).bind fun b => some (ar.add a b)) ∧
    evaluate ar (BinaryOp '-' l r) =
      (evaluate ar l).bind (fun a => (evaluate ar r).bind fun b => some (ar.sub a b)) ∧
    evaluate ar (BinaryOp '*' l r) =
      (evaluate ar l).bind (fun a => (evaluate ar r).bind fun b => some (ar.mul a b)) ∧
    evaluate ar (BinaryOp '/' l r) =
      (evaluate ar l).bind (fun a => (evaluate ar r).bind fun b => some (ar.div a b)) ∧
    (∀ symbol : List Char, isOperatorSymbol (symbol.headD NUL) = false →
      evaluate ar (.node symbol l r) = some (ar.strtod symbol)) := by
  obtain ⟨h1, h2, h3, h4⟩ := evaluate_binary ar l r
  exact ⟨h1, h2, h3, h4, fun symbol h => evaluate_non_operator ar symbol l r h⟩

theorem evaluate_node_witness :
    evaluate ratArith (.node "2.5".toList .NULL .NULL) = some (ratArith.strtod "2.5".toList) :=
  (evaluate_node ratArith .NULL .NULL).2.2.2.2 "2.5".toList (by decide)

/-- C12, as stated: on `(()` the bracket depth never returns to 0, so the claim
has `removeOuterMostParen` return the string as it is; the function removes the
outer pair and returns `(`. -/
theorem removeOuterMostParen_unbalanced :
    "(()".toList ≠ [] ∧
    ¬ ("(()".toList.head? = some '(' ∧ "(()".toList.getLast? = some ')' ∧
        depth "(()".toList = 0 ∧
        ∀ j, j < "(()".toList.length → 1 ≤ j → depth ("(()".toList.take j) ≠ 0) ∧
    strippedText "(()".toList = ['('] ∧
    strippedText "(()".toList ≠ "(()".toList := by
  refine ⟨by decide, ?_, by decide, by decide⟩
  rintro ⟨-, -, hd, -⟩
  exact absurd hd (by decide)

/-- C12, amended: for every non-empty string `s`, `removeOuterMostParen(s)` is
`removeOuterMostParen` of `s` without its first and last character when `s`
starts with `(`, ends with `)` and its bracket depth is not 0 after any
character before the last one; in every other case it is `s`. -/
theorem removeOuterMostParen_cases (s : List Char) (_hne : s ≠ []) (hNUL : NUL ∉ s) :
    ((s.head? = some '(' ∧ s.getLast? = some ')' ∧
        ∀ j, j < s.length → 1 ≤ j → depth (s.take j) ≠ 0) →
      strippedText s = strippedText ((s.drop 1).dropLast)) ∧
    (¬ (s.head? = some '(' ∧ s.getLast? = some ')' ∧
        ∀ j, j < s.length → 1 ≤ j → depth (s.take j) ≠ 0) →
      strippedText s = s) := by
  constructor
  · intro hc
    obtain ⟨mid, hmid, hnn⟩ := (wrapped_iff s).mpr hc
    have hN : NUL ∉ mid := fun hm => hNUL (by rw [hmid]; simp [hm])
    rw [wrapped_mid s mid hmid]
    conv_lhs => rw [hmid]
    exact strippedText_wrapped mid hN hnn
  · intro hc
    exact strippedText_not_wrapped s hNUL (fun hw => hc ((wrapped_iff s).mp hw))

theorem removeOuterMostParen_cases_witness :
    strippedText "((1+2))".toList = strippedText "(1+2)".toList ∧
    strippedText "(1)+(2)".toList = "(1)+(2)".toList :=
  ⟨(removeOuterMostParen_cases "((1+2))".toList (by decide) (by decide)).1 (by decide),
   (removeOuterMostParen_cases "(1)+(2)".toList (by decide) (by decide)).2 (by decide)⟩

/-- C13: the node of the middle operator does not carry one of `+ - * /` as
its symbol: `newAST(&op)` copies `op` and what stands behind it up to the first
terminator.  On `(1+2)`, with the byte `x` and a terminator behind `op`, `parse`
returns a node with the symbol `+x`, which is not an operator node of the
claim; with nothing behind `op` that may be read, the copy leaves the object.
With no terminator right behind `op`, the tree returned for the text
`(` left `k` right `)` of an operator node is never made of the nodes of the
claim.  Whatever stands behind `op`, every node of a returned tree is a node
with two node children whose symbol begins with one of `+ - * /`, or a
childless leaf whose symbol is a non-empty string of numeral symbols, and
`evaluate` meets no null pointer on it and returns a value.  With a terminator
right behind `op` in every call the symbols are the operator characters. -/
theorem parse_operator_symbol_takes_stack_bytes :
    (∀ fuel : Nat,
      parseWithStack (fun _ _ => ['x', NUL]) (fuel + 2) (cstring "(1+2)".toList) =
        .ok (.node ['+', 'x'] (Leaf ['1']) (Leaf ['2']), [NUL, NUL, NUL, NUL, NUL, NUL])) ∧
    ¬ WellShaped (.node ['+', 'x'] (Leaf ['1']) (Leaf ['2'])) ∧
    (∀ fuel : Nat,
      parseWithStack (fun _ _ => []) (fuel + 1) (cstring "(1+2)".toList) = .outOfBounds) ∧
    (∀ (stack : Nat → List Char → List Char),
      (∀ fuel e rest, stack fuel e ≠ NUL :: rest) →
      ∀ (k : Char) (l r : ASTNODE), isOperatorSymbol k = true →
        Parenthesised l → Parenthesised r →
        ∀ (fuel : Nat) (t : ASTNODE) (m1 : List Char),
          parseWithStack stack fuel (cstring (render (BinaryOp k l r))) = .ok (t, m1) →
          ¬ WellShaped t) ∧
    (∀ (stack : Nat → List Char → List Char) (fuel : Nat) (m : List Char) (t : ASTNODE)
      (m1 : List Char), parseWithStack stack fuel m = .ok (t, m1) →
      OperatorHeaded t ∧ ∀ (α : Type) (ar : Arith α), ∃ v, evaluate ar t = some v) ∧
    (∀ (stack : Nat → List Char → List Char),
      (∀ fuel e, ∃ rest, stack fuel e = NUL :: rest) →
      ∀ (fuel : Nat) (m : List Char) (t : ASTNODE) (m1 : List Char),
        parseWithStack stack fuel m = .ok (t, m1) → WellShaped t) := by
  refine ⟨fun _ => rfl, ?_, fun _ => rfl, ?_, ?_, ?_⟩
  · intro h
    rcases h.node_cases with ⟨h1, -⟩ | ⟨k, hk, -⟩
    · exact absurd h1 (by decide)
    · exact absurd hk (by simp)
  · intro stack hstack k l r hk hl hr fuel t m1 h hw
    obtain ⟨n, symbol, l1, r1, -, hsym, ht, hl1, -⟩ :=
      parseWithStack_render_root stack k l r hk hl hr fuel (t, m1) h
    have hkN : k ≠ NUL := by
      intro e; subst e; exact absurd hk (by decide)
    have hne := newASTSymbol_ne_single k _ symbol hkN (hstack n _) hsym
    obtain ⟨tail, htail⟩ := newASTSymbol_head k _ symbol hkN hsym
    simp only at ht
    subst ht
    rcases hw.node_cases with ⟨h1, -⟩ | ⟨k1, hk1, -⟩
    · exact hl1.ne_NULL h1
    · rw [htail] at hk1 hne
      simp only [List.cons.injEq] at hk1
      exact hne (by rw [hk1.2])
  · intro stack fuel m t m1 h
    have hs := parseWithStack_operatorHeaded stack fuel m (t, m1) h
    exact ⟨hs, fun _ ar => evaluate_operatorHeaded ar t hs⟩
  · intro stack hstack fuel m t m1 h
    rw [parseWithStack_terminated stack hstack] at h
    exact parse_wellShaped fuel m (t, m1) h

theorem parse_operator_symbol_takes_stack_bytes_witness :
    ¬ WellShaped (.node ['*', 'x'] (.node ['+', 'x'] (Leaf ['1']) (Leaf ['2'])) (Leaf ['3'])) ∧
    (OperatorHeaded (.node ['+', 'x'] (Leaf ['1']) (Leaf ['2'])) ∧
      ∀ (α : Type) (ar : Arith α), ∃ v,
        evaluate ar (.node ['+', 'x'] (Leaf ['1']) (Leaf ['2'])) = some v) ∧
    WellShaped (BinaryOp '*' (BinaryOp '+' (Leaf ['1']) (Leaf ['2'])) (Leaf ['3'])) :=
  ⟨parse_operator_symbol_takes_stack_bytes.2.2.2.1 (fun _ _ => ['x', NUL])
      (fun _ _ _ => by simp [NUL]) '*' (BinaryOp '+' (Leaf ['1']) (Leaf ['2'])) (Leaf ['3'])
      (by decide)
      (Parenthesised.operator '+' _ _ (by decide)
        (Parenthesised.leaf ['1'] (by decide)) (Parenthesised.leaf ['2'] (by decide)))
      (Parenthesised.leaf ['3'] (by decide)) 3 _ _ rfl,
   parse_operator_symbol_takes_stack_bytes.2.2.2.2.1 (fun _ _ => ['x', NUL]) 2
      (cstring "(1+2)".toList) _ _ rfl,
   parse_operator_symbol_takes_stack_bytes.2.2.2.2.2 (fun _ _ => [NUL])
      (fun _ _ => ⟨[], rfl⟩) 3 (cstring "(1+2)*3".toList) _ _ rfl⟩

/-- C14: `isNumeral("1.2.3")` is true although the string has two points: the
test for a second point is never reached, and `isNumeral` is true exactly when
every character is a numeral symbol. -/
theorem isNumeral_two_points :
    isNumeral (cstring "1.2.3".toList) = .ok true ∧
    "1.2.3".toList.count '.' = 2 ∧
    (∀ s : List Char, NUL ∉ s → isNumeral (cstring s) = .ok (s.all isNumeralSymbol)) :=
  ⟨by decide, by decide, isNumeral_cstring⟩

/-- C15: `isOperatorSymbol` is true exactly for `+ - * /`; `isBracketSymbol` is
1 for `(`, -1 for `)` and 0 for every other character; `isNumeralSymbol` is
true exactly for the digits `0` to `9` and the point; each character of the
alphabet `0123456789.+-*/()` is accepted by exactly one of the three. -/
theorem classifiers (ch : Char) :
    (isOperatorSymbol ch = true ↔ ch = '+' ∨ ch = '-' ∨ ch = '*' ∨ ch = '/') ∧
    isBracketSymbol '(' = 1 ∧ isBracketSymbol ')' = -1 ∧
    (ch ≠ '(' → ch ≠ ')' → isBracketSymbol ch = 0) ∧
    (isNumeralSymbol ch = true ↔ ('0' ≤ ch ∧ ch ≤ '9') ∨ ch = '.') ∧
    (isNumeralSymbol ch = true ↔
      ch ∈ ['0', '1', '2', '3', '4', '5', '6', '7', '8', '9', '.']) ∧
    (∀ x ∈ "0123456789.+-*/()".toList,
      (isNumeralSymbol x = true ∧ isOperatorSymbol x = false ∧ isBracketSymbol x = 0) ∨
      (isNumeralSymbol x = false ∧ isOperatorSymbol x = true ∧ isBracketSymbol x = 0) ∨
      (isNumeralSymbol x = false ∧ isOperatorSymbol x = false ∧ isBracketSymbol x ≠ 0)) :=
  ⟨isOperatorSymbol_iff ch, by decide, by decide, isBracketSymbol_other ch,
   isNumeralSymbol_iff ch, isNumeralSymbol_iff_mem ch, by decide⟩

theorem classifiers_witness : isBracketSymbol '7' = 0 :=
  (classifiers '7').2.2.2.1 (by decide) (by decide)

/-- C16: for every string `s`, what `removeOuterMostParen` returns is not
wrapped in an outer pair that it would remove, so applying it again changes
nothing; and it is `s` without its first `k` and its last `k` characters, for
some `k`. -/
theorem removeOuterMostParen_idempotent (s : List Char) (hNUL : NUL ∉ s) :
    strippedText (strippedText s) = strippedText s ∧
    ¬ Wrapped (strippedText s) ∧
    ∃ (k : Nat) (pre suf : List Char), pre.length = k ∧ suf.length = k ∧
      s = pre ++ strippedText s ++ suf := by
  obtain ⟨h1, h2, pre, suf, h3, h4⟩ := strippedText_core s hNUL
  exact ⟨strippedText_not_wrapped _ h2 h1, h1, pre.length, pre, suf, rfl, h3.symm, h4⟩

theorem removeOuterMostParen_idempotent_witness :
    strippedText (strippedText "((1+2))".toList) = strippedText "((1+2))".toList ∧
    ¬ Wrapped (strippedText "((1+2))".toList) ∧
    ∃ (k : Nat) (pre suf : List Char), pre.length = k ∧ suf.length = k ∧
      "((1+2))".toList = pre ++ strippedText "((1+2))".toList ++ suf :=
  removeOuterMostParen_idempotent "((1+2))".toList (by decide)

/-- C17: on `+`, `parse` calls itself on the same pointer with the array
unchanged, and never returns: whatever the depth allowed for the recursion, it
is used up, with no tree and no error. -/
theorem parse_plus_diverges :
    (∀ fuel : Nat, parse (fuel + 1) (cstring ['+']) =
      (parse fuel (cstring ['+'])).bind fun r => .ok (r.1, r.2)) ∧
    (∀ fuel : Nat, parse fuel (cstring ['+']) = .outOfFuel) := by
  have step : ∀ fuel : Nat, parse (fuel + 1) (cstring ['+']) =
      (parse fuel (cstring ['+'])).bind fun r => .ok (r.1, r.2) := fun _ => rfl
  refine ⟨step, fun fuel => ?_⟩
  induction fuel with
  | zero => rfl
  | succ n ih => rw [step, ih]; rfl

/-- C18: for the tree `t = BinaryOp('+', Leaf "1", Leaf "2")`, whose text is
`(1+2)`, `parse` does not read characters of `render(t)` only: it copies the
symbol of the node from the address of the local `op`, reading on behind it up
to the first terminator, and the returned tree is the node of the copied symbol
over the two leaves.  With nothing behind `op` that may be read the copy leaves
the object.  For every tree `BinaryOp(k, l, r)` of the claim, with no
terminator right behind `op` no run on its text returns it.  With a terminator
right behind `op` in every call, `parse` returns `t` on the text of every tree
`t` whose operator nodes carry one of `+ - * /` and whose leaves are
numerals. -/
theorem parse_render_reads_behind_operator :
    Parenthesised (BinaryOp '+' (Leaf ['1']) (Leaf ['2'])) ∧
    render (BinaryOp '+' (Leaf ['1']) (Leaf ['2'])) = "(1+2)".toList ∧
    (∀ (stack : Nat → List Char → List Char) (fuel : Nat),
      parseWithStack stack (fuel + 2) (cstring "(1+2)".toList) =
        (newASTSymbol ('+' :: stack (fuel + 1) (cstring "(1+2)".toList))).bind fun symbol =>
          .ok (.node symbol (Leaf ['1']) (Leaf ['2']), [NUL, NUL, NUL, NUL, NUL, NUL])) ∧
    (∀ fuel : Nat,
      parseWithStack (fun _ _ => []) (fuel + 1) (cstring "(1+2)".toList) = .outOfBounds) ∧
    (∀ fuel : Nat,
      parseWithStack (fun _ _ => ['x', NUL]) (fuel + 2) (cstring "(1+2)".toList) =
        .ok (.node ['+', 'x'] (Leaf ['1']) (Leaf ['2']), [NUL, NUL, NUL, NUL, NUL, NUL])) ∧
    (∀ (stack : Nat → List Char → List Char),
      (∀ fuel e rest, stack fuel e ≠ NUL :: rest) →
      ∀ (k : Char) (l r : ASTNODE), isOperatorSymbol k = true →
        Parenthesised l → Parenthesised r →
        ∀ (fuel : Nat) (res : ASTNODE × List Char),
          parseWithStack stack fuel (cstring (render (BinaryOp k l r))) = .ok res →
          res.1 ≠ BinaryOp k l r) ∧
    (∀ (stack : Nat → List Char → List Char),
      (∀ fuel e, ∃ rest, stack fuel e = NUL :: rest) →
      ∀ t : ASTNODE, Parenthesised t →
        ∃ fuel m, parseWithStack stack fuel (cstring (render t)) = .ok (t, m)) := by
  refine ⟨?_, rfl, parseWithStack_one_plus_two, fun _ => rfl, fun _ => rfl, ?_, ?_⟩
  · exact Parenthesised.operator '+' _ _ (by decide)
      (Parenthesised.leaf ['1'] (by decide)) (Parenthesised.leaf ['2'] (by decide))
  · intro stack hstack k l r hk hl hr fuel res h
    obtain ⟨n, symbol, l1, r1, -, hsym, hres, -, -⟩ :=
      parseWithStack_render_root stack k l r hk hl hr fuel res h
    have hkN : k ≠ NUL := by
      intro e; subst e; exact absurd hk (by decide)
    have hne := newASTSymbol_ne_single k _ symbol hkN (hstack n _) hsym
    rw [hres]
    intro e
    simp only [BinaryOp, ASTNODE.node.injEq] at e
    exact hne e.1
  · intro stack hstack t ht
    obtain ⟨fuel, hf⟩ := returns_render t ht
    obtain ⟨m, hm⟩ := parseTree_eq_ok fuel _ _ hf
    exact ⟨fuel, m, by rw [parseWithStack_terminated stack hstack]; exact hm⟩

theorem parse_render_reads_behind_operator_witness :
    (ASTNODE.node ['+', 'x'] (Leaf ['1']) (Leaf ['2']) ≠ BinaryOp '+' (Leaf ['1']) (Leaf ['2'])) ∧
    ∃ fuel m, parseWithStack (fun _ _ => [NUL]) fuel (cstring "((1+2)*3)".toList) =
      .ok (BinaryOp '*' (BinaryOp '+' (Leaf ['1']) (Leaf ['2'])) (Leaf ['3']), m) :=
  ⟨parse_render_reads_behind_operator.2.2.2.2.2.1 (fun _ _ => ['x', NUL])
      (fun _ _ _ => by simp [NUL]) '+' (Leaf ['1']) (Leaf ['2']) (by decide)
      (Parenthesised.leaf ['1'] (by decide)) (Parenthesised.leaf ['2'] (by decide)) 2
      (.node ['+', 'x'] (Leaf ['1']) (Leaf ['2']), [NUL, NUL, NUL, NUL, NUL, NUL]) rfl,
   parse_render_reads_behind_operator.2.2.2.2.2.2 (fun _ _ => [NUL]) (fun _ _ => ⟨[], rfl⟩)
    (BinaryOp '*' (BinaryOp '+' (Leaf ['1']) (Leaf ['2'])) (Leaf ['3']))
    (Parenthesised.operator '*' _ _ (by decide)
      (Parenthesised.operator '+' _ _ (by decide)
        (Parenthesised.leaf ['1'] (by decide)) (Parenthesised.leaf ['2'] (by decide)))
      (Parenthesised.leaf ['3'] (by decide)))⟩

end NumberSentence
